import Mathlib

/-!
# pTOTP: token store, sync protocol, persistence and refresh

A shallow embedding of `src/pTOTP.c`.  The C program keeps its state in
globals and function-local statics; here they are the fields of `State`.
Pointers to `TokenInfo` objects are addresses into an explicit heap, so that
aliasing, `NULL` keys and freed records are visible.  Everything the program
does to the outside (messages sent, persistent writes, calls of the external
code generator) is appended to `State.trace`.

Functions that can leave defined behaviour return `Except Fault`: a `NULL`
or dangling pointer dereferenced, an array index outside its array.

What the embedding takes for granted about the platform:
* `malloc` succeeds and returns an address not handed out before;
* `app_message_outbox_begin` and `app_message_outbox_send` accept the message;
* `persist_delete` removes the slot; a persistent write either stores the
  value and returns its size, or stores nothing and returns a negative status;
* a slot read at another type than it was written at, or an absent slot, gives
  the indeterminate content `Env` supplies;
* `int` arithmetic on the export cursor does not overflow.
The linked list is the list of its nodes' `key` pointers; the list nodes
themselves are not modelled as heap objects.
-/

namespace PTOTP

/-! ## Machine integers -/

/-- Conversion of an integer to a C `short` (16 bits, two's complement). -/
def toShort (v : Int) : Int := (v + 32768) % 65536 - 32768

/-- Conversion of an integer to `int8_t`. -/
def toInt8 (v : Int) : Int := (v + 128) % 256 - 128

/-- Conversion of an integer to a 32-bit unsigned type
(`unsigned int`, `unsigned long` and `uint32_t` on the target). -/
def toUInt32 (v : Int) : Int := v % 4294967296

/-! ## Constants -/

def P_UTCOFFSET : Int := 1
def P_TOKENS_COUNT : Int := 2
def P_SELECTED_LIST_INDEX : Int := 3
def P_TOKENS_START : Int := 10000
def P_SECRETS_START : Int := 20000
def MAX_NAME_LENGTH : Nat := 32
def S_SUCCESS : Int := 0

/-- The value of `sizeof(TokenInfo)` on the target (33 + 1 + 2 + 1 + 3 + 4 + 12 + 2 + 2). -/
def sizeof_TokenInfo : Nat := 60

/-- The value of `sizeof(int)` on the target. -/
def sizeof_int : Nat := 4

/-- Flags of `PersistenceWritebackFlags`, as the bit masks of the enum. -/
def PWNone : Nat := 0
def PWUTCOffset : Nat := 1
def PWTokens : Nat := 2
def PWSecrets : Nat := 4

/-! ## Data model -/

/-- The struct `TokenInfo`.  `name` is the C string held in `name[33]` (the
bytes before the terminating 0), `secret` is the content of the buffer the
`secret` pointer refers to, `code` is the 12-byte array `code[12]`. -/
structure TokenInfo where
  name : List Nat
  id : Int
  secret_length : Nat
  secret : List Nat
  code : List Nat
  digits : Int
deriving DecidableEq, Repr

/-- The struct `PublicTokenInfo`. -/
structure PublicTokenInfo where
  id : Int
  name : List Nat
deriving DecidableEq, Repr

deriving instance DecidableEq for Except

/-- Ways in which the C program leaves defined behaviour. -/
inductive Fault
  | null_deref
  | use_after_free
  | out_of_bounds
deriving DecidableEq, Repr

/-- Outcome of one write to the persistent store, chosen by the device:
`fail c` makes the write return the negative status `-(c+1)`. -/
inductive WriteOutcome
  | ok
  | fail (c : Nat)
deriving DecidableEq, Repr

/-- Content of a slot of the persistent store. -/
inductive PValue
  | int (v : Int)
  | token (t : TokenInfo)
  | data (b : List Nat)
deriving DecidableEq, Repr

/-- An outbound app message: the `AMReadTokenList_Result` tuple, if written,
and whether the `AMReadTokenList_Finished` tuple was written. -/
structure OutMessage where
  result : Option PublicTokenInfo
  finished : Bool
deriving DecidableEq, Repr

/-- Calls the program makes to its collaborators. -/
inductive Event
  | generateCode (secret : List Nat) (secret_length : Nat) (quantized_time : Int)
  | menu_layer_reload_data
  | show_no_tokens_message (shown : Bool)
  | app_message_outbox_send (m : OutMessage)
  | persist_write (key : Int) (v : PValue) (o : WriteOutcome)
  | persist_delete (key : Int)
  | persist_error_push (status : Int)
deriving DecidableEq, Repr

abbrev Heap := Nat → Option TokenInfo
abbrev Persist := Int → Option PValue

/-- The globals and function statics of the program, the heap of `TokenInfo`
objects, the persistent store, the row selected in the menu layer, and the
trace of collaborator calls.  `token_list` holds the `key` pointer of every
node of the linked list, in list order; `none` is a `NULL` key. -/
structure State where
  heap : Heap
  next_addr : Nat
  token_list : List (Option Nat)
  key_list_is_dirty : Bool
  utc_offset : Int
  token_list_retrieve_index : Int
  startup_selected_list_index : Int
  persist_writeback : Nat
  delta : Bool
  lastQuantizedTimeGenerated : Int
  persist : Persist
  selected_row : Int
  trace : List Event

/-- What the program takes from outside: the code generator of `generate.h`,
the build variant (`time_is_utc` stands for `PBL_SDK_3` being defined), and the
indeterminate content of freshly allocated memory and of a slot read at the
wrong type. -/
structure Env where
  generateCode : List Nat → Nat → Int → Int
  time_is_utc : Bool
  uninit_token : Nat → TokenInfo
  uninit_byte : Nat → Nat → Nat
  uninit_int : Int → Int

/-- An inbound dictionary: for each `AMKey` the tuple `dict_find` returns, if
any.  Integer tuples carry an `int32`, `AMCreateToken` and
`AMSetTokenListOrder` carry byte arrays, `AMCreateToken_Name` a C string and
`AMUpdateToken` the bytes of a `PublicTokenInfo`. -/
structure Message where
  AMSetUTCOffset : Option Int := none
  AMCreateToken : Option (List Nat) := none
  AMCreateToken_ID : Option Int := none
  AMCreateToken_Name : Option (List Nat) := none
  AMDeleteToken : Option Int := none
  AMClearTokens : Bool := false
  AMReadTokenList : Bool := false
  AMUpdateToken : Option PublicTokenInfo := none
  AMSetTokenListOrder : Option (List Nat) := none
  AMCreateToken_Digits : Option Int := none

/-- The content of a `TokenInfo` freshly returned by `malloc` at address `a`:
the indeterminate value the environment supplies, read at the field types
(16-bit `id` and `digits`, 8-bit `secret_length`, 12 bytes of `code`). -/
def fresh_token (env : Env) (a : Nat) : TokenInfo :=
  let g := env.uninit_token a
  { name := g.name, id := (g.id + 32768) % 65536 - 32768, secret_length := g.secret_length % 256,
    secret := g.secret, code := (g.code ++ List.replicate 12 0).take 12,
    digits := (g.digits + 32768) % 65536 - 32768 }

/-! ## Heap access -/

/-- Dereference of a `TokenInfo*`. -/
def deref (h : Heap) : Option Nat → Except Fault TokenInfo
  | none => .error .null_deref
  | some a =>
    match h a with
    | none => .error .use_after_free
    | some t => .ok t

/-- The heap after `free(key->secret); free(key)`; `free(NULL)` does nothing. -/
def heap_free (h : Heap) : Option Nat → Heap
  | none => h
  | some a => fun b => if b = a then none else h b

/-- The heap after the object at `a` is given the value `t`. -/
def heap_store (h : Heap) (a : Nat) (t : TokenInfo) : Heap :=
  fun b => if b = a then some t else h b

/-! ## Token list -/

def token_list_add (key : Option Nat) (st : State) : State :=
  { st with token_list := st.token_list ++ [key], key_list_is_dirty := true }

def token_by_list_index_nodes : List (Option Nat) → Nat → Except Fault (Option Nat)
  | [], _ => .error .null_deref
  | k :: _, 0 => .ok k
  | _ :: rest, i + 1 => token_by_list_index_nodes rest i

def token_by_list_index (st : State) (index : Int) : Except Fault (Option Nat) :=
  token_by_list_index_nodes st.token_list index.toNat

def token_by_id_nodes (h : Heap) (id : Int) : List (Option Nat) → Except Fault (Option Nat)
  | [] => .ok none
  | k :: rest =>
    match deref h k with
    | .error f => .error f
    | .ok t => if t.id = id then .ok k else token_by_id_nodes h id rest

def token_by_id (st : State) (id : Int) : Except Fault (Option Nat) :=
  token_by_id_nodes st.heap id st.token_list

def token_list_length (st : State) : Int := toShort st.token_list.length

def token_list_clear_nodes : List (Option Nat) → Heap → Except Fault Heap
  | [], h => .ok h
  | k :: rest, h =>
    match deref h k with
    | .error f => .error f
    | .ok _ => token_list_clear_nodes rest (heap_free h k)

def token_list_clear (st : State) : Except Fault State :=
  match token_list_clear_nodes st.token_list st.heap with
  | .error f => .error f
  | .ok h => .ok { st with heap := h, token_list := [], key_list_is_dirty := true }

def token_list_delete (key : Option Nat) (st : State) : State × Bool :=
  if key ∈ st.token_list then
    ({ st with token_list := st.token_list.erase key, key_list_is_dirty := true }, true)
  else (st, false)

def token_list_supplant (newList : List (Option Nat)) (st : State) : State :=
  { st with token_list := newList, key_list_is_dirty := true }

/-! ## Conversions and formatting -/

/-- The C string left in `dst` by `strncpy(dst, src, MAX_NAME_LENGTH)` followed
by `dst[MAX_NAME_LENGTH] = 0`. -/
def strncpy_name (src : List Nat) : List Nat :=
  (src.takeWhile (fun c => c != 0)).take MAX_NAME_LENGTH

def tokeninfo2publicinfo (key : TokenInfo) : PublicTokenInfo :=
  { id := key.id, name := strncpy_name key.name }

def publicinfo2tokeninfo (pub : PublicTokenInfo) (key : TokenInfo) : TokenInfo :=
  { key with id := pub.id, name := strncpy_name pub.name }

/-- The assignment `out[i] = v` on a character buffer.  An index outside the
buffer (undefined behaviour in C) ends the run with `out_of_bounds`. -/
def buf_write (out : List Nat) (i : Int) (v : Nat) : Except Fault (List Nat) :=
  if 0 ≤ i ∧ i < out.length then .ok (out.set i.toNat v) else .error .out_of_bounds

/-- The loop of `code2char`; the first argument counts the iterations left. -/
def code2char_loop (length : Int) : Nat → Int → Int → List Nat → Except Fault (List Nat)
  | 0, _, _, out => .ok out
  | n + 1, x, code, out =>
    match buf_write out (length - 1 - x) (48 + code % 10).toNat with
    | .error f => .error f
    | .ok out1 => code2char_loop length n (x + 1) (code / 10) out1

def code2char (code : Int) (out : List Nat) (length : Int) : Except Fault (List Nat) :=
  match buf_write out length 0 with
  | .error f => .error f
  | .ok out1 => code2char_loop length length.toNat 0 code out1

/-- The loop of `code2charspace`; the first argument bounds the iterations
(every iteration increases `x`, so `length + 1` of them are enough). -/
def code2charspace_loop (length : Int) : Nat → Int → Int → List Nat → Except Fault (List Nat)
  | 0, _, _, out => .ok out
  | n + 1, x, code, out =>
    if x ≤ length then
      if x = length / 2 then
        match buf_write out (length - x) 32 with
        | .error f => .error f
        | .ok out1 =>
          match buf_write out1 (length - (x + 1)) (48 + code % 10).toNat with
          | .error f => .error f
          | .ok out2 => code2charspace_loop length n (x + 2) (code / 10) out2
      else
        match buf_write out (length - x) (48 + code % 10).toNat with
        | .error f => .error f
        | .ok out1 => code2charspace_loop length n (x + 1) (code / 10) out1
    else .ok out

def code2charspace (code : Int) (out : List Nat) (length : Int) : Except Fault (List Nat) :=
  match buf_write out (length + 1) 0 with
  | .error f => .error f
  | .ok out1 => code2charspace_loop length (length + 1).toNat 0 code out1

/-! ## Refresh -/

def emit (e : Event) (st : State) : State := { st with trace := st.trace ++ [e] }

def quantized_time (env : Env) (now : Int) (utc_offset : Int) : Int :=
  toUInt32 (if env.time_is_utc then now else now - utc_offset) / 30

/-- The `while (keyNode)` loop of `refresh_all`. -/
def refresh_all_nodes (env : Env) (q : Int) : List (Option Nat) → State → Except Fault State
  | [], st => .ok st
  | k :: rest, st =>
    match k with
    | none => .error .null_deref
    | some a =>
    match st.heap a with
    | none => .error .use_after_free
    | some t =>
      let code := toUInt32 (env.generateCode t.secret t.secret_length q)
      let st1 := emit (.generateCode t.secret t.secret_length q) st
      match (if t.digits > 6 then code2charspace code t.code t.digits
             else code2char code t.code t.digits) with
      | .error f => .error f
      | .ok c =>
        refresh_all_nodes env q rest { st1 with heap := heap_store st1.heap a { t with code := c } }

def refresh_all (env : Env) (now : Int) (st : State) : Except Fault State :=
  let q := quantized_time env now st.utc_offset
  if q = st.lastQuantizedTimeGenerated ∧ st.key_list_is_dirty = false then .ok st
  else
    let st1 := { st with key_list_is_dirty := false, lastQuantizedTimeGenerated := q }
    match refresh_all_nodes env q st1.token_list st1 with
    | .error f => .error f
    | .ok st2 =>
      let hasKeys := !st1.token_list.isEmpty
      let st3 := if hasKeys then emit .menu_layer_reload_data st2 else st2
      .ok (emit (.show_no_tokens_message (!hasKeys)) st3)

/-! ## Persistent store -/

/-- Conversion of an `int` expression to the `uint32_t` key of a slot. -/
def persist_key (k : Int) : Int := toUInt32 k

def persist_exists (st : State) (key : Int) : Bool := (st.persist (persist_key key)).isSome

def persist_read_int (env : Env) (st : State) (key : Int) : Int :=
  match st.persist (persist_key key) with
  | some (.int v) => v
  | _ => env.uninit_int key

/-- The `TokenInfo` left in a freshly allocated record at address `a` by
`persist_read_data(key, record, sizeof(TokenInfo))`, for a slot that holds a
metadata record or is absent.  The byte layout of the struct is not part of
the model: for a slot that holds a value of another type (an `int` or secret
bytes, copied over the start of the struct by the code) the record is taken
as allocated. -/
def persist_read_token (env : Env) (st : State) (key : Int) (a : Nat) : TokenInfo :=
  match st.persist (persist_key key) with
  | some (.token t) => t
  | _ => fresh_token env a

/-- The bytes left in a freshly allocated buffer of `n` bytes (belonging to
the record at address `a`) by `persist_read_data(key, buffer, n)`: the stored
bytes as far as they go, then what the buffer held.  As for
`persist_read_token`, a slot that holds a value of another type leaves the
buffer as allocated. -/
def persist_read_bytes (env : Env) (st : State) (key : Int) (a : Nat) (n : Nat) : List Nat :=
  let fresh := (List.range n).map (env.uninit_byte a)
  match st.persist (persist_key key) with
  | some (.data b) => b.take n ++ fresh.drop (b.take n).length
  | _ => fresh

/-- A write of `v` (of `size` bytes) to slot `key`; returns the state and the
value the write call returns: `size` on success, a negative status otherwise. -/
def persist_write (o : WriteOutcome) (key : Int) (v : PValue) (size : Nat) (st : State) :
    State × Int :=
  match o with
  | .ok =>
    (emit (.persist_write (persist_key key) v o)
      { st with persist := fun k => if k = persist_key key then some v else st.persist k }, size)
  | .fail c => (emit (.persist_write (persist_key key) v o) st, -((c : Int) + 1))

def persist_delete (key : Int) (st : State) : State :=
  emit (.persist_delete (persist_key key))
    { st with persist := fun k => if k = persist_key key then none else st.persist k }

/-- The locals of `persist_do_writeback`, with the state and the number of
writes attempted so far in the pass. -/
structure Writeback where
  st : State
  writeback_ok : Bool
  writeback_status : Int
  attempts : Nat

/-- The body `writeback_status = min(0, persist_write_int(key, value));
writeback_ok &= writeback_status == S_SUCCESS;`. -/
def writeback_int (oracle : Nat → WriteOutcome) (key : Int) (value : Int) (w : Writeback) :
    Writeback :=
  let r := persist_write (oracle w.attempts) key (.int value) sizeof_int w.st
  let status := min 0 r.2
  { st := r.1, writeback_ok := w.writeback_ok && decide (status = S_SUCCESS),
    writeback_status := status, attempts := w.attempts + 1 }

/-- The body `writeback_status = (persist_write_data(key, data, size) == size) ?
S_SUCCESS : code; writeback_ok &= writeback_status == S_SUCCESS;`. -/
def writeback_data (oracle : Nat → WriteOutcome) (key : Int) (v : PValue) (size : Nat)
    (code : Int) (w : Writeback) : Writeback :=
  let r := persist_write (oracle w.attempts) key v size w.st
  let status := if r.2 = size then S_SUCCESS else code
  { st := r.1, writeback_ok := w.writeback_ok && decide (status = S_SUCCESS),
    writeback_status := status, attempts := w.attempts + 1 }

/-- The loop over the nodes that writes the metadata records. -/
def writeback_tokens (oracle : Nat → WriteOutcome) :
    List (Option Nat) → Int → Writeback → Except Fault Writeback
  | [], _, w => .ok w
  | k :: rest, idx, w =>
    if w.writeback_ok then
      match deref w.st.heap k with
      | .error f => .error f
      | .ok t =>
        writeback_tokens oracle rest (toShort (idx + 1))
          (writeback_data oracle (P_TOKENS_START + idx) (.token t) sizeof_TokenInfo (-64) w)
    else .ok w

/-- The loop over the nodes that writes the secrets. -/
def writeback_secrets (oracle : Nat → WriteOutcome) :
    List (Option Nat) → Writeback → Except Fault Writeback
  | [], w => .ok w
  | k :: rest, w =>
    if w.writeback_ok then
      match deref w.st.heap k with
      | .error f => .error f
      | .ok t =>
        writeback_secrets oracle rest
          (writeback_data oracle (P_SECRETS_START + t.id) (.data (t.secret.take t.secret_length))
            t.secret_length (-63) w)
    else .ok w

def has_flag (flags flag : Nat) : Bool := (flags &&& flag) == flag

def persist_do_writeback (oracle : Nat → WriteOutcome) (st : State) : Except Fault State :=
  let w0 : Writeback := { st := st, writeback_ok := true, writeback_status := S_SUCCESS, attempts := 0 }
  let w1 := if has_flag st.persist_writeback PWUTCOffset then
      writeback_int oracle P_UTCOFFSET st.utc_offset w0 else w0
  let w2 := if st.startup_selected_list_index ≠ st.selected_row ∧ w1.writeback_ok then
      writeback_int oracle P_SELECTED_LIST_INDEX st.selected_row w1 else w1
  let r3 := if has_flag st.persist_writeback PWTokens ∧ w2.writeback_ok then
      writeback_tokens oracle st.token_list 0
        (writeback_int oracle P_TOKENS_COUNT (token_list_length st) w2)
    else .ok w2
  match r3 with
  | .error f => .error f
  | .ok w3 =>
    let r4 := if has_flag st.persist_writeback PWSecrets ∧ w3.writeback_ok then
        writeback_secrets oracle st.token_list w3 else .ok w3
    match r4 with
    | .error f => .error f
    | .ok w4 =>
      let st5 := if w4.writeback_ok then w4.st else emit (.persist_error_push w4.writeback_status) w4.st
      .ok { st5 with persist_writeback := PWNone }

/-! ## Export handshake -/

def token_list_retrieve_iter (st : State) : Except Fault State :=
  if st.token_list_retrieve_index = token_list_length st then
    if st.token_list_retrieve_index = 0 then
      .ok (emit (.app_message_outbox_send { result := none, finished := true }) st)
    else .ok st
  else
    match token_by_list_index st st.token_list_retrieve_index with
    | .error f => .error f
    | .ok key =>
      match deref st.heap key with
      | .error f => .error f
      | .ok t =>
        let finished := decide (st.token_list_retrieve_index + 1 = token_list_length st)
        let st1 := emit (.app_message_outbox_send
          { result := some (tokeninfo2publicinfo t), finished := finished }) st
        .ok { st1 with token_list_retrieve_index := st.token_list_retrieve_index + 1 }

def out_sent_handler (sent : OutMessage) (st : State) : Except Fault State :=
  if sent.result.isSome then token_list_retrieve_iter st else .ok st

/-! ## Inbound messages -/

/-- Conversion of an integer to `int32_t`. -/
def toInt32 (v : Int) : Int := (v + 2147483648) % 4294967296 - 2147483648

/-- The `AMSetUTCOffset` block of `in_received_handler`. -/
def am_set_utc_offset (m : Message) (st : State) : State :=
  match m.AMSetUTCOffset with
  | none => st
  | some v =>
    let st1 := if st.utc_offset ≠ toInt32 v then
        { st with delta := true, persist_writeback := st.persist_writeback ||| PWUTCOffset }
      else st
    { st1 with utc_offset := toInt32 v }

/-- The `AMClearTokens` block. -/
def am_clear_tokens (m : Message) (st : State) : Except Fault State :=
  if m.AMClearTokens then
    match token_list_clear st with
    | .error f => .error f
    | .ok st1 =>
      .ok { st1 with persist_writeback := st1.persist_writeback ||| PWTokens, delta := true }
  else .ok st

/-- The `AMDeleteToken` block. -/
def am_delete_token (m : Message) (st : State) : Except Fault State :=
  match m.AMDeleteToken with
  | none => .ok st
  | some v =>
    match token_by_id st (toInt8 v) with
    | .error f => .error f
    | .ok key =>
      match deref st.heap key with
      | .error f => .error f
      | .ok t =>
        let st1 := persist_delete (P_SECRETS_START + t.id) st
        let st2 := (token_list_delete key st1).1
        .ok { st2 with heap := heap_free st2.heap key,
                       persist_writeback := st2.persist_writeback ||| PWTokens, delta := true }

/-- The `AMUpdateToken` block. -/
def am_update_token (m : Message) (st : State) : Except Fault State :=
  match m.AMUpdateToken with
  | none => .ok st
  | some pub =>
    match token_by_id st (toShort pub.id) with
    | .error f => .error f
    | .ok none => .error .null_deref
    | .ok (some a) =>
      match st.heap a with
      | none => .error .use_after_free
      | some t =>
        .ok { st with heap := heap_store st.heap a
                        (publicinfo2tokeninfo { pub with id := toShort pub.id } t),
                      persist_writeback := st.persist_writeback ||| PWTokens, delta := true }

/-- The `AMCreateToken` block. -/
def am_create_token (env : Env) (m : Message) (st : State) : Except Fault State :=
  match m.AMCreateToken with
  | none => .ok st
  | some secret =>
    match secret with
    | [] => .error .out_of_bounds
    | len :: rest =>
      let secret_length := len % 256
      if rest.length < secret_length then .error .out_of_bounds
      else
        match m.AMCreateToken_ID, m.AMCreateToken_Name, m.AMCreateToken_Digits with
        | some id, some name, some digits =>
          let a := st.next_addr
          let newKey : TokenInfo :=
            { name := strncpy_name name, id := toShort (toInt32 id),
              secret_length := secret_length, secret := rest.take secret_length,
              code := (fresh_token env a).code, digits := toShort (toInt32 digits) }
          let st1 := { st with heap := heap_store st.heap a newKey, next_addr := a + 1 }
          let st2 := token_list_add (some a) st1
          .ok { st2 with persist_writeback := st2.persist_writeback ||| (PWTokens ||| PWSecrets),
                         delta := true }
        | _, _, _ => .error .null_deref

/-- The `AMReadTokenList` block. -/
def am_read_token_list (m : Message) (st : State) : Except Fault State :=
  if m.AMReadTokenList then
    token_list_retrieve_iter { st with token_list_retrieve_index := 0 }
  else .ok st

/-- The loop of the `AMSetTokenListOrder` block that builds the new list: the
first argument counts the iterations left, the second is `i`. -/
def reorder_build (st : State) (data : List Nat) : Nat → Nat → Except Fault (List (Option Nat))
  | 0, _ => .ok []
  | n + 1, i =>
    match data.get? i with
    | none => .error .out_of_bounds
    | some b =>
      match token_by_id st (toShort (b % 256)) with
      | .error f => .error f
      | .ok key =>
        match reorder_build st data n (i + 1) with
        | .error f => .error f
        | .ok keys => .ok (key :: keys)

/-- The `AMSetTokenListOrder` block. -/
def am_set_token_list_order (m : Message) (st : State) : Except Fault State :=
  match m.AMSetTokenListOrder with
  | none => .ok st
  | some data =>
    match reorder_build st data (token_list_length st).toNat 0 with
    | .error f => .error f
    | .ok newList =>
      let st1 := token_list_supplant newList st
      .ok { st1 with persist_writeback := st1.persist_writeback ||| PWTokens, delta := true }

def in_received_handler (env : Env) (now : Int) (oracle : Nat → WriteOutcome)
    (received : Message) (st : State) : Except Fault State :=
  let st1 := am_set_utc_offset received st
  match am_clear_tokens received st1 with
  | .error f => .error f
  | .ok st2 =>
  match am_delete_token received st2 with
  | .error f => .error f
  | .ok st3 =>
  match am_update_token received st3 with
  | .error f => .error f
  | .ok st4 =>
  match am_create_token env received st4 with
  | .error f => .error f
  | .ok st5 =>
  match am_read_token_list received st5 with
  | .error f => .error f
  | .ok st6 =>
  match am_set_token_list_order received st6 with
  | .error f => .error f
  | .ok st7 =>
    if st7.delta then
      match refresh_all env now st7 with
      | .error f => .error f
      | .ok st8 => persist_do_writeback oracle st8
    else .ok st7

/-! ## Startup load -/

/-- The `for` loop of `handle_init` that reads the records back: the first
argument counts the iterations left, the second is `i`. -/
def load_tokens (env : Env) : Nat → Int → State → State
  | 0, _, st => st
  | n + 1, i, st =>
    let a := st.next_addr
    let key := persist_read_token env st (P_TOKENS_START + i) a
    let secret := persist_read_bytes env st (P_SECRETS_START + key.id) a key.secret_length
    let st1 := { st with heap := heap_store st.heap a { key with secret := secret },
                         next_addr := a + 1 }
    load_tokens env n (i + 1) (token_list_add (some a) st1)

/-- The part of `handle_init` under "Load persisted data". -/
def handle_init_load (env : Env) (st : State) : State :=
  let offset := if persist_exists st P_UTCOFFSET then persist_read_int env st P_UTCOFFSET else 0
  let st1 := { st with utc_offset := offset }
  if persist_exists st1 P_TOKENS_COUNT then
    let ct := persist_read_int env st1 P_TOKENS_COUNT
    load_tokens env ct.toNat 0 st1
  else st1

/-! ## States used in examples -/

/-- The state at program start: the initial values of the globals and statics,
an empty heap, and the given persistent store and selected row. -/
def State.startup (persist : Persist) (selected_row : Int) : State :=
  { heap := fun _ => none, next_addr := 0, token_list := [], key_list_is_dirty := false,
    utc_offset := 0, token_list_retrieve_index := 0, startup_selected_list_index := 0,
    persist_writeback := PWNone, delta := false, lastQuantizedTimeGenerated := 0,
    persist := persist, selected_row := selected_row, trace := [] }

/-- A state whose token list holds the given records, in order, at the
addresses `0, 1, ...`; everything else as at program start. -/
def State.of_records (ts : List TokenInfo) : State :=
  { State.startup (fun _ => none) 0 with
    heap := fun a => ts.get? a
    next_addr := ts.length
    token_list := (List.range ts.length).map some }

/-- Dereference of the key of every node, in list order. -/
def deref_all (h : Heap) : List (Option Nat) → Except Fault (List TokenInfo)
  | [] => .ok []
  | k :: rest =>
    match deref h k with
    | .error f => .error f
    | .ok t =>
      match deref_all h rest with
      | .error f => .error f
      | .ok ts => .ok (t :: ts)

/-- The records of the token list in list order (the traversal every loop over
the list performs); a fault when some node has a `NULL` or freed key. -/
def records (st : State) : Except Fault (List TokenInfo) :=
  deref_all st.heap st.token_list

/-- An environment whose code generator returns 0 and whose indeterminate
memory is all zero. -/
def Env.zero : Env :=
  { generateCode := fun _ _ _ => 0, time_is_utc := false,
    uninit_token := fun _ => { name := [], id := 0, secret_length := 0, secret := [],
                               code := List.replicate 12 0, digits := 0 },
    uninit_byte := fun _ _ => 0, uninit_int := fun _ => 0 }

/-- The little-endian bytes of an array of shorts. -/
def shorts_bytes : List Int → List Nat
  | [] => []
  | v :: rest => (v % 256).toNat :: ((v / 256) % 256).toNat :: shorts_bytes rest

/-- Example records. -/
def token_A : TokenInfo :=
  { name := [65], id := 1, secret_length := 5, secret := [1, 2, 3, 4, 5],
    code := List.replicate 12 0, digits := 6 }

def token_B : TokenInfo :=
  { name := [66], id := 2, secret_length := 1, secret := [9],
    code := List.replicate 12 0, digits := 8 }

def token_300 : TokenInfo := { token_A with id := 300 }

def token_neg : TokenInfo := { token_A with id := -10000 }

/-- A writeback pass with the token and secret flags set, on a state holding
the given records and an empty persistent store, every write succeeding. -/
def writeback_records (ts : List TokenInfo) : Except Fault State :=
  persist_do_writeback (fun _ => .ok)
    { State.of_records ts with persist_writeback := PWTokens ||| PWSecrets }

/-- The records the startup load builds from the persistent store that
`writeback_records` leaves. -/
def round_trip (env : Env) (ts : List TokenInfo) : Except Fault (List TokenInfo) :=
  match writeback_records ts with
  | .error f => .error f
  | .ok st => records (handle_init_load env (State.startup st.persist 0))

/-! ## The channel: acknowledgement of sent messages -/

/-- The messages handed to `app_message_outbox_send` so far. -/
def sent_messages (st : State) : List OutMessage :=
  st.trace.filterMap fun e =>
    match e with
    | .app_message_outbox_send m => some m
    | _ => none

/-- The app-message runtime acknowledging sent messages one at a time, oldest
first, by calling `out_sent_handler`, until none is left unacknowledged (or
the bound on the number of acknowledgements is reached).  `acked` is the
number of sent messages already acknowledged; the result carries its final
value. -/
def ack_pending : Nat → Nat → State → Except Fault (State × Nat)
  | 0, acked, st => .ok (st, acked)
  | fuel + 1, acked, st =>
    match (sent_messages st).get? acked with
    | none => .ok (st, acked)
    | some m =>
      match out_sent_handler m st with
      | .error f => .error f
      | .ok st1 => ack_pending fuel (acked + 1) st1

/-- A Read-token-list request followed by the acknowledgement of every
message the export sends. -/
def export_handshake (fuel : Nat) (m : Message) (st : State) : Except Fault (State × Nat) :=
  match am_read_token_list m st with
  | .error f => .error f
  | .ok st1 => ack_pending fuel (sent_messages st).length st1

/-- The result messages of an export of `n` records, for the records from
position `i` on. -/
def export_results (n : Nat) : Nat → List TokenInfo → List OutMessage
  | _, [] => []
  | i, t :: rest =>
    { result := some { id := t.id, name := strncpy_name t.name },
      finished := decide (i + 1 = n) } :: export_results n (i + 1) rest

/-- The messages of a whole export: one result message per record, or the
lone finished marker when there is no record. -/
def export_messages (ts : List TokenInfo) : List OutMessage :=
  match ts with
  | [] => [{ result := none, finished := true }]
  | _ => export_results ts.length 0 ts

/-! ## Sequences of create-token and delete-token messages -/

/-- A create-token message (the secret field with its three sibling fields)
or a delete-token message, as the companion sends them. -/
inductive Op
  | create (secret : List Nat) (id : Int) (name : List Nat) (digits : Int)
  | delete (id : Int)

def Op.message : Op → Message
  | .create secret id name digits =>
    { AMCreateToken := some secret, AMCreateToken_ID := some id,
      AMCreateToken_Name := some name, AMCreateToken_Digits := some digits }
  | .delete id => { AMDeleteToken := some id }

/-- What surrounds the arrival of one message: the wall-clock time and the
outcomes of the persistent writes of its writeback pass. -/
structure Arrival where
  now : Int
  oracle : Nat → WriteOutcome

/-- `in_received_handler` applied to a sequence of messages. -/
def run_ops (env : Env) : List (Arrival × Op) → State → Except Fault State
  | [], st => .ok st
  | (a, op) :: rest, st =>
    match in_received_handler env a.now a.oracle op.message st with
    | .error f => .error f
    | .ok st1 => run_ops env rest st1

/-- The ids the messages create, as the handler stores them (16 bits). -/
def created_ids : List (Arrival × Op) → List Int
  | [] => []
  | (_, .create _ id _ _) :: rest => toShort (toInt32 id) :: created_ids rest
  | (_, .delete _) :: rest => created_ids rest

/-- The ids the messages delete. -/
def deleted_ids : List (Arrival × Op) → List Int
  | [] => []
  | (_, .create _ _ _ _) :: rest => deleted_ids rest
  | (_, .delete id) :: rest => id :: deleted_ids rest

/-- The ids expected in the store, in order, after the messages, from the
ids `ids` before: a create appends its id, a delete removes its id. -/
def expected_ids : List (Arrival × Op) → List Int → List Int
  | [], ids => ids
  | (_, .create _ id _ _) :: rest, ids => expected_ids rest (ids ++ [toShort (toInt32 id)])
  | (_, .delete id) :: rest, ids => expected_ids rest (ids.erase id)

/-- The messages the amended C6 speaks of: every create carries a
length-prefixed secret, a digit count from 0 to 10 and an id not in the store
when it arrives; every delete carries an id in the `int8` range that is in
the store when it arrives. -/
def valid_ops : List (Arrival × Op) → List Int → Prop
  | [], _ => True
  | (_, .create secret id _ digits) :: rest, ids =>
    (∃ len bytes, secret = len :: bytes ∧ len % 256 ≤ bytes.length) ∧
    0 ≤ toShort (toInt32 digits) ∧ toShort (toInt32 digits) ≤ 10 ∧
    toShort (toInt32 id) ∉ ids ∧
    valid_ops rest (ids ++ [toShort (toInt32 id)])
  | (_, .delete id) :: rest, ids =>
    -128 ≤ id ∧ id ≤ 127 ∧ id ∈ ids ∧ valid_ops rest (ids.erase id)

/-- The ids of the records of the token list, in list order. -/
def store_ids (st : State) : Except Fault (List Int) :=
  match records st with
  | .error f => .error f
  | .ok ts => .ok (ts.map fun t => t.id)

/-- A record that `refresh_all` can render: its `code` array has 12 bytes and
its digit count is from 0 to 10. -/
def renderable (t : TokenInfo) : Prop := t.code.length = 12 ∧ 0 ≤ t.digits ∧ t.digits ≤ 10

/-- The id of the record at address `a` (0 when there is none). -/
def id_at (h : Heap) (a : Nat) : Int :=
  match h a with
  | some t => t.id
  | none => 0

/-- The list nodes hold pairwise distinct live renderable records, allocated
below `next_addr`, and their ids are `ids`, pairwise distinct. -/
def StoreInv (st : State) (ids : List Int) : Prop :=
  ∃ addrs : List Nat,
    st.token_list = addrs.map some ∧ addrs.Nodup ∧ (∀ a ∈ addrs, a < st.next_addr) ∧
    (∀ a ∈ addrs, ∃ t, st.heap a = some t ∧ renderable t) ∧
    addrs.map (id_at st.heap) = ids ∧ ids.Nodup

/-- Two heap cells that differ at most in the content of the `code` array. -/
def same_but_code : Option TokenInfo → Option TokenInfo → Prop
  | none, none => True
  | some t, some t1 => ∃ c : List Nat, c.length = t.code.length ∧ t1 = { t with code := c }
  | _, _ => False

/-- An arrival at wall-clock time 10 with every persistent write succeeding. -/
def arrival_ok : Arrival := { now := 10, oracle := fun _ => .ok }

/-- Two create-token messages carrying the same id 1. -/
def ops_same_id : List (Arrival × Op) :=
  [(arrival_ok, .create [1, 7] 1 [65] 6), (arrival_ok, .create [1, 8] 1 [66] 6)]

/-- Create id 1, create id 2, delete id 1. -/
def ops_create_delete : List (Arrival × Op) :=
  [(arrival_ok, .create [1, 7] 1 [65] 6), (arrival_ok, .create [1, 8] 2 [66] 8),
   (arrival_ok, .delete 1)]

/-- The fault a run ended in, if it did. -/
def fault_of {α : Type} : Except Fault α → Option Fault
  | .error f => some f
  | .ok _ => none

/-- A message carrying the create-token secret field and none of its siblings. -/
def message_secret_only : Message := { AMCreateToken := some [1, 7] }

/-- A complete create-token message. -/
def message_create : Message :=
  { AMCreateToken := some [2, 7, 8, 9], AMCreateToken_ID := some 3,
    AMCreateToken_Name := some [67], AMCreateToken_Digits := some 6 }

def token_44 : TokenInfo := { token_A with id := 44 }

/-- A store holding the records of ids 1 and 2. -/
def state_AB : State := State.of_records [token_A, token_B]

/-- A store holding record A, marked dirty as after a mutation. -/
def state_A_dirty : State := { State.of_records [token_A] with key_list_is_dirty := true }

/-- The metadata writes of the token loop, for the records `ts` from index
`idx` on. -/
def planned_tokens : List TokenInfo → Int → List (Int × PValue)
  | [], _ => []
  | t :: rest, idx => (P_TOKENS_START + idx, .token t) :: planned_tokens rest (toShort (idx + 1))

/-- The writes of the secrets loop. -/
def planned_secrets : List TokenInfo → List (Int × PValue)
  | [] => []
  | t :: rest =>
    (P_SECRETS_START + t.id, .data (t.secret.take t.secret_length)) :: planned_secrets rest

/-- The writes of one pass over a state whose list holds the records `ts`,
in the order of the source. -/
def planned_writes (st : State) (ts : List TokenInfo) : List (Int × PValue) :=
  (if has_flag st.persist_writeback PWUTCOffset then [(P_UTCOFFSET, .int st.utc_offset)] else []) ++
  (if st.startup_selected_list_index ≠ st.selected_row then
    [(P_SELECTED_LIST_INDEX, .int st.selected_row)] else []) ++
  (if has_flag st.persist_writeback PWTokens then
    (P_TOKENS_COUNT, .int (token_list_length st)) :: planned_tokens ts 0 else []) ++
  (if has_flag st.persist_writeback PWSecrets then planned_secrets ts else [])

/-- The status the pass records for a write that returned `-(c+1)`: the
returned status for a scalar, -64 for a metadata record, -63 for a secret. -/
def failure_status (v : PValue) (c : Nat) : Int :=
  match v with
  | .int _ => -((c : Int) + 1)
  | .token _ => -64
  | .data _ => -63

/-- Attempting a list of writes in order, the `j`-th of them with outcome
`oracle (i + j)`, stopping after the first that fails: the persistent store
afterwards, the write events, and the status recorded for the failing write
if there is one. -/
def attempt_writes (oracle : Nat → WriteOutcome) :
    Nat → List (Int × PValue) → Persist → Persist × List Event × Option Int
  | _, [], p => (p, [], none)
  | i, (key, v) :: rest, p =>
    match oracle i with
    | .ok =>
      let r := attempt_writes oracle (i + 1) rest
        (fun k => if k = persist_key key then some v else p k)
      (r.1, .persist_write (persist_key key) v .ok :: r.2.1, r.2.2)
    | .fail c => (p, [.persist_write (persist_key key) v (.fail c)], some (failure_status v c))

/-- The locals `w` of a pass started in `st0` are what attempting the writes
`P` leaves: the state, the running success flag, the recorded status and the
number of attempts. -/
def Tracks (oracle : Nat → WriteOutcome) (st0 : State) (P : List (Int × PValue))
    (w : Writeback) : Prop :=
  w.st = { st0 with persist := (attempt_writes oracle 0 P st0.persist).1,
                    trace := st0.trace ++ (attempt_writes oracle 0 P st0.persist).2.1 } ∧
  (w.writeback_ok = true ↔ (attempt_writes oracle 0 P st0.persist).2.2 = none) ∧
  (∀ c, (attempt_writes oracle 0 P st0.persist).2.2 = some c → w.writeback_status = c) ∧
  (w.writeback_ok = true → w.attempts = P.length)

/-- The write events of the writes `P`, the `j`-th with outcome `oracle (i + j)`. -/
def write_events (oracle : Nat → WriteOutcome) : Nat → List (Int × PValue) → List Event
  | _, [] => []
  | i, (key, v) :: rest =>
    .persist_write (persist_key key) v (oracle i) :: write_events oracle (i + 1) rest

/-- The device failing every write with status -1. -/
def oracle_all_fail : Nat → WriteOutcome := fun _ => .fail 0

/-- The call of `persist_error_push` at the end of a pass, if any. -/
def push_events : Option Int → List Event
  | none => []
  | some status => [.persist_error_push status]

/-- The outcome recorded in a write event. -/
def Event.write_outcome : Event → Option WriteOutcome
  | .persist_write _ _ o => some o
  | _ => none

/-- A state with the utc-offset flag set and a new offset to write. -/
def state_offset_dirty : State :=
  { State.startup (fun _ => none) 0 with utc_offset := 3600, persist_writeback := PWUTCOffset }

/-- A state holding one record with the token flag set. -/
def state_tokens_dirty : State :=
  { State.of_records [token_A] with persist_writeback := PWTokens }

/-- The device accepting the first write and then failing each with status -1. -/
def oracle_second_fails : Nat → WriteOutcome
  | 0 => .ok
  | _ => .fail 0

/-! ## Rendered codes as the specification words them -/

/-- The C string a character buffer holds: the bytes before the first NUL. -/
def cstring (buf : List Nat) : List Nat := buf.takeWhile (fun c => c != 0)

/-- The `d`-character decimal of `c mod 10^d`, zero-padded on the left, most
significant digit first, as ASCII characters. -/
def zero_padded (d : Nat) (c : Int) : List Nat :=
  (List.range d).map (fun i => (48 + (c % 10 ^ d) / 10 ^ (d - 1 - i) % 10).toNat)

/-- The zero-padded decimal with one space put after its first `ceil(d/2)`
digits. -/
def zero_padded_spaced (d : Nat) (c : Int) : List Nat :=
  (zero_padded d c).take ((d + 1) / 2) ++ 32 :: (zero_padded d c).drop ((d + 1) / 2)

/-- A store holding records A (6 digits) and B (8 digits), marked dirty. -/
def state_AB_dirty : State := { State.of_records [token_A, token_B] with key_list_is_dirty := true }

/-! ## The record the startup load builds for one position -/

/-- The record one iteration of the load loop of `handle_init` builds at the
allocation `a` for position `i`: the metadata read over the fresh allocation,
then the secret read over a fresh buffer of `secret_length` bytes. -/
def loaded_record (env : Env) (st : State) (i : Int) (a : Nat) : TokenInfo :=
  let key := persist_read_token env st (P_TOKENS_START + i) a
  { key with secret := persist_read_bytes env st (P_SECRETS_START + key.id) a key.secret_length }

/-- A persistent store with a count of 1 and the metadata of record A at
position 0, but no secret slot. -/
def persist_missing_secret : Persist := fun k =>
  if k = 2 then some (.int 1) else if k = 10000 then some (.token token_A) else none

/-- A persistent store that holds a count of 2 and nothing else. -/
def persist_count_only : Persist := fun k => if k = 2 then some (.int 2) else none

/-- A persistent store holding record A in full: count, metadata and secret. -/
def persist_A : Persist := fun k =>
  if k = 2 then some (.int 1) else if k = 10000 then some (.token token_A)
  else if k = 20001 then some (.data [1, 2, 3, 4, 5]) else none

/-- An environment whose fresh allocations hold the bytes `170, 171, ...`. -/
def Env.stale : Env := { Env.zero with uninit_byte := fun _ j => 170 + j }

/-! ## Further example data -/

/-- A build with `PBL_SDK_3` defined, otherwise as `Env.zero`. -/
def Env.sdk3 : Env := { Env.zero with time_is_utc := true }

/-- The dirty store of record A with a stored UTC offset of one hour. -/
def state_A_offset : State := { state_A_dirty with utc_offset := 3600 }

/-- An update-token message renaming the record of id 2 to "Z". -/
def message_rename_B : Message := { AMUpdateToken := some { id := 2, name := [90] } }

/-! ## The selected row at startup, and further example states -/

/-- The part of `handle_init` that restores the selected row: when the slot
exists, its value is read into the `uint16_t` field `index.row`, remembered in
`startup_selected_list_index`, and the menu layer is told to select that row. -/
def handle_init_selected (env : Env) (st : State) : State :=
  if persist_exists st P_SELECTED_LIST_INDEX then
    let row := persist_read_int env st P_SELECTED_LIST_INDEX % 65536
    { st with startup_selected_list_index := row, selected_row := row }
  else st

/-- The persistent store after the writes `P`, in order, all succeeded. -/
def apply_writes : List (Int × PValue) → Persist → Persist
  | [], p => p
  | (key, v) :: rest, p => apply_writes rest (fun k => if k = persist_key key then some v else p k)

/-- A state with no writeback flag set in which row 2 is selected, the row
remembered from startup being 0. -/
def state_row_moved : State := State.startup (fun _ => none) 2

/-- A state holding records A and B with every writeback flag set, a new
offset, and row 1 selected. -/
def state_all_dirty : State :=
  { State.of_records [token_A, token_B] with
    utc_offset := 3600,
    selected_row := 1,
    persist_writeback := PWUTCOffset ||| PWTokens ||| PWSecrets }

/-- The trace and the selected-row slot after a run. -/
def trace_and_row (r : Except Fault State) : Option (List Event × Option PValue) :=
  r.toOption.map (fun s => (s.trace, s.persist 3))

/-! ## Example data for delete-token -/

/-- A store holding the records of ids 300 and 44, each with its secret
persisted under its id. -/
def state_300_44 : State :=
  { State.of_records [token_300, token_44] with
    persist := fun k =>
      if k = 20300 then some (.data [1, 2, 3, 4, 5])
      else if k = 20044 then some (.data [1, 2, 3, 4, 5]) else none }

/-- What a run left of the store and of the persistent slots of the count, of
position 0, and of the secrets of ids 300 and 44. -/
def delete_outcome (r : Except Fault State) :
    Option (Except Fault (List Int) × Option PValue × Option PValue × Option PValue ×
      Option PValue) :=
  r.toOption.map (fun s => (store_ids s, s.persist 2, s.persist 10000, s.persist 20300,
    s.persist 20044))

/-- A record with its rendered code left out (the code is recomputed by every
refresh). -/
def TokenInfo.without_code (t : TokenInfo) : TokenInfo := { t with code := [] }

/-! ## Runs of inbound messages and acknowledgements -/

/-- What the event loop delivers to the program: an inbound message, or the
acknowledgement of an outbound message. -/
inductive Input
  | message (a : Arrival) (m : Message)
  | ack (sent : OutMessage)

/-- The handler call for one input. -/
def step (env : Env) : Input → State → Except Fault State
  | .message a m, st => in_received_handler env a.now a.oracle m st
  | .ack sent, st => out_sent_handler sent st

/-- The handler calls for a sequence of inputs, in order. -/
def run_inputs (env : Env) : List Input → State → Except Fault State
  | [], st => .ok st
  | i :: rest, st =>
    match step env i st with
    | .error f => .error f
    | .ok st1 => run_inputs env rest st1

/-- The export cursor is a position of the store or its length. -/
def cursor_in_range (st : State) : Prop :=
  0 ≤ st.token_list_retrieve_index ∧ st.token_list_retrieve_index ≤ (st.token_list.length : Int)

/-- The list, the export cursor and the handler's `delta` are the same in both
states. -/
def same_list (s s1 : State) : Prop :=
  s1.token_list = s.token_list ∧ s1.token_list_retrieve_index = s.token_list_retrieve_index ∧
  s1.delta = s.delta

/-! ## Example data for the handler's `delta` and the export cursor -/

/-- A message carrying only Set-UTC-offset with the value -3600. -/
def message_offset : Message := { AMSetUTCOffset := some (-3600) }

/-- A message carrying only Read-token-list. -/
def message_read : Message := { AMReadTokenList := true }

/-- An arrival at wall-clock time 4000 with every persistent write succeeding. -/
def arrival_later : Arrival := { now := 4000, oracle := fun _ => .ok }

/-- The state some time later: the user has moved the selection to row 1; the
trace is started afresh so that it shows what the next handler call does. -/
def row_moved (s : State) : State := { s with selected_row := 1, trace := [] }

/-- The trace a run left. -/
def trace_of (r : Except Fault State) : Option (List Event) := r.toOption.map (fun s => s.trace)

/-- A message that cannot leave the cursor above the store length: it carries
Read-token-list (which restarts the cursor after the removals), or its
clear-all arrives with the cursor at 0 and its delete-token with the cursor
below the length. -/
def removal_safe (m : Message) (st : State) : Prop :=
  m.AMReadTokenList = true ∨
  ((m.AMClearTokens = true → st.token_list_retrieve_index = 0) ∧
   (m.AMDeleteToken ≠ none → st.token_list_retrieve_index < (st.token_list.length : Int)))

def input_safe : Input → State → Prop
  | .message _ m, st => st.token_list.length < 32767 ∧ removal_safe m st
  | .ack _, _ => True

/-- Every input of the run arrives in a state in which it is `input_safe`. -/
def safe_inputs (env : Env) : List Input → State → Prop
  | [], _ => True
  | i :: rest, st => input_safe i st ∧ ∀ st1, step env i st = .ok st1 → safe_inputs env rest st1

/-- Create the record of id 3, request the list, delete id 3. -/
def inputs_delete_after_export : List Input :=
  [.message arrival_ok message_create, .message arrival_ok message_read,
   .message arrival_ok { AMDeleteToken := some 3 }]

/-- The message the export of `inputs_delete_after_export` sent: the record of
id 3, marked as the last. -/
def sent_record_3 : OutMessage := { result := some { id := 3, name := [67] }, finished := true }

/-- Request the list of the store of records A and B, then clear the store. -/
def inputs_clear_during_export : List Input :=
  [.message arrival_ok message_read, .message arrival_ok { AMClearTokens := true }]

/-- The cursor and the store length after a run. -/
def cursor_and_length (r : Except Fault State) : Option (Int × Int) :=
  r.toOption.map (fun s => (s.token_list_retrieve_index, token_list_length s))

/-- The message changes something the handler counts as a mutation: a
Set-UTC-offset value other than the stored one, or any of the clear-all,
delete-token, update-token, create-token and Set-order fields. -/
def applies_mutation (m : Message) (st : State) : Prop :=
  (∃ v, m.AMSetUTCOffset = some v ∧ st.utc_offset ≠ toInt32 v) ∨ m.AMClearTokens = true ∨
  m.AMDeleteToken ≠ none ∨ m.AMUpdateToken ≠ none ∨ m.AMCreateToken ≠ none ∨
  m.AMSetTokenListOrder ≠ none

/-- Request the list of the store of records A and B and acknowledge the first
record. -/
def inputs_export_AB : List Input :=
  [.message arrival_ok message_read,
   .ack { result := some { id := 1, name := [65] }, finished := false }]

/-- The device accepting every write but the second, which it fails with
status -7. -/
def oracle_second_status_7 : Nat → WriteOutcome
  | 1 => .fail 6
  | _ => .ok

/-- A store holding record A with only the secrets marked for writeback. -/
def state_secrets_dirty : State :=
  { State.of_records [token_A] with persist_writeback := PWSecrets }

/-! ## Acknowledgements in any number -/

/-- The acknowledgements `acks`, in order, each handed to `out_sent_handler`,
whichever sent messages they acknowledge. -/
def acknowledge : List OutMessage → State → Except Fault State
  | [], st => .ok st
  | a :: rest, st =>
    match out_sent_handler a st with
    | .error f => .error f
    | .ok st1 => acknowledge rest st1

/-- A Read-token-list request followed by the acknowledgements `acks`. -/
def export_run (m : Message) (acks : List OutMessage) (st : State) : Except Fault State :=
  match am_read_token_list m st with
  | .error f => .error f
  | .ok st1 => acknowledge acks st1

/-- The number of acknowledgements of result messages among `acks`. -/
def results_acknowledged (acks : List OutMessage) : Nat :=
  (acks.filter fun a => a.result.isSome).length

/-- The message that carries only the finished marker. -/
def finished_only : OutMessage := { result := none, finished := true }

/-- The result message of record A, not marked as the last. -/
def sent_record_A : OutMessage :=
  { result := some { id := 1, name := [65] }, finished := false }

/-- Request the list of the store of records A and B, clear the store and
request the list again; then the acknowledgement of the result message that
the first request sent arrives. -/
def inputs_stale_acknowledgement : List Input :=
  [.message arrival_ok message_read, .message arrival_ok { AMClearTokens := true },
   .message arrival_ok message_read, .ack sent_record_A]

/-- An empty store with the cursor at 1 and the result message of record A
sent, as the export of a store that has since been cleared leaves them. -/
def state_cleared_during_export : State :=
  { State.of_records [] with
    token_list_retrieve_index := 1,
    trace := [.app_message_outbox_send sent_record_A] }

/-- The messages sent in a run. -/
def sent_of (r : Except Fault State) : Option (List OutMessage) :=
  r.toOption.map sent_messages

/-- The store of records A and B with the cursor left at 7. -/
def state_AB_cursor_7 : State :=
  { State.of_records [token_A, token_B] with token_list_retrieve_index := 7 }

/-! # Theorems -/

/-! ## C1: reorder law -/

/-- C1, at the failing inputs.  The `AMSetTokenListOrder` block reads the id of
position `i` as the single byte `data[i]`, although the key is documented as
an array of shorts and ids are shorts.  With the store holding one record of
id 300 (found by `token_by_id` at address 0), the sequence `[300]` puts a
`NULL` key at position 0, whether it is sent as an array of shorts or with one
byte per id; with the store holding ids 1 and 2, the sequence `[2, 1]` sent as
an array of shorts puts the record of id 2 at position 0 and a `NULL` key at
position 1. -/
theorem C1_set_order_reads_single_bytes :
    token_by_id (State.of_records [token_300]) 300 = .ok (some 0) ∧
    (am_set_token_list_order { AMSetTokenListOrder := some (shorts_bytes [300]) }
        (State.of_records [token_300])).toOption.map (fun s => s.token_list) = some [none] ∧
    (am_set_token_list_order { AMSetTokenListOrder := some [300 % 256] }
        (State.of_records [token_300])).toOption.map (fun s => s.token_list) = some [none] ∧
    (am_set_token_list_order { AMSetTokenListOrder := some (shorts_bytes [2, 1]) }
        (State.of_records [token_A, token_B])).toOption.map (fun s => s.token_list)
      = some [some 1, none] := by
  decide

/-! ## C2: persistence round trip -/

/-- C2, at the failing input: a store holding one record of id -10000.  Its
secret slot is `P_SECRETS_START + id = 10000`, the metadata slot of position
0: the pass completes, writes the metadata record there and then the secret
over it, so slot 10000 ends up holding the five secret bytes, and the load
(here with zero-filled fresh memory) does not give the record back. -/
theorem C2_secret_slot_overwrites_metadata_slot :
    (writeback_records [token_neg]).toOption.map (fun s => s.persist 10000)
      = some (some (.data [1, 2, 3, 4, 5])) ∧
    (writeback_records [token_neg]).toOption.map (fun s => s.persist 2)
      = some (some (.int 1)) ∧
    round_trip Env.zero [token_neg] ≠ .ok [token_neg] ∧
    round_trip Env.zero [token_A, token_B] = .ok [token_A, token_B] := by
  decide

/-! ## C3: export handshake -/

theorem toShort_of_le {n : Nat} (h : n ≤ 32767) : toShort (n : Int) = n := by
  unfold toShort; omega

theorem deref_all_length {h : Heap} :
    ∀ {l : List (Option Nat)} {ts : List TokenInfo}, deref_all h l = .ok ts → l.length = ts.length
  | [], ts, e => by
    simp only [deref_all, Except.ok.injEq] at e
    subst e; rfl
  | k :: l, ts, e => by
    simp only [deref_all] at e
    cases hk : deref h k with
    | error f => simp [hk] at e
    | ok t =>
      cases hl : deref_all h l with
      | error f => simp [hk, hl] at e
      | ok ts1 =>
        simp only [hk, hl, Except.ok.injEq] at e
        subst e
        simp [deref_all_length hl]

theorem deref_all_index {h : Heap} :
    ∀ {l : List (Option Nat)} {pre : List TokenInfo} {t : TokenInfo} {rest : List TokenInfo},
      deref_all h l = .ok (pre ++ t :: rest) →
      ∃ k, token_by_list_index_nodes l pre.length = .ok k ∧ deref h k = .ok t
  | [], pre, t, rest, e => by
    simp only [deref_all, Except.ok.injEq] at e
    cases pre <;> simp at e
  | k :: l, pre, t, rest, e => by
    simp only [deref_all] at e
    cases hk : deref h k with
    | error f => simp [hk] at e
    | ok t0 =>
      cases hl : deref_all h l with
      | error f => simp [hk, hl] at e
      | ok ts1 =>
        simp only [hk, hl, Except.ok.injEq] at e
        cases pre with
        | nil =>
          simp only [List.nil_append, List.cons.injEq] at e
          exact ⟨k, rfl, by rw [hk, e.1]⟩
        | cons p pre1 =>
          simp only [List.cons_append, List.cons.injEq] at e
          rw [e.2] at hl
          obtain ⟨k1, h1, h2⟩ := deref_all_index hl
          exact ⟨k1, by simpa [token_by_list_index_nodes] using h1, h2⟩

theorem sent_messages_emit_send (m : OutMessage) (st : State) :
    sent_messages (emit (.app_message_outbox_send m) st) = sent_messages st ++ [m] := by
  simp [sent_messages, emit, List.filterMap_append]

/-- One call of `token_list_retrieve_iter` with the cursor on a record. -/
theorem token_list_retrieve_iter_step {st : State} {pre rest : List TokenInfo} {t : TokenInfo}
    (hrec : records st = .ok (pre ++ t :: rest)) (hlen : (pre ++ t :: rest).length ≤ 32767)
    (hcur : st.token_list_retrieve_index = pre.length) :
    token_list_retrieve_iter st = .ok
      { emit (.app_message_outbox_send
          { result := some { id := t.id, name := strncpy_name t.name },
            finished := decide (pre.length + 1 = (pre ++ t :: rest).length) }) st with
        token_list_retrieve_index := (pre.length + 1 : Nat) } := by
  have hl := deref_all_length hrec
  obtain ⟨k, hk1, hk2⟩ := deref_all_index hrec
  have hlen' : st.token_list.length ≤ 32767 := by rw [hl]; exact hlen
  have hne : (pre.length : Int) ≠ (st.token_list.length : Int) := by
    rw [hl]; simp only [List.length_append, List.length_cons]; omega
  unfold token_list_retrieve_iter token_list_length
  rw [toShort_of_le hlen', hcur, if_neg hne]
  simp only [token_by_list_index, Int.toNat_ofNat, hk1, hk2, tokeninfo2publicinfo]
  have : ((pre.length : Int) + 1 = (st.token_list.length : Int)) ↔
      (pre.length + 1 = (pre ++ t :: rest).length) := by
    rw [hl]; omega
  simp only [this, Nat.cast_add, Nat.cast_one]

/-- A call of `token_list_retrieve_iter` with the cursor at the end of a
non-empty list does nothing. -/
theorem token_list_retrieve_iter_done {st : State} {ts : List TokenInfo}
    (hrec : records st = .ok ts) (hlen : ts.length ≤ 32767) (hne : ts ≠ [])
    (hcur : st.token_list_retrieve_index = ts.length) :
    token_list_retrieve_iter st = .ok st := by
  have hl := deref_all_length hrec
  have hlen' : st.token_list.length ≤ 32767 := by rw [hl]; exact hlen
  have hpos : 0 < ts.length := List.length_pos.mpr hne
  unfold token_list_retrieve_iter token_list_length
  rw [toShort_of_le hlen', hcur, hl, if_pos rfl, if_neg (by omega)]

theorem records_congr {st st1 : State} (hh : st1.heap = st.heap)
    (hl : st1.token_list = st.token_list) : records st1 = records st := by
  simp [records, hh, hl]

/-- The acknowledgements of an export under way: with the cursor after the
records `pre` and exactly the last sent (result) message unacknowledged, the
remaining records `rest` are sent one per acknowledgement and then nothing. -/
theorem ack_pending_export {ts : List TokenInfo} (hlen : ts.length ≤ 32767) :
    ∀ (rest pre : List TokenInfo) (st : State) (M : List OutMessage) (last : OutMessage)
      (fuel : Nat),
      ts = pre ++ rest → pre ≠ [] → records st = .ok ts →
      st.token_list_retrieve_index = pre.length →
      sent_messages st = M ++ [last] → last.result.isSome = true →
      rest.length + 1 ≤ fuel →
      ack_pending fuel M.length st = .ok
        ({ st with
            trace := st.trace ++
              (export_results ts.length pre.length rest).map Event.app_message_outbox_send,
            token_list_retrieve_index := (ts.length : Nat) },
          M.length + 1 + rest.length) := by
  intro rest
  induction rest with
  | nil =>
    intro pre st M last fuel hts hpre hrec hcur hsent hlast hfuel
    obtain ⟨f, rfl⟩ : ∃ f, fuel = f + 1 := ⟨fuel - 1, by omega⟩
    simp only [List.append_nil] at hts
    subst hts
    have hdone := token_list_retrieve_iter_done hrec hlen hpre hcur
    have hst : ({ st with
          trace := st.trace ++
            (export_results ts.length ts.length []).map Event.app_message_outbox_send,
          token_list_retrieve_index := (ts.length : Nat) } : State) = st := by
      cases st
      simp only [export_results, List.map_nil, List.append_nil] at hcur ⊢
      simp [hcur]
    rw [hst]
    simp only [ack_pending, hsent, List.get?_eq_getElem?, List.getElem?_concat_length,
      out_sent_handler, hlast, if_true, hdone, List.length_nil, Nat.add_zero]
    cases f with
    | zero => rfl
    | succ f1 =>
      have hnone : (M ++ [last])[M.length + 1]? = none :=
        List.getElem?_eq_none (by simp)
      simp only [ack_pending, hsent, List.get?_eq_getElem?, hnone]
  | cons t rest1 ih =>
    intro pre st M last fuel hts hpre hrec hcur hsent hlast hfuel
    obtain ⟨f, rfl⟩ : ∃ f, fuel = f + 1 := ⟨fuel - 1, by omega⟩
    subst hts
    have hstep := token_list_retrieve_iter_step hrec hlen hcur
    simp only [ack_pending, hsent, List.get?_eq_getElem?, List.getElem?_concat_length,
      out_sent_handler, hlast, if_true, hstep]
    have key := ih (pre ++ [t])
      { emit (.app_message_outbox_send
          { result := some { id := t.id, name := strncpy_name t.name },
            finished := decide (pre.length + 1 = (pre ++ t :: rest1).length) }) st with
        token_list_retrieve_index := (pre.length + 1 : Nat) }
      (M ++ [last])
      { result := some { id := t.id, name := strncpy_name t.name },
        finished := decide (pre.length + 1 = (pre ++ t :: rest1).length) }
      f (by simp) (by simp)
      (by rw [← hrec]; exact records_congr rfl rfl)
      (by simp)
      (by
        have := sent_messages_emit_send
          { result := some { id := t.id, name := strncpy_name t.name },
            finished := decide (pre.length + 1 = (pre ++ t :: rest1).length) } st
        simp only [sent_messages] at this hsent ⊢
        rw [← hsent]; exact this)
      rfl
      (by simp only [List.length_cons] at hfuel; omega)
    rw [show (M ++ [last]).length = M.length + 1 by simp,
      show (pre ++ [t]).length = pre.length + 1 by simp] at key
    rw [key]
    simp only [emit, export_results, List.map_cons, List.length_cons, List.append_assoc,
      List.singleton_append]
    congr 2
    omega

theorem export_results_length (n : Nat) :
    ∀ (ts : List TokenInfo) (i : Nat), (export_results n i ts).length = ts.length
  | [], _ => rfl
  | _ :: rest, i => by simp [export_results, export_results_length n rest (i + 1)]

theorem export_results_get (n : Nat) :
    ∀ (ts : List TokenInfo) (i k : Nat) (t : TokenInfo), ts.get? k = some t →
      (export_results n i ts).get? k =
        some { result := some { id := t.id, name := strncpy_name t.name },
               finished := decide (i + k + 1 = n) }
  | [], _, _, _, h => by simp at h
  | t0 :: rest, i, 0, t, h => by
    simp only [List.get?_cons_zero, Option.some.injEq] at h
    subst h
    simp [export_results]
  | t0 :: rest, i, k + 1, t, h => by
    simp only [List.get?_cons_succ] at h
    have := export_results_get n rest (i + 1) k t h
    simp only [export_results, List.get?_cons_succ, this]
    have e : i + 1 + k + 1 = i + (k + 1) + 1 := by omega
    rw [e]

/-- The export with every message it sends acknowledged.  For every state
whose token list holds the records `ts` (at most 32767, the range of the
`short` length) and whatever the cursor was, the
Read-token-list request restarts the cursor (after the request it stands at
0 for an empty list and at 1, behind the first record, otherwise), and the
request followed by the acknowledgement of each message the export sends
completes with every sent message acknowledged, the cursor at the end of
the list, nothing else changed, and exactly the messages
`export_messages ts` sent: for a non-empty list one result message per
record, the `k`-th carrying the id and name of the record at position `k`
and the finished marker exactly when `k` is the last position; for an empty
list the lone finished marker. -/
theorem export_handshake_complete (m : Message) (st : State) (ts : List TokenInfo) (fuel : Nat)
    (hm : m.AMReadTokenList = true) (hrec : records st = .ok ts)
    (hlen : ts.length ≤ 32767) (hfuel : ts.length + 1 ≤ fuel) :
    (∃ st0, am_read_token_list m st = .ok st0 ∧
      st0.token_list_retrieve_index = if ts = [] then 0 else 1) ∧
    ∃ st1, export_handshake fuel m st = .ok (st1, (sent_messages st1).length) ∧
      st1 = { st with
        trace := st.trace ++ (export_messages ts).map Event.app_message_outbox_send,
        token_list_retrieve_index := (ts.length : Nat) } ∧
      sent_messages st1 = sent_messages st ++ export_messages ts ∧
      (ts = [] → export_messages ts = [{ result := none, finished := true }]) ∧
      (ts ≠ [] → (export_messages ts).length = ts.length ∧
        ∀ (k : Nat) (t : TokenInfo), ts.get? k = some t →
          (export_messages ts).get? k =
            some { result := some { id := t.id, name := strncpy_name t.name },
                   finished := decide (k + 1 = ts.length) }) := by
  have hsent : ∀ (l : List OutMessage),
      sent_messages { st with trace := st.trace ++ l.map Event.app_message_outbox_send,
                              token_list_retrieve_index := (ts.length : Nat) }
        = sent_messages st ++ l := by
    intro l
    simp only [sent_messages, List.filterMap_append, List.filterMap_map]
    congr 1
    induction l with
    | nil => rfl
    | cons a l ih => simp [List.filterMap_cons, ih]
  have hreset : ∃ st0, am_read_token_list m st = .ok st0 ∧
      st0.token_list_retrieve_index = if ts = [] then 0 else 1 := by
    cases ts with
    | nil =>
      have hl := deref_all_length hrec
      simp only [List.length_nil, List.length_eq_zero] at hl
      refine ⟨emit (.app_message_outbox_send { result := none, finished := true })
        { st with token_list_retrieve_index := 0 }, ?_, rfl⟩
      simp [am_read_token_list, hm, token_list_retrieve_iter, token_list_length, hl, toShort]
    | cons t rest =>
      have hrec0 : records { st with token_list_retrieve_index := 0 } = .ok ([] ++ t :: rest) := by
        rw [List.nil_append, ← hrec]; exact records_congr rfl rfl
      have hstep := token_list_retrieve_iter_step hrec0 hlen rfl
      exact ⟨_, by simp only [am_read_token_list, hm, if_true]; exact hstep, by simp⟩
  refine ⟨hreset, _, ?_, rfl, hsent _, ?_, ?_⟩
  · rw [hsent]
    obtain ⟨f, rfl⟩ : ∃ f, fuel = f + 1 := ⟨fuel - 1, by omega⟩
    cases ts with
    | nil =>
      have hl := deref_all_length hrec
      simp only [List.length_nil, List.length_eq_zero] at hl
      have h0 : sent_messages (emit (.app_message_outbox_send { result := none, finished := true })
          { st with token_list_retrieve_index := 0 }) =
          sent_messages st ++ [{ result := none, finished := true }] :=
        sent_messages_emit_send _ _
      have hiter : token_list_retrieve_iter { st with token_list_retrieve_index := 0 } =
          .ok (emit (.app_message_outbox_send { result := none, finished := true })
            { st with token_list_retrieve_index := 0 }) := by
        simp [token_list_retrieve_iter, token_list_length, hl, toShort]
      have hfin : emit (.app_message_outbox_send { result := none, finished := true })
            { st with token_list_retrieve_index := 0 } =
          { st with
            trace := st.trace ++ (export_messages []).map Event.app_message_outbox_send,
            token_list_retrieve_index := (([] : List TokenInfo).length : Nat) } := by
        simp [emit, export_messages]
      simp only [export_handshake, am_read_token_list, hm, if_true, hiter]
      rw [ack_pending]
      simp only [h0, List.get?_eq_getElem?, List.getElem?_concat_length, out_sent_handler,
        Option.isSome_none, Bool.false_eq_true, if_false]
      have hend : ∀ g, ack_pending g ((sent_messages st).length + 1)
          (emit (.app_message_outbox_send { result := none, finished := true })
            { st with token_list_retrieve_index := 0 }) =
          .ok (emit (.app_message_outbox_send { result := none, finished := true })
            { st with token_list_retrieve_index := 0 }, (sent_messages st).length + 1) := by
        intro g
        cases g with
        | zero => rfl
        | succ g1 =>
          have hnone : (sent_messages st ++ [({ result := none, finished := true } : OutMessage)])[
              (sent_messages st).length + 1]? = none :=
            List.getElem?_eq_none (by simp)
          rw [ack_pending]
          simp only [h0, List.get?_eq_getElem?, hnone]
      rw [hend, hfin]
      simp [export_messages]
    | cons t rest =>
      have hrec0 : records { st with token_list_retrieve_index := 0 } = .ok ([] ++ t :: rest) := by
        rw [List.nil_append, ← hrec]; exact records_congr rfl rfl
      have hstep := token_list_retrieve_iter_step hrec0 hlen rfl
      simp only [export_handshake, am_read_token_list, hm, if_true]
      rw [hstep]
      have key := ack_pending_export hlen rest [t]
        { emit (.app_message_outbox_send
            { result := some { id := t.id, name := strncpy_name t.name },
              finished := decide (([] : List TokenInfo).length + 1 = ([] ++ t :: rest).length) })
            { st with token_list_retrieve_index := 0 } with
          token_list_retrieve_index := (([] : List TokenInfo).length + 1 : Nat) }
        (sent_messages st)
        { result := some { id := t.id, name := strncpy_name t.name },
          finished := decide (([] : List TokenInfo).length + 1 = ([] ++ t :: rest).length) }
        (f + 1) rfl (by simp)
        (by rw [← hrec]; exact records_congr rfl rfl)
        (by simp)
        (by simp [sent_messages, emit, List.filterMap_append])
        rfl
        (by simp only [List.length_cons] at hfuel; omega)
      refine key.trans ?_
      simp only [emit, export_messages, export_results, List.map_cons, List.length_cons,
        List.append_assoc, List.singleton_append, List.length_nil, List.nil_append,
        List.length_append, export_results_length, List.length_map]
      rw [show (sent_messages st).length + 1 + rest.length =
        (sent_messages st).length + (rest.length + 1) by omega]
  · intro h; subst h; rfl
  · intro hne
    cases ts with
    | nil => exact absurd rfl hne
    | cons t rest =>
      refine ⟨by simp [export_messages, export_results_length], ?_⟩
      intro k t1 hk
      have := export_results_get (t :: rest).length (t :: rest) 0 k t1 hk
      simpa [export_messages] using this

/-! ## The writeback pass -/

theorem attempt_writes_append_ok (oracle : Nat → WriteOutcome) :
    ∀ (P Q : List (Int × PValue)) (i : Nat) (p : Persist),
      (attempt_writes oracle i P p).2.2 = none →
      attempt_writes oracle i (P ++ Q) p =
        ((attempt_writes oracle (i + P.length) Q (attempt_writes oracle i P p).1).1,
         (attempt_writes oracle i P p).2.1 ++
           (attempt_writes oracle (i + P.length) Q (attempt_writes oracle i P p).1).2.1,
         (attempt_writes oracle (i + P.length) Q (attempt_writes oracle i P p).1).2.2)
  | [], Q, i, p, _ => by simp [attempt_writes]
  | (key, v) :: P, Q, i, p, h => by
    simp only [attempt_writes, List.cons_append, List.append_eq] at h ⊢
    cases ho : oracle i with
    | ok =>
      simp only [ho] at h ⊢
      rw [attempt_writes_append_ok oracle P Q (i + 1) _ h]
      simp only [List.length_cons, List.cons_append]
      rw [show i + 1 + P.length = i + (P.length + 1) by omega]
    | fail c => simp [ho] at h

theorem attempt_writes_append_fail (oracle : Nat → WriteOutcome) :
    ∀ (P Q : List (Int × PValue)) (i : Nat) (p : Persist) (c : Int),
      (attempt_writes oracle i P p).2.2 = some c →
      attempt_writes oracle i (P ++ Q) p = attempt_writes oracle i P p
  | [], Q, i, p, c, h => by simp [attempt_writes] at h
  | (key, v) :: P, Q, i, p, c, h => by
    simp only [attempt_writes, List.cons_append, List.append_eq] at h ⊢
    cases ho : oracle i with
    | ok =>
      simp only [ho] at h ⊢
      rw [attempt_writes_append_fail oracle P Q (i + 1) _ c h]
    | fail c1 => simp [ho]

theorem tracks_start (oracle : Nat → WriteOutcome) (st : State) :
    Tracks oracle st []
      { st := st, writeback_ok := true, writeback_status := S_SUCCESS, attempts := 0 } := by
  simp [Tracks, attempt_writes]

theorem tracks_stopped {oracle : Nat → WriteOutcome} {st0 : State} {P : List (Int × PValue)}
    {w : Writeback} (h : Tracks oracle st0 P w) (hok : w.writeback_ok = false)
    (Q : List (Int × PValue)) : Tracks oracle st0 (P ++ Q) w := by
  obtain ⟨h1, h2, h3, h4⟩ := h
  cases hr : (attempt_writes oracle 0 P st0.persist).2.2 with
  | none => rw [h2.mpr hr] at hok; cases hok
  | some c =>
    have e := attempt_writes_append_fail oracle P Q 0 st0.persist c hr
    refine ⟨?_, ?_, ?_, ?_⟩
    · rw [e]; exact h1
    · rw [e]; exact h2
    · rw [e]; exact h3
    · intro h; rw [hok] at h; cases h

/-- One write: `next` is what `writeback_int` or `writeback_data` computes
from the value the write call returns. -/
theorem tracks_write {oracle : Nat → WriteOutcome} {st0 : State} {P : List (Int × PValue)}
    {w : Writeback} (h : Tracks oracle st0 P w) (hok : w.writeback_ok = true)
    (key : Int) (v : PValue) (size : Nat) (status : Int → Int)
    (hsucc : status size = S_SUCCESS)
    (hfail : ∀ c : Nat, status (-((c : Int) + 1)) = failure_status v c)
    (hneg : ∀ c : Nat, failure_status v c ≠ S_SUCCESS) :
    Tracks oracle st0 (P ++ [(key, v)])
      { st := (persist_write (oracle w.attempts) key v size w.st).1,
        writeback_ok := w.writeback_ok &&
          decide (status (persist_write (oracle w.attempts) key v size w.st).2 = S_SUCCESS),
        writeback_status := status (persist_write (oracle w.attempts) key v size w.st).2,
        attempts := w.attempts + 1 } := by
  obtain ⟨h1, h2, h3, h4⟩ := h
  have hr := h2.mp hok
  have ha := h4 hok
  have e := attempt_writes_append_ok oracle P [(key, v)] 0 st0.persist hr
  rw [Nat.zero_add] at e
  unfold Tracks
  rw [e, ha, hok]
  cases ho : oracle P.length with
  | ok =>
    simp only [persist_write, attempt_writes, ho, h1, emit, hsucc, decide_True, Bool.and_self,
      List.append_assoc, List.length_append, List.length_singleton, and_self, implies_true,
      true_and]
    exact ⟨fun c hc => (by cases hc), trivial⟩
  | fail c =>
    simp only [persist_write, attempt_writes, ho, h1, emit, hfail, hneg, decide_False,
      Bool.and_false, List.append_assoc, Option.some.injEq, false_implies, and_true,
      true_and, Bool.false_eq_true, false_iff]
    refine ⟨by simp, ?_⟩
    intro c1 hc1
    exact hc1

theorem tracks_writeback_int {oracle : Nat → WriteOutcome} {st0 : State}
    {P : List (Int × PValue)} {w : Writeback} (h : Tracks oracle st0 P w)
    (hok : w.writeback_ok = true) (key value : Int) :
    Tracks oracle st0 (P ++ [(key, .int value)]) (writeback_int oracle key value w) := by
  have := tracks_write h hok key (.int value) sizeof_int (fun r => min 0 r)
    (by simp [sizeof_int, S_SUCCESS])
    (by intro c; simp only [failure_status]; omega)
    (by intro c; simp only [failure_status, S_SUCCESS]; omega)
  exact this

theorem tracks_writeback_data {oracle : Nat → WriteOutcome} {st0 : State}
    {P : List (Int × PValue)} {w : Writeback} (h : Tracks oracle st0 P w)
    (hok : w.writeback_ok = true) (key : Int) (v : PValue) (size : Nat) (code : Int)
    (hcode : ∀ c, failure_status v c = code) (hne : code ≠ S_SUCCESS) :
    Tracks oracle st0 (P ++ [(key, v)]) (writeback_data oracle key v size code w) := by
  have := tracks_write h hok key v size (fun r => if r = (size : Int) then S_SUCCESS else code)
    (by simp)
    (by
      intro c
      have : -((c : Int) + 1) ≠ (size : Int) := by omega
      show (if -((c : Int) + 1) = (size : Int) then S_SUCCESS else code) = _
      rw [if_neg this, hcode])
    (by intro c; rw [hcode]; exact hne)
  exact this

theorem tracks_nil_append {oracle : Nat → WriteOutcome} {st0 : State} {P : List (Int × PValue)}
    {w : Writeback} (h : Tracks oracle st0 P w) : Tracks oracle st0 (P ++ []) w := by
  rw [List.append_nil]; exact h

theorem tracks_writeback_tokens {oracle : Nat → WriteOutcome} {st0 : State} :
    ∀ (l : List (Option Nat)) (ts : List TokenInfo) (idx : Int) (P : List (Int × PValue))
      (w : Writeback), Tracks oracle st0 P w → deref_all st0.heap l = .ok ts →
      ∃ w1, writeback_tokens oracle l idx w = .ok w1 ∧
        Tracks oracle st0 (P ++ planned_tokens ts idx) w1
  | [], ts, idx, P, w, h, e => by
    simp only [deref_all, Except.ok.injEq] at e
    subst e
    exact ⟨w, rfl, tracks_nil_append h⟩
  | k :: l, ts, idx, P, w, h, e => by
    simp only [deref_all] at e
    cases hk : deref st0.heap k with
    | error f => simp [hk] at e
    | ok t =>
      cases hl : deref_all st0.heap l with
      | error f => simp [hk, hl] at e
      | ok ts1 =>
        simp only [hk, hl, Except.ok.injEq] at e
        subst e
        cases hok : w.writeback_ok with
        | false =>
          exact ⟨w, by simp [writeback_tokens, hok], tracks_stopped h hok _⟩
        | true =>
          have hheap : w.st.heap = st0.heap := by rw [h.1]
          have h1 := tracks_writeback_data h hok (P_TOKENS_START + idx) (.token t)
            sizeof_TokenInfo (-64) (fun _ => rfl) (by decide)
          obtain ⟨w1, e1, t1⟩ := tracks_writeback_tokens l ts1 (toShort (idx + 1)) _ _ h1 hl
          refine ⟨w1, ?_, ?_⟩
          · simp only [writeback_tokens, hok, if_true, hheap, hk]
            exact e1
          · simpa [planned_tokens, List.append_assoc] using t1

theorem tracks_writeback_secrets {oracle : Nat → WriteOutcome} {st0 : State} :
    ∀ (l : List (Option Nat)) (ts : List TokenInfo) (P : List (Int × PValue))
      (w : Writeback), Tracks oracle st0 P w → deref_all st0.heap l = .ok ts →
      ∃ w1, writeback_secrets oracle l w = .ok w1 ∧
        Tracks oracle st0 (P ++ planned_secrets ts) w1
  | [], ts, P, w, h, e => by
    simp only [deref_all, Except.ok.injEq] at e
    subst e
    exact ⟨w, rfl, tracks_nil_append h⟩
  | k :: l, ts, P, w, h, e => by
    simp only [deref_all] at e
    cases hk : deref st0.heap k with
    | error f => simp [hk] at e
    | ok t =>
      cases hl : deref_all st0.heap l with
      | error f => simp [hk, hl] at e
      | ok ts1 =>
        simp only [hk, hl, Except.ok.injEq] at e
        subst e
        cases hok : w.writeback_ok with
        | false =>
          exact ⟨w, by simp [writeback_secrets, hok], tracks_stopped h hok _⟩
        | true =>
          have hheap : w.st.heap = st0.heap := by rw [h.1]
          have h1 := tracks_writeback_data h hok (P_SECRETS_START + t.id)
            (.data (t.secret.take t.secret_length)) t.secret_length (-63) (fun _ => rfl)
            (by decide)
          obtain ⟨w1, e1, t1⟩ := tracks_writeback_secrets l ts1 _ _ h1 hl
          refine ⟨w1, ?_, ?_⟩
          · simp only [writeback_secrets, hok, if_true, hheap, hk]
            exact e1
          · simpa [planned_secrets, List.append_assoc] using t1

theorem tracks_segment_int {oracle : Nat → WriteOutcome} {st0 : State}
    {P : List (Int × PValue)} {w : Writeback} (h : Tracks oracle st0 P w)
    (c : Prop) [Decidable c] (key value : Int) :
    Tracks oracle st0 (P ++ (if c then [(key, .int value)] else []))
      (if c ∧ w.writeback_ok = true then writeback_int oracle key value w else w) := by
  by_cases hc : c
  · cases hok : w.writeback_ok with
    | false => simpa [hc, hok] using tracks_stopped h hok _
    | true => simpa [hc, hok] using tracks_writeback_int h hok key value
  · simpa [hc] using h

/-- A pass of `persist_do_writeback` over a list of live records: it returns,
having attempted the planned writes in order up to the first failure, pushed
the status recorded for the failing write if there is one, and cleared the
flags. -/
theorem persist_do_writeback_eq (oracle : Nat → WriteOutcome) (st : State)
    (ts : List TokenInfo) (hrec : records st = .ok ts) :
    persist_do_writeback oracle st = .ok
      { st with
        persist := (attempt_writes oracle 0 (planned_writes st ts) st.persist).1,
        trace := st.trace ++ (attempt_writes oracle 0 (planned_writes st ts) st.persist).2.1 ++
          push_events (attempt_writes oracle 0 (planned_writes st ts) st.persist).2.2,
        persist_writeback := PWNone } := by
  have t0 := tracks_start oracle st
  have t1 := tracks_segment_int t0 (has_flag st.persist_writeback PWUTCOffset = true)
    P_UTCOFFSET st.utc_offset
  have t2 := tracks_segment_int t1 (st.startup_selected_list_index ≠ st.selected_row)
    P_SELECTED_LIST_INDEX st.selected_row
  simp only [and_true, List.nil_append] at t1 t2
  unfold persist_do_writeback
  simp only []
  generalize (if has_flag st.persist_writeback PWUTCOffset = true then
      writeback_int oracle P_UTCOFFSET st.utc_offset
        { st := st, writeback_ok := true, writeback_status := S_SUCCESS, attempts := 0 }
    else { st := st, writeback_ok := true, writeback_status := S_SUCCESS, attempts := 0 }) = w1
    at t1 t2 ⊢
  generalize (if st.startup_selected_list_index ≠ st.selected_row ∧ w1.writeback_ok = true then
      writeback_int oracle P_SELECTED_LIST_INDEX st.selected_row w1 else w1) = w2 at t2 ⊢
  clear t0 t1
  -- the token table
  obtain ⟨w3, e3, t3⟩ : ∃ w3,
      (if has_flag st.persist_writeback PWTokens = true ∧ w2.writeback_ok = true then
        writeback_tokens oracle st.token_list 0
          (writeback_int oracle P_TOKENS_COUNT (token_list_length st) w2)
       else .ok w2) = .ok w3 ∧
      Tracks oracle st
        (((if has_flag st.persist_writeback PWUTCOffset = true then
            [(P_UTCOFFSET, PValue.int st.utc_offset)] else []) ++
          (if st.startup_selected_list_index ≠ st.selected_row then
            [(P_SELECTED_LIST_INDEX, PValue.int st.selected_row)] else [])) ++
          (if has_flag st.persist_writeback PWTokens = true then
            (P_TOKENS_COUNT, PValue.int (token_list_length st)) :: planned_tokens ts 0
           else [])) w3 := by
    by_cases hc : has_flag st.persist_writeback PWTokens = true
    · cases hok : w2.writeback_ok with
      | false =>
        exact ⟨w2, by simp [hok], tracks_stopped t2 hok _⟩
      | true =>
        have h1 := tracks_writeback_int t2 hok P_TOKENS_COUNT (token_list_length st)
        obtain ⟨w3, e3, t3⟩ := tracks_writeback_tokens st.token_list ts 0 _ _ h1 hrec
        refine ⟨w3, by simpa [hc, hok] using e3, ?_⟩
        simpa [hc, List.append_assoc] using t3
    · exact ⟨w2, by simp [hc], by simpa [hc] using t2⟩
  rw [e3]
  simp only []
  obtain ⟨w4, e4, t4⟩ : ∃ w4,
      (if has_flag st.persist_writeback PWSecrets = true ∧ w3.writeback_ok = true then
        writeback_secrets oracle st.token_list w3 else .ok w3) = .ok w4 ∧
      Tracks oracle st (planned_writes st ts) w4 := by
    unfold planned_writes
    by_cases hc : has_flag st.persist_writeback PWSecrets = true
    · cases hok : w3.writeback_ok with
      | false =>
        exact ⟨w3, by simp [hok], by simpa [hc] using tracks_stopped t3 hok _⟩
      | true =>
        obtain ⟨w4, e4, t4⟩ := tracks_writeback_secrets st.token_list ts _ _ t3 hrec
        exact ⟨w4, by simpa [hc, hok] using e4, by simpa [hc] using t4⟩
    · exact ⟨w3, by simp [hc], by simpa [hc] using t3⟩
  rw [e4]
  simp only []
  obtain ⟨h1, h2, h3, -⟩ := t4
  cases hr : (attempt_writes oracle 0 (planned_writes st ts) st.persist).2.2 with
  | none =>
    rw [h2.mpr hr, if_pos rfl, h1]
    simp [push_events]
  | some c =>
    have hok : w4.writeback_ok = false := by
      cases hb : w4.writeback_ok with
      | false => rfl
      | true => rw [h2.mp hb] at hr; cases hr
    rw [hok, h3 c hr, h1]
    simp [push_events, emit]

/-! ## C4: the flags after a failed pass -/

/-- C4 as stated fails: in a state with only the utc-offset flag set, a pass
whose single write fails (status -1) pushes that status and leaves the flag
set empty, not equal to the flag set before the pass. -/
theorem C4_flags_cleared_after_failed_pass :
    state_offset_dirty.persist_writeback = PWUTCOffset ∧
    (persist_do_writeback oracle_all_fail state_offset_dirty).toOption.map
        (fun s => (s.persist_writeback, s.trace))
      = some (PWNone, [.persist_write 1 (.int 3600) (.fail 0), .persist_error_push (-1)]) ∧
    PWNone ≠ PWUTCOffset := by
  decide

/-- C4, amended.  For every state whose list nodes hold live records and
every assignment of outcomes to the writes, a pass of `persist_do_writeback`
returns with the flag set empty: the flags are cleared whether or not a
write of the pass failed. -/
theorem C4_writeback_always_clears_flags (oracle : Nat → WriteOutcome) (st : State)
    (ts : List TokenInfo) (hrec : records st = .ok ts) :
    ∃ st1, persist_do_writeback oracle st = .ok st1 ∧ st1.persist_writeback = PWNone :=
  ⟨_, persist_do_writeback_eq oracle st ts hrec, rfl⟩

theorem C4_writeback_always_clears_flags_witness :
    records state_offset_dirty = .ok [] ∧
    ∃ st1, persist_do_writeback oracle_all_fail state_offset_dirty = .ok st1 ∧
      st1.persist_writeback = PWNone :=
  ⟨by decide, C4_writeback_always_clears_flags oracle_all_fail state_offset_dirty [] (by decide)⟩

/-! ## C5: fail-fast writeback -/

theorem attempt_writes_spec (oracle : Nat → WriteOutcome) :
    ∀ (P : List (Int × PValue)) (i : Nat) (p : Persist),
      ∃ n, n ≤ P.length ∧
        (attempt_writes oracle i P p).2.1 = write_events oracle i (P.take n) ∧
        (∀ j, j + 1 < n → oracle (i + j) = .ok) ∧
        ((attempt_writes oracle i P p).2.2 = none →
          n = P.length ∧ ∀ j, j < n → oracle (i + j) = .ok) ∧
        (∀ status, (attempt_writes oracle i P p).2.2 = some status →
          ∃ c kv, 0 < n ∧ P.get? (n - 1) = some kv ∧ oracle (i + (n - 1)) = .fail c ∧
            status = failure_status kv.2 c)
  | [], i, p => ⟨0, by simp [attempt_writes, write_events]⟩
  | (key, v) :: rest, i, p => by
    cases ho : oracle i with
    | ok =>
      obtain ⟨n, hn, hev, hpre, hnone, hsome⟩ := attempt_writes_spec oracle rest (i + 1)
        (fun k => if k = persist_key key then some v else p k)
      refine ⟨n + 1, by simpa using hn, ?_, ?_, ?_, ?_⟩
      · simp only [attempt_writes, ho, List.take_succ_cons, write_events, hev]
      · intro j hj
        cases j with
        | zero => simpa using ho
        | succ j1 =>
          have := hpre j1 (by omega)
          rw [show i + (j1 + 1) = i + 1 + j1 by omega]
          exact this
      · intro h
        simp only [attempt_writes, ho] at h
        obtain ⟨h1, h2⟩ := hnone h
        refine ⟨by simp [h1], ?_⟩
        intro j hj
        cases j with
        | zero => simpa using ho
        | succ j1 =>
          have := h2 j1 (by omega)
          rw [show i + (j1 + 1) = i + 1 + j1 by omega]
          exact this
      · intro status h
        simp only [attempt_writes, ho] at h
        obtain ⟨c, kv, h0, h1, h2, h3⟩ := hsome status h
        refine ⟨c, kv, by omega, ?_, ?_, h3⟩
        · obtain ⟨m, rfl⟩ : ∃ m, n = m + 1 := ⟨n - 1, by omega⟩
          simpa using h1
        · rw [show i + (n + 1 - 1) = i + 1 + (n - 1) by omega]
          exact h2
    | fail c =>
      refine ⟨1, by simp, ?_, ?_, ?_, ?_⟩
      · simp [attempt_writes, ho, write_events]
      · intro j hj; omega
      · intro h; simp [attempt_writes, ho] at h
      · intro status h
        simp only [attempt_writes, ho, Option.some.injEq] at h
        exact ⟨c, (key, v), by omega, by simp, by simpa using ho, h.symm⟩

/-- C5, as the claim states it, fails for the record tables.  With one record
and the token flag set, the count write succeeds and the metadata write
returns the status -1; no further write is attempted and the code pushed is
-64, not -1.  The same when the metadata write returns -7: the code pushed is
-64.  With only the secret flag set and the secret write returning -1 the
code pushed is -63. -/
theorem C5_table_write_pushes_constant :
    (persist_write (oracle_second_fails 1) (P_TOKENS_START + 0) (.token token_A)
        sizeof_TokenInfo state_tokens_dirty).2 = -1 ∧
    (persist_do_writeback oracle_second_fails state_tokens_dirty).toOption.map (fun s => s.trace)
      = some [.persist_write 2 (.int 1) .ok, .persist_write 10000 (.token token_A) (.fail 0),
              .persist_error_push (-64)] ∧
    (persist_write (oracle_second_status_7 1) (P_TOKENS_START + 0) (.token token_A)
        sizeof_TokenInfo state_tokens_dirty).2 = -7 ∧
    (persist_do_writeback oracle_second_status_7 state_tokens_dirty).toOption.map
        (fun s => s.trace)
      = some [.persist_write 2 (.int 1) .ok, .persist_write 10000 (.token token_A) (.fail 6),
              .persist_error_push (-64)] ∧
    (persist_write (oracle_all_fail 0) (P_SECRETS_START + 1) (.data [1, 2, 3, 4, 5])
        5 state_secrets_dirty).2 = -1 ∧
    (persist_do_writeback oracle_all_fail state_secrets_dirty).toOption.map (fun s => s.trace)
      = some [.persist_write 20001 (.data [1, 2, 3, 4, 5]) (.fail 0),
              .persist_error_push (-63)] := by
  decide

/-- C5, amended.  For every state whose list nodes hold live records and every
assignment of outcomes to the writes, a pass returns having attempted exactly
the first `n` of its planned writes, in order, where every attempted write
but the last succeeded; when none failed all planned writes were attempted
and `persist_error_push` is not called; when one failed it is the last write
attempted and `persist_error_push` is called once, after it, with the value
the pass assigns to `writeback_status` for that write (`failure_status`):
where the failing write returned the status `-(c+1)`, the code pushed is that
status when the write is a scalar (offset, selected row, token count), the
constant -64 when it is a metadata record and the constant -63 when it is a
secret. -/
theorem C5_writeback_fail_fast (oracle : Nat → WriteOutcome) (st : State)
    (ts : List TokenInfo) (hrec : records st = .ok ts) :
    ∃ (st1 : State) (n : Nat) (failure : Option Int),
      persist_do_writeback oracle st = .ok st1 ∧
      n ≤ (planned_writes st ts).length ∧
      st1.trace = st.trace ++ write_events oracle 0 ((planned_writes st ts).take n) ++
        push_events failure ∧
      (∀ j, j + 1 < n → oracle j = .ok) ∧
      (failure = none → n = (planned_writes st ts).length ∧ ∀ j, j < n → oracle j = .ok) ∧
      (∀ status, failure = some status →
        ∃ c kv, 0 < n ∧ (planned_writes st ts).get? (n - 1) = some kv ∧
          oracle (n - 1) = .fail c ∧ status = failure_status kv.2 c ∧
          (∀ size s, (persist_write (oracle (n - 1)) kv.1 kv.2 size s).2 = -((c : Int) + 1)) ∧
          (match kv.2 with
            | .int _ => status = -((c : Int) + 1)
            | .token _ => status = -64
            | .data _ => status = -63)) := by
  obtain ⟨n, hn, hev, hpre, hnone, hsome⟩ :=
    attempt_writes_spec oracle (planned_writes st ts) 0 st.persist
  refine ⟨_, n, (attempt_writes oracle 0 (planned_writes st ts) st.persist).2.2,
    persist_do_writeback_eq oracle st ts hrec, hn, ?_, ?_, ?_, ?_⟩
  · simp only [hev]
  · intro j hj; simpa using hpre j hj
  · intro h
    obtain ⟨h1, h2⟩ := hnone h
    exact ⟨h1, fun j hj => by simpa using h2 j hj⟩
  · intro status h
    obtain ⟨c, kv, h0, h1, h2, h3⟩ := hsome status h
    have h2a : oracle (n - 1) = .fail c := by simpa using h2
    refine ⟨c, kv, h0, h1, h2a, h3, ?_, ?_⟩
    · intro size s
      rw [h2a]
      rfl
    · obtain ⟨key, v⟩ := kv
      subst h3
      cases v <;> rfl

theorem C5_writeback_fail_fast_witness :
    records state_tokens_dirty = .ok [token_A] ∧
    ∃ (st1 : State) (n : Nat) (failure : Option Int),
      persist_do_writeback oracle_second_fails state_tokens_dirty = .ok st1 ∧
      n ≤ (planned_writes state_tokens_dirty [token_A]).length ∧
      st1.trace = state_tokens_dirty.trace ++
        write_events oracle_second_fails 0 ((planned_writes state_tokens_dirty [token_A]).take n) ++
        push_events failure ∧
      (∀ j, j + 1 < n → oracle_second_fails j = .ok) ∧
      (failure = none → n = (planned_writes state_tokens_dirty [token_A]).length ∧
        ∀ j, j < n → oracle_second_fails j = .ok) ∧
      (∀ status, failure = some status →
        ∃ c kv, 0 < n ∧ (planned_writes state_tokens_dirty [token_A]).get? (n - 1) = some kv ∧
          oracle_second_fails (n - 1) = .fail c ∧ status = failure_status kv.2 c ∧
          (∀ size s, (persist_write (oracle_second_fails (n - 1)) kv.1 kv.2 size s).2
            = -((c : Int) + 1)) ∧
          (match kv.2 with
            | .int _ => status = -((c : Int) + 1)
            | .token _ => status = -64
            | .data _ => status = -63)) :=
  ⟨by decide, C5_writeback_fail_fast oracle_second_fails state_tokens_dirty [token_A] (by decide)⟩

/-! ## Rendering of codes -/

theorem buf_write_ok (out : List Nat) (i : Int) (v : Nat) (h0 : 0 ≤ i) (h1 : i < out.length) :
    buf_write out i v = .ok (out.set i.toNat v) := by
  simp [buf_write, h0, h1]

theorem code2char_loop_ok (length : Int) (hlen : length ≤ 12) :
    ∀ (n : Nat) (x code : Int) (out : List Nat), out.length = 12 → 0 ≤ x → x + n ≤ length →
      ∃ out1, code2char_loop length n x code out = .ok out1 ∧ out1.length = 12
  | 0, _, _, out, ho, _, _ => ⟨out, rfl, ho⟩
  | n + 1, x, code, out, ho, hx, hn => by
    have hw := buf_write_ok out (length - 1 - x) (48 + code % 10).toNat
      (by push_cast at hn; omega) (by rw [ho]; push_cast at hn ⊢; omega)
    obtain ⟨out1, e1, l1⟩ := code2char_loop_ok length hlen n (x + 1) (code / 10)
      (out.set (length - 1 - x).toNat (48 + code % 10).toNat) (by simp [ho]) (by omega)
      (by push_cast at hn; omega)
    exact ⟨out1, by simp only [code2char_loop, hw]; exact e1, l1⟩

theorem code2char_ok (code : Int) (out : List Nat) (length : Int) (ho : out.length = 12)
    (h0 : 0 ≤ length) (h1 : length ≤ 11) :
    ∃ out1, code2char code out length = .ok out1 ∧ out1.length = 12 := by
  have hw := buf_write_ok out length 0 h0 (by rw [ho]; push_cast; omega)
  obtain ⟨out1, e1, l1⟩ := code2char_loop_ok length (by omega) length.toNat 0 code
    (out.set length.toNat 0) (by simp [ho]) (le_refl 0) (by rw [Int.toNat_of_nonneg h0]; omega)
  exact ⟨out1, by simp only [code2char, hw]; exact e1, l1⟩

theorem code2charspace_loop_ok (length : Int) (h0 : 1 ≤ length) (h1 : length ≤ 11) :
    ∀ (n : Nat) (x code : Int) (out : List Nat), out.length = 12 → 0 ≤ x →
      ∃ out1, code2charspace_loop length n x code out = .ok out1 ∧ out1.length = 12
  | 0, _, _, out, ho, _ => ⟨out, rfl, ho⟩
  | n + 1, x, code, out, ho, hx => by
    by_cases hle : x ≤ length
    · by_cases hmid : x = length / 2
      · have hw1 := buf_write_ok out (length - x) 32 (by omega)
          (by rw [ho]; push_cast; omega)
        have hw2 := buf_write_ok (out.set (length - x).toNat 32) (length - (x + 1))
          (48 + code % 10).toNat (by omega) (by simp only [List.length_set, ho]; push_cast; omega)
        obtain ⟨out1, e1, l1⟩ := code2charspace_loop_ok length h0 h1 n (x + 2) (code / 10)
          ((out.set (length - x).toNat 32).set (length - (x + 1)).toNat (48 + code % 10).toNat)
          (by simp [ho]) (by omega)
        refine ⟨out1, ?_, l1⟩
        rw [code2charspace_loop, if_pos hle, if_pos hmid]
        simp only [hw1, hw2]
        exact e1
      · have hw := buf_write_ok out (length - x) (48 + code % 10).toNat (by omega)
          (by rw [ho]; push_cast; omega)
        obtain ⟨out1, e1, l1⟩ := code2charspace_loop_ok length h0 h1 n (x + 1) (code / 10)
          (out.set (length - x).toNat (48 + code % 10).toNat) (by simp [ho]) (by omega)
        refine ⟨out1, ?_, l1⟩
        rw [code2charspace_loop, if_pos hle, if_neg hmid]
        simp only [hw]
        exact e1
    · exact ⟨out, by rw [code2charspace_loop, if_neg hle], ho⟩

theorem code2charspace_ok (code : Int) (out : List Nat) (length : Int) (ho : out.length = 12)
    (h0 : 1 ≤ length) (h1 : length ≤ 10) :
    ∃ out1, code2charspace code out length = .ok out1 ∧ out1.length = 12 := by
  have hw := buf_write_ok out (length + 1) 0 (by omega)
    (by rw [ho]; push_cast; omega)
  obtain ⟨out1, e1, l1⟩ := code2charspace_loop_ok length h0 (by omega) (length + 1).toNat 0 code
    (out.set (length + 1).toNat 0) (by simp [ho]) (le_refl 0)
  exact ⟨out1, by simp only [code2charspace, hw]; exact e1, l1⟩

/-! ## C6: id bookkeeping -/

theorem same_but_code_refl : ∀ o : Option TokenInfo, same_but_code o o
  | none => trivial
  | some t => ⟨t.code, rfl, rfl⟩

theorem same_but_code_trans : ∀ {o1 o2 o3 : Option TokenInfo},
    same_but_code o1 o2 → same_but_code o2 o3 → same_but_code o1 o3
  | none, none, none, _, _ => trivial
  | some t, some t1, some t2, ⟨c1, l1, e1⟩, ⟨c2, l2, e2⟩ => by
    subst e1
    exact ⟨c2, by rw [l2]; exact l1, by rw [e2]⟩
  | none, some _, _, h, _ => h.elim
  | some _, none, _, h, _ => h.elim
  | none, none, some _, _, h => h.elim
  | some _, some _, none, _, h => h.elim

theorem same_but_code_id_at {h h1 : Heap} (hs : ∀ a, same_but_code (h a) (h1 a)) (a : Nat) :
    id_at h1 a = id_at h a := by
  have := hs a
  unfold id_at
  cases e : h a with
  | none =>
    cases e1 : h1 a with
    | none => rfl
    | some t1 => rw [e, e1] at this; exact this.elim
  | some t =>
    cases e1 : h1 a with
    | none => rw [e, e1] at this; exact this.elim
    | some t1 =>
      rw [e, e1] at this
      obtain ⟨c, _, rfl⟩ := this
      rfl

theorem same_but_code_renderable {h h1 : Heap} (hs : ∀ a, same_but_code (h a) (h1 a))
    {a : Nat} {t : TokenInfo} (e : h a = some t) (hr : renderable t) :
    ∃ t1, h1 a = some t1 ∧ renderable t1 := by
  have := hs a
  rw [e] at this
  cases e1 : h1 a with
  | none => rw [e1] at this; exact this.elim
  | some t1 =>
    rw [e1] at this
    obtain ⟨c, lc, rfl⟩ := this
    exact ⟨_, rfl, by rw [← hr.1]; exact lc, hr.2⟩

theorem storeInv_of_same {st st1 : State} {ids : List Int} (h : StoreInv st ids)
    (hs : ∀ a, same_but_code (st.heap a) (st1.heap a))
    (hl : st1.token_list = st.token_list) (hn : st1.next_addr = st.next_addr) :
    StoreInv st1 ids := by
  obtain ⟨addrs, h1, h2, h3, h4, h5, h6⟩ := h
  refine ⟨addrs, by rw [hl, h1], h2, by rw [hn]; exact h3, ?_, ?_, h6⟩
  · intro a ha
    obtain ⟨t, e, hr⟩ := h4 a ha
    exact same_but_code_renderable hs e hr
  · rw [← h5]
    exact List.map_congr_left (fun a _ => same_but_code_id_at hs a)

theorem refresh_all_nodes_ok (env : Env) (q : Int) :
    ∀ (l : List (Option Nat)) (st : State),
      (∀ k ∈ l, ∃ a t, k = some a ∧ st.heap a = some t ∧ renderable t) →
      ∃ st1, refresh_all_nodes env q l st = .ok st1 ∧
        (∀ a, same_but_code (st.heap a) (st1.heap a)) ∧
        st1.token_list = st.token_list ∧ st1.next_addr = st.next_addr
  | [], st, _ => ⟨st, rfl, fun a => same_but_code_refl _, rfl, rfl⟩
  | k :: l, st, h => by
    obtain ⟨a, t, rfl, e, hr⟩ := h k (List.mem_cons_self _ _)
    obtain ⟨c, ec, lc⟩ : ∃ c,
        (if t.digits > 6 then
            code2charspace (toUInt32 (env.generateCode t.secret t.secret_length q)) t.code t.digits
          else code2char (toUInt32 (env.generateCode t.secret t.secret_length q)) t.code t.digits)
          = .ok c ∧ c.length = 12 := by
      by_cases hd : t.digits > 6
      · rw [if_pos hd]
        exact code2charspace_ok _ _ _ hr.1 (by omega) hr.2.2
      · rw [if_neg hd]
        exact code2char_ok _ _ _ hr.1 hr.2.1 (by omega)
    have hstep : ∀ b, same_but_code (st.heap b)
        (heap_store (emit (.generateCode t.secret t.secret_length q) st).heap a
          { t with code := c } b) := by
      intro b
      by_cases hb : b = a
      · subst hb
        simp only [heap_store, emit, if_true, e]
        exact ⟨c, by rw [lc, hr.1], rfl⟩
      · simp only [heap_store, emit, if_neg hb]
        exact same_but_code_refl _
    obtain ⟨st1, e1, s1, l1, n1⟩ := refresh_all_nodes_ok env q l
      { emit (.generateCode t.secret t.secret_length q) st with
        heap := heap_store (emit (.generateCode t.secret t.secret_length q) st).heap a
          { t with code := c } }
      (by
        intro k hk
        obtain ⟨a1, t1, rfl, e1, hr1⟩ := h k (List.mem_cons_of_mem _ hk)
        obtain ⟨t2, e2, hr2⟩ := same_but_code_renderable hstep e1 hr1
        exact ⟨a1, t2, rfl, e2, hr2⟩)
    refine ⟨st1, ?_, fun b => same_but_code_trans (hstep b) (s1 b), l1, n1⟩
    simp only [refresh_all_nodes, e, ec]
    exact e1

theorem refresh_all_storeInv (env : Env) (now : Int) {st : State} {ids : List Int}
    (h : StoreInv st ids) :
    ∃ st1, refresh_all env now st = .ok st1 ∧ StoreInv st1 ids := by
  unfold refresh_all
  simp only []
  split
  · exact ⟨st, rfl, h⟩
  · obtain ⟨addrs, h1, h2, h3, h4, h5, h6⟩ := h
    obtain ⟨st2, e2, s2, l2, n2⟩ := refresh_all_nodes_ok env
      (quantized_time env now st.utc_offset) st.token_list
      { st with key_list_is_dirty := false,
                lastQuantizedTimeGenerated := quantized_time env now st.utc_offset }
      (by
        intro k hk
        rw [h1] at hk
        obtain ⟨a, ha, rfl⟩ := List.mem_map.mp hk
        obtain ⟨t, e, hr⟩ := h4 a ha
        exact ⟨a, t, rfl, e, hr⟩)
    rw [e2]
    refine ⟨_, rfl, ?_⟩
    apply storeInv_of_same ⟨addrs, h1, h2, h3, h4, h5, h6⟩
    · intro a
      have := s2 a
      split <;> simpa [emit] using this
    · split <;> simpa [emit] using l2
    · split <;> simpa [emit] using n2

theorem deref_all_addrs (h : Heap) :
    ∀ (addrs : List Nat), (∀ a ∈ addrs, ∃ t, h a = some t) →
      ∃ ts, deref_all h (addrs.map some) = .ok ts ∧
        ts.map (fun t => t.id) = addrs.map (id_at h)
  | [], _ => ⟨[], rfl, rfl⟩
  | a :: addrs, hall => by
    obtain ⟨t, e⟩ := hall a (List.mem_cons_self _ _)
    obtain ⟨ts, e1, e2⟩ := deref_all_addrs h addrs
      (fun b hb => hall b (List.mem_cons_of_mem _ hb))
    refine ⟨t :: ts, ?_, ?_⟩
    · simp only [List.map_cons, deref_all, deref, e, e1]
    · simp only [List.map_cons, e2, id_at, e]

theorem storeInv_records {st : State} {ids : List Int} (h : StoreInv st ids) :
    ∃ ts, records st = .ok ts ∧ ts.map (fun t => t.id) = ids := by
  obtain ⟨addrs, h1, _, _, h4, h5, _⟩ := h
  obtain ⟨ts, e1, e2⟩ := deref_all_addrs st.heap addrs
    (fun a ha => (h4 a ha).imp fun t ht => ht.1)
  exact ⟨ts, by rw [records, h1]; exact e1, by rw [e2, h5]⟩

theorem storeInv_store_ids {st : State} {ids : List Int} (h : StoreInv st ids) :
    store_ids st = .ok ids := by
  obtain ⟨ts, e1, e2⟩ := storeInv_records h
  simp only [store_ids, e1, e2]

theorem persist_do_writeback_storeInv (oracle : Nat → WriteOutcome) {st : State}
    {ids : List Int} (h : StoreInv st ids) :
    ∃ st1, persist_do_writeback oracle st = .ok st1 ∧ StoreInv st1 ids := by
  obtain ⟨ts, e1, _⟩ := storeInv_records h
  exact ⟨_, persist_do_writeback_eq oracle st ts e1,
    storeInv_of_same h (fun a => same_but_code_refl _) rfl rfl⟩

theorem toShort_bounds (v : Int) : -32768 ≤ toShort v ∧ toShort v ≤ 32767 := by
  unfold toShort; omega

theorem toInt8_of_range {v : Int} (h0 : -128 ≤ v) (h1 : v ≤ 127) : toInt8 v = v := by
  unfold toInt8; omega

theorem fresh_token_code_length (env : Env) (a : Nat) : (fresh_token env a).code.length = 12 := by
  simp [fresh_token]

/-- The `AMCreateToken` block on a well-formed message: one record is
appended at a fresh address. -/
theorem am_create_token_storeInv (env : Env) {st : State} {ids : List Int}
    (h : StoreInv st ids) (len : Nat) (bytes : List Nat) (id : Int) (name : List Nat)
    (digits : Int) (hlen : len % 256 ≤ bytes.length)
    (hd0 : 0 ≤ toShort (toInt32 digits)) (hd1 : toShort (toInt32 digits) ≤ 10)
    (hid : toShort (toInt32 id) ∉ ids) :
    ∃ st1, am_create_token env (Op.message (.create (len :: bytes) id name digits)) st = .ok st1 ∧
      st1.delta = true ∧ StoreInv st1 (ids ++ [toShort (toInt32 id)]) := by
  obtain ⟨addrs, h1, h2, h3, h4, h5, h6⟩ := h
  obtain ⟨newKey, hst, hkid, hkr⟩ : ∃ newKey : TokenInfo,
      am_create_token env (Op.message (.create (len :: bytes) id name digits)) st = .ok
        { st with
          heap := heap_store st.heap st.next_addr newKey,
          next_addr := st.next_addr + 1,
          token_list := st.token_list ++ [some st.next_addr],
          key_list_is_dirty := true,
          persist_writeback := st.persist_writeback ||| (PWTokens ||| PWSecrets),
          delta := true } ∧
      newKey.id = toShort (toInt32 id) ∧ renderable newKey := by
    refine ⟨{ name := strncpy_name name,
              id := toShort (toInt32 id),
              secret_length := len % 256,
              secret := bytes.take (len % 256),
              code := (fresh_token env st.next_addr).code,
              digits := toShort (toInt32 digits) }, ?_, ?_, ?_⟩
    · simp only [am_create_token, Op.message, not_lt.mpr hlen, if_false, token_list_add]
    · rfl
    · exact ⟨fresh_token_code_length env _, hd0, hd1⟩
  refine ⟨_, hst, rfl, ?_⟩
  have hnot : st.next_addr ∉ addrs := fun hm => lt_irrefl _ (h3 _ hm)
  refine ⟨addrs ++ [st.next_addr], ?_, ?_, ?_, ?_, ?_, ?_⟩
  · simp [h1]
  · exact List.nodup_append.mpr ⟨h2, List.nodup_singleton _, by
      intro a ha hb
      rw [List.mem_singleton] at hb
      exact hnot (hb ▸ ha)⟩
  · intro a ha
    rcases List.mem_append.mp ha with ha | ha
    · exact Nat.lt_succ_of_lt (h3 a ha)
    · rw [List.mem_singleton] at ha
      subst ha
      exact Nat.lt_succ_self _
  · intro a ha
    rcases List.mem_append.mp ha with ha | ha
    · obtain ⟨t, e, hr⟩ := h4 a ha
      have hne : a ≠ st.next_addr := fun e1 => hnot (e1 ▸ ha)
      exact ⟨t, by simp [heap_store, hne, e], hr⟩
    · rw [List.mem_singleton] at ha
      subst ha
      exact ⟨newKey, by simp [heap_store], hkr⟩
  · rw [List.map_append, ← h5]
    congr 1
    · apply List.map_congr_left
      intro a ha
      have hne : a ≠ st.next_addr := fun e1 => hnot (e1 ▸ ha)
      simp [id_at, heap_store, hne]
    · simp [id_at, heap_store, hkid]
  · exact List.nodup_append.mpr ⟨h6, List.nodup_singleton _, by
      intro a ha hb
      rw [List.mem_singleton] at hb
      exact hid (hb ▸ ha)⟩

theorem token_by_id_nodes_skip (h : Heap) (id : Int) :
    ∀ (pre : List Nat) (rest : List (Option Nat)),
      (∀ a ∈ pre, ∃ t, h a = some t ∧ t.id ≠ id) →
      token_by_id_nodes h id (pre.map some ++ rest) = token_by_id_nodes h id rest
  | [], _, _ => rfl
  | a :: pre, rest, hall => by
    obtain ⟨t, e, hne⟩ := hall a (List.mem_cons_self _ _)
    simp only [List.map_cons, List.cons_append, token_by_id_nodes, deref, e, if_neg hne]
    exact token_by_id_nodes_skip h id pre rest (fun b hb => hall b (List.mem_cons_of_mem _ hb))

theorem erase_middle {α : Type} [BEq α] [LawfulBEq α] (pre post : List α) (x : α)
    (h : x ∉ pre) :
    (pre ++ x :: post).erase x = pre ++ post := by
  rw [List.erase_append_right _ h, List.erase_cons_head]

/-- The `AMDeleteToken` block on an id of the `int8` range that is in the
store: the record with that id is unlinked and freed. -/
theorem am_delete_token_storeInv {st : State} {ids : List Int} (h : StoreInv st ids)
    (v : Int) (hv0 : -128 ≤ v) (hv1 : v ≤ 127) (hmem : v ∈ ids) :
    ∃ st1, am_delete_token (Op.message (.delete v)) st = .ok st1 ∧
      st1.delta = true ∧ StoreInv st1 (ids.erase v) := by
  obtain ⟨addrs, h1, h2, h3, h4, h5, h6⟩ := h
  rw [← h5] at hmem
  obtain ⟨a, ha, hav⟩ := List.mem_map.mp hmem
  obtain ⟨pre, post, rfl⟩ := List.append_of_mem ha
  obtain ⟨t, e, hr⟩ := h4 a ha
  have htid : t.id = v := by simpa [id_at, e] using hav
  have hnd := List.nodup_middle.mp h2
  rw [List.nodup_cons] at hnd
  have ha_pre : a ∉ pre := fun hm => hnd.1 (List.mem_append_left _ hm)
  rw [List.map_append, List.map_cons, hav] at h5
  have hnd6 : (v :: (pre.map (id_at st.heap) ++ post.map (id_at st.heap))).Nodup := by
    rw [← h5] at h6
    exact List.nodup_middle.mp h6
  rw [List.nodup_cons] at hnd6
  have hv_pre : v ∉ pre.map (id_at st.heap) := fun hm => hnd6.1 (List.mem_append_left _ hm)
  have hfind : token_by_id st (toInt8 v) = .ok (some a) := by
    rw [toInt8_of_range hv0 hv1, token_by_id, h1, List.map_append, List.map_cons,
      token_by_id_nodes_skip]
    · simp only [token_by_id_nodes, deref, e, htid, if_true]
    · intro b hb
      obtain ⟨tb, eb, _⟩ := h4 b (List.mem_append_left _ hb)
      refine ⟨tb, eb, ?_⟩
      intro hid
      apply hv_pre
      exact List.mem_map.mpr ⟨b, hb, by simp [id_at, eb, hid]⟩
  have hst : am_delete_token (Op.message (.delete v)) st = .ok
      { st with
        heap := heap_free st.heap (some a),
        token_list := (pre ++ post).map some,
        key_list_is_dirty := true,
        persist := fun k => if k = persist_key (P_SECRETS_START + t.id) then none else st.persist k,
        trace := st.trace ++ [.persist_delete (persist_key (P_SECRETS_START + t.id))],
        persist_writeback := st.persist_writeback ||| PWTokens,
        delta := true } := by
    have hin : some a ∈ (persist_delete (P_SECRETS_START + t.id) st).token_list := by
      simp [persist_delete, emit, h1]
    have her : (persist_delete (P_SECRETS_START + t.id) st).token_list.erase (some a) =
        (pre ++ post).map some := by
      have : some a ∉ pre.map some := by
        intro hm
        obtain ⟨b, hb, hbe⟩ := List.mem_map.mp hm
        exact ha_pre (by cases hbe; exact hb)
      simp only [persist_delete, emit, h1, List.map_append, List.map_cons]
      exact erase_middle _ _ _ this
    simp only [am_delete_token, Op.message, hfind, deref, e, token_list_delete, if_pos hin, her]
    simp [persist_delete, emit]
  refine ⟨_, hst, rfl, ?_⟩
  have hne : ∀ b ∈ pre ++ post, b ≠ a := fun b hb hba => hnd.1 (hba ▸ hb)
  refine ⟨pre ++ post, rfl, hnd.2, ?_, ?_, ?_, ?_⟩
  · intro b hb
    apply h3
    rcases List.mem_append.mp hb with hb | hb
    · exact List.mem_append_left _ hb
    · exact List.mem_append_right _ (List.mem_cons_of_mem _ hb)
  · intro b hb
    have hb' : b ∈ pre ++ a :: post := by
      rcases List.mem_append.mp hb with hb | hb
      · exact List.mem_append_left _ hb
      · exact List.mem_append_right _ (List.mem_cons_of_mem _ hb)
    obtain ⟨tb, eb, hrb⟩ := h4 b hb'
    exact ⟨tb, by simp [heap_free, hne b hb, eb], hrb⟩
  · have hmap : (pre ++ post).map (id_at (heap_free st.heap (some a))) =
        (pre ++ post).map (id_at st.heap) := by
      apply List.map_congr_left
      intro b hb
      simp [id_at, heap_free, hne b hb]
    rw [← h5, erase_middle _ _ _ hv_pre]
    simp only [hmap, List.map_append]
  · exact h6.erase v

theorem in_received_handler_create_storeInv (env : Env) (a : Arrival) {st : State}
    {ids : List Int} (h : StoreInv st ids) (len : Nat) (bytes : List Nat) (id : Int)
    (name : List Nat) (digits : Int) (hlen : len % 256 ≤ bytes.length)
    (hd0 : 0 ≤ toShort (toInt32 digits)) (hd1 : toShort (toInt32 digits) ≤ 10)
    (hid : toShort (toInt32 id) ∉ ids) :
    ∃ st1, in_received_handler env a.now a.oracle
        (Op.message (.create (len :: bytes) id name digits)) st = .ok st1 ∧
      StoreInv st1 (ids ++ [toShort (toInt32 id)]) := by
  obtain ⟨st5, e5, d5, i5⟩ := am_create_token_storeInv env h len bytes id name digits hlen
    hd0 hd1 hid
  obtain ⟨st8, e8, i8⟩ := refresh_all_storeInv env a.now i5
  obtain ⟨st9, e9, i9⟩ := persist_do_writeback_storeInv a.oracle i8
  refine ⟨st9, ?_, i9⟩
  generalize hm : Op.message (.create (len :: bytes) id name digits) = m at e5 ⊢
  have m1 : m.AMSetUTCOffset = none := by rw [← hm]; rfl
  have m2 : m.AMClearTokens = false := by rw [← hm]; rfl
  have m3 : m.AMDeleteToken = none := by rw [← hm]; rfl
  have m4 : m.AMUpdateToken = none := by rw [← hm]; rfl
  have m5 : m.AMReadTokenList = false := by rw [← hm]; rfl
  have m6 : m.AMSetTokenListOrder = none := by rw [← hm]; rfl
  simp only [in_received_handler, am_set_utc_offset, am_clear_tokens, am_delete_token,
    am_update_token, am_read_token_list, am_set_token_list_order, m1, m2, m3, m4, m5, m6, e5,
    d5, e8, e9, if_true, Bool.false_eq_true, if_false]

theorem in_received_handler_delete_storeInv (env : Env) (a : Arrival) {st : State}
    {ids : List Int} (h : StoreInv st ids) (v : Int) (hv0 : -128 ≤ v) (hv1 : v ≤ 127)
    (hmem : v ∈ ids) :
    ∃ st1, in_received_handler env a.now a.oracle (Op.message (.delete v)) st = .ok st1 ∧
      StoreInv st1 (ids.erase v) := by
  obtain ⟨st3, e3, d3, i3⟩ := am_delete_token_storeInv h v hv0 hv1 hmem
  obtain ⟨st8, e8, i8⟩ := refresh_all_storeInv env a.now i3
  obtain ⟨st9, e9, i9⟩ := persist_do_writeback_storeInv a.oracle i8
  refine ⟨st9, ?_, i9⟩
  generalize hm : Op.message (.delete v) = m at e3 ⊢
  have m1 : m.AMSetUTCOffset = none := by rw [← hm]; rfl
  have m2 : m.AMClearTokens = false := by rw [← hm]; rfl
  have m3 : m.AMCreateToken = none := by rw [← hm]; rfl
  have m4 : m.AMUpdateToken = none := by rw [← hm]; rfl
  have m5 : m.AMReadTokenList = false := by rw [← hm]; rfl
  have m6 : m.AMSetTokenListOrder = none := by rw [← hm]; rfl
  simp only [in_received_handler, am_set_utc_offset, am_clear_tokens, am_create_token,
    am_update_token, am_read_token_list, am_set_token_list_order, m1, m2, m3, m4, m5, m6, e3,
    d3, e8, e9, if_true, Bool.false_eq_true, if_false]

theorem run_ops_storeInv (env : Env) :
    ∀ (ops : List (Arrival × Op)) (st : State) (ids : List Int),
      StoreInv st ids → valid_ops ops ids →
      ∃ st1, run_ops env ops st = .ok st1 ∧ StoreInv st1 (expected_ids ops ids)
  | [], st, ids, h, _ => ⟨st, rfl, h⟩
  | (a, .create secret id name digits) :: rest, st, ids, h, hv => by
    obtain ⟨⟨len, bytes, rfl, hlen⟩, hd0, hd1, hid, hrest⟩ := hv
    obtain ⟨st1, e1, i1⟩ := in_received_handler_create_storeInv env a h len bytes id name
      digits hlen hd0 hd1 hid
    obtain ⟨st2, e2, i2⟩ := run_ops_storeInv env rest st1 _ i1 hrest
    exact ⟨st2, by simp only [run_ops, e1]; exact e2, i2⟩
  | (a, .delete v) :: rest, st, ids, h, hv => by
    obtain ⟨hv0, hv1, hmem, hrest⟩ := hv
    obtain ⟨st1, e1, i1⟩ := in_received_handler_delete_storeInv env a h v hv0 hv1 hmem
    obtain ⟨st2, e2, i2⟩ := run_ops_storeInv env rest st1 _ i1 hrest
    exact ⟨st2, by simp only [run_ops, e1]; exact e2, i2⟩

theorem valid_ops_take :
    ∀ (ops : List (Arrival × Op)) (ids : List Int) (k : Nat),
      valid_ops ops ids → valid_ops (ops.take k) ids
  | [], _, k, _ => by simp [valid_ops]
  | _ :: _, _, 0, _ => by simp [valid_ops]
  | (a, .create secret id name digits) :: rest, ids, k + 1, hv => by
    obtain ⟨h1, hd0, hd1, hid, hrest⟩ := hv
    exact ⟨h1, hd0, hd1, hid, valid_ops_take rest _ k hrest⟩
  | (a, .delete v) :: rest, ids, k + 1, hv => by
    obtain ⟨hv0, hv1, hmem, hrest⟩ := hv
    exact ⟨hv0, hv1, hmem, valid_ops_take rest _ k hrest⟩

theorem expected_ids_multiset :
    ∀ (ops : List (Arrival × Op)) (ids : List Int), valid_ops ops ids →
      ((expected_ids ops ids : List Int) : Multiset Int) =
        (ids : Multiset Int) + (created_ids ops : Multiset Int) - (deleted_ids ops : Multiset Int)
  | [], ids, _ => by simp [expected_ids, created_ids, deleted_ids]
  | (a, .create secret id name digits) :: rest, ids, hv => by
    obtain ⟨_, _, _, _, hrest⟩ := hv
    rw [expected_ids, expected_ids_multiset rest _ hrest, created_ids, deleted_ids]
    congr 1
    have h1 : ((ids ++ [toShort (toInt32 id)] : List Int) : Multiset Int) =
        (ids : Multiset Int) + {toShort (toInt32 id)} := by
      rw [← Multiset.coe_singleton, Multiset.coe_add]
    have h2 : ((toShort (toInt32 id) :: created_ids rest : List Int) : Multiset Int) =
        {toShort (toInt32 id)} + (created_ids rest : Multiset Int) := by
      rw [← Multiset.cons_coe, Multiset.singleton_add]
    rw [h1, h2, add_assoc]
  | (a, .delete v) :: rest, ids, hv => by
    obtain ⟨_, _, hmem, hrest⟩ := hv
    rw [expected_ids, expected_ids_multiset rest _ hrest, created_ids, deleted_ids]
    have h1 : ((ids.erase v : List Int) : Multiset Int) = (ids : Multiset Int) - {v} := by
      rw [← Multiset.coe_erase, Multiset.sub_singleton]
    have h2 : ((v :: deleted_ids rest : List Int) : Multiset Int) =
        {v} + (deleted_ids rest : Multiset Int) := by
      rw [← Multiset.cons_coe, Multiset.singleton_add]
    have h3 : ({v} : Multiset Int) ≤ (ids : Multiset Int) := by
      rw [Multiset.singleton_le]; exact hmem
    rw [h1, h2, ← tsub_tsub, tsub_add_eq_add_tsub h3]

/-- C6 as stated fails: the handler does not look at the ids already in the
store.  Two create-token messages carrying id 1, applied to the empty store,
are both handled without fault and leave two records with id 1.  The other
conditions of the amended statement are needed as well: a delete-token
message for an id that is not in the store, a delete-token message for the id
300 just created (the block reads it as `int8` 44), and a create-token
message asking for 12 digits (more than the `code` array holds) each end in a
fault. -/
theorem C6_same_id_created_twice :
    (run_ops Env.zero ops_same_id (State.startup (fun _ => none) 0)).toOption.map store_ids
      = some (.ok [1, 1]) ∧
    ¬ ([1, 1] : List Int).Nodup ∧
    fault_of (run_ops Env.zero [(arrival_ok, .delete 1)] (State.startup (fun _ => none) 0))
      = some .null_deref ∧
    fault_of (run_ops Env.zero [(arrival_ok, .create [1, 7] 300 [65] 6), (arrival_ok, .delete 300)]
        (State.startup (fun _ => none) 0)) = some .null_deref ∧
    fault_of (run_ops Env.zero [(arrival_ok, .create [1, 7] 1 [65] 12)]
        (State.startup (fun _ => none) 0)) = some .out_of_bounds := by
  decide

/-- C6, amended.  Take any sequence of create-token and delete-token messages
in which every create is well formed (length-prefixed secret, digit count from
0 to 10) and carries an id that is not in the store when it arrives, and every
delete carries an id of the `int8` range that is in the store when it
arrives.  Applied by `in_received_handler` to the empty store at startup,
whatever the arrival times and write outcomes, every message is handled
without fault, and after each of them (after the first `k`, for every `k`)
the ids in the store are pairwise distinct, are, in list order, those the
sequence leaves (a create appends, a delete removes), and as a multiset
are the ids created minus the ids deleted. -/
theorem C6_id_bookkeeping (env : Env) (persist : Persist) (selected_row : Int)
    (ops : List (Arrival × Op)) (hvalid : valid_ops ops []) (k : Nat) :
    ∃ st, run_ops env (ops.take k) (State.startup persist selected_row) = .ok st ∧
      store_ids st = .ok (expected_ids (ops.take k) []) ∧
      (expected_ids (ops.take k) []).Nodup ∧
      ((expected_ids (ops.take k) [] : List Int) : Multiset Int) =
        (created_ids (ops.take k) : Multiset Int) - (deleted_ids (ops.take k) : Multiset Int) := by
  have hv := valid_ops_take ops [] k hvalid
  have h0 : StoreInv (State.startup persist selected_row) [] :=
    ⟨[], rfl, List.nodup_nil, by simp, by simp, rfl, List.nodup_nil⟩
  obtain ⟨st, e, i⟩ := run_ops_storeInv env (ops.take k) _ [] h0 hv
  refine ⟨st, e, storeInv_store_ids i, ?_, ?_⟩
  · obtain ⟨_, _, _, _, _, _, h6⟩ := i
    exact h6
  · rw [expected_ids_multiset _ _ hv]
    simp

theorem C6_id_bookkeeping_witness :
    valid_ops ops_create_delete [] ∧
    ∃ st, run_ops Env.zero (ops_create_delete.take 3) (State.startup (fun _ => none) 0) = .ok st ∧
      store_ids st = .ok (expected_ids (ops_create_delete.take 3) []) ∧
      (expected_ids (ops_create_delete.take 3) []).Nodup ∧
      ((expected_ids (ops_create_delete.take 3) [] : List Int) : Multiset Int) =
        (created_ids (ops_create_delete.take 3) : Multiset Int) -
          (deleted_ids (ops_create_delete.take 3) : Multiset Int) :=
  have hv : valid_ops ops_create_delete [] :=
    ⟨⟨1, [7], rfl, by decide⟩, by decide, by decide, by decide,
      ⟨1, [8], rfl, by decide⟩, by decide, by decide, by decide,
      by decide, by decide, by decide, trivial⟩
  ⟨hv, C6_id_bookkeeping Env.zero (fun _ => none) 0 ops_create_delete hv 3⟩

/-! ## C7: create-token with missing sibling fields -/

theorem deref_heap_store_ne (h : Heap) (a : Nat) (t : TokenInfo) {k : Option Nat}
    (hk : k ≠ some a) : deref (heap_store h a t) k = deref h k := by
  cases k with
  | none => rfl
  | some b =>
    have : b ≠ a := fun e => hk (by rw [e])
    simp [deref, heap_store, this]

theorem deref_all_heap_store (h : Heap) (a : Nat) (t : TokenInfo) :
    ∀ (l : List (Option Nat)), some a ∉ l → deref_all (heap_store h a t) l = deref_all h l
  | [], _ => rfl
  | k :: l, hn => by
    have hk : k ≠ some a := fun e => hn (by rw [e]; exact List.mem_cons_self _ _)
    have hl : some a ∉ l := fun hm => hn (List.mem_cons_of_mem _ hm)
    simp only [deref_all, deref_heap_store_ne h a t hk, deref_all_heap_store h a t l hl]

theorem deref_all_append_one (h : Heap) (k : Option Nat) (t : TokenInfo)
    (hk : deref h k = .ok t) :
    ∀ (l : List (Option Nat)) (ts : List TokenInfo), deref_all h l = .ok ts →
      deref_all h (l ++ [k]) = .ok (ts ++ [t])
  | [], ts, e => by
    simp only [deref_all, Except.ok.injEq] at e
    subst e
    simp [deref_all, hk]
  | k1 :: l, ts, e => by
    simp only [deref_all] at e
    cases h1 : deref h k1 with
    | error f => simp [h1] at e
    | ok t1 =>
      cases h2 : deref_all h l with
      | error f => simp [h1, h2] at e
      | ok ts1 =>
        simp only [h1, h2, Except.ok.injEq] at e
        subst e
        have ih := deref_all_append_one h k t hk l ts1 h2
        simp only [List.cons_append, deref_all, h1, List.append_eq, ih]

/-- The `AMCreateToken` block on a message with all four fields and a
length-prefixed secret. -/
theorem am_create_token_eq (env : Env) (st : State) (m : Message) (len : Nat)
    (bytes : List Nat) (id : Int) (name : List Nat) (digits : Int)
    (hs : m.AMCreateToken = some (len :: bytes)) (hlen : len % 256 ≤ bytes.length)
    (h1 : m.AMCreateToken_ID = some id) (h2 : m.AMCreateToken_Name = some name)
    (h3 : m.AMCreateToken_Digits = some digits) :
    am_create_token env m st = .ok
      { st with
        heap := heap_store st.heap st.next_addr
          { name := strncpy_name name,
            id := toShort (toInt32 id),
            secret_length := len % 256,
            secret := bytes.take (len % 256),
            code := (fresh_token env st.next_addr).code,
            digits := toShort (toInt32 digits) },
        next_addr := st.next_addr + 1,
        token_list := st.token_list ++ [some st.next_addr],
        key_list_is_dirty := true,
        persist_writeback := st.persist_writeback ||| (PWTokens ||| PWSecrets),
        delta := true } := by
  simp only [am_create_token, hs, h1, h2, h3, not_lt.mpr hlen, if_false, token_list_add]

/-- C7 as stated fails: a message carrying the create-token secret field
without its sibling fields is not rejected.  The handler dereferences the
`NULL` that `dict_find` returns for the missing id field and ends in that
fault instead of returning with the store as it was. -/
theorem C7_missing_sibling_is_null_dereference :
    fault_of (in_received_handler Env.zero 10 (fun _ => .ok) message_secret_only state_AB)
      = some .null_deref ∧
    fault_of (am_create_token Env.zero message_secret_only state_AB) = some .null_deref := by
  decide

/-- C7, amended.  For every state and every message whose create-token
secret field is a length byte followed by at least that many bytes: when the
id, name and digits fields are all present the `AMCreateToken` block
allocates one record at the fresh address `next_addr` and links it as the
last node, leaving every other node and record as it was; the record has the
given id and digits reduced to 16 bits, the name cut at 32 bytes, the length
byte as secret length and that many following bytes as secret; so over a list
of live records none of which sits at `next_addr` the records afterwards are
the records before followed by the new one.  When one of the three fields is
missing the block ends in a `NULL` dereference and returns no state. -/
theorem C7_create_token_complete_or_fault (env : Env) (st : State) (m : Message)
    (len : Nat) (bytes : List Nat) (hs : m.AMCreateToken = some (len :: bytes))
    (hlen : len % 256 ≤ bytes.length) :
    (∀ id name digits, m.AMCreateToken_ID = some id → m.AMCreateToken_Name = some name →
      m.AMCreateToken_Digits = some digits →
      ∃ st1 code, am_create_token env m st = .ok st1 ∧
        st1.token_list = st.token_list ++ [some st.next_addr] ∧
        st1.heap st.next_addr = some
          { name := (name.takeWhile (fun c => c != 0)).take 32,
            id := toShort (toInt32 id),
            secret_length := len % 256,
            secret := bytes.take (len % 256),
            code := code,
            digits := toShort (toInt32 digits) } ∧
        ((name.takeWhile (fun c => c != 0)).take 32).length ≤ 32 ∧
        (bytes.take (len % 256)).length = len % 256 ∧
        (∀ a, a ≠ st.next_addr → st1.heap a = st.heap a) ∧
        (∀ ts, records st = .ok ts → some st.next_addr ∉ st.token_list →
          records st1 = .ok (ts ++
            [{ name := (name.takeWhile (fun c => c != 0)).take 32,
               id := toShort (toInt32 id),
               secret_length := len % 256,
               secret := bytes.take (len % 256),
               code := code,
               digits := toShort (toInt32 digits) }]))) ∧
    ((m.AMCreateToken_ID = none ∨ m.AMCreateToken_Name = none ∨ m.AMCreateToken_Digits = none) →
      am_create_token env m st = .error .null_deref) := by
  constructor
  · intro id name digits h1 h2 h3
    refine ⟨_, (fresh_token env st.next_addr).code,
      am_create_token_eq env st m len bytes id name digits hs hlen h1 h2 h3, ?_, ?_, ?_, ?_, ?_, ?_⟩
    · rfl
    · simp [heap_store, strncpy_name, MAX_NAME_LENGTH]
    · simp
    · simp [hlen]
    · intro a ha
      simp [heap_store, ha]
    · intro ts hts hfresh
      simp only [records] at hts ⊢
      apply deref_all_append_one
      · simp [deref, heap_store, strncpy_name, MAX_NAME_LENGTH]
      · rw [deref_all_heap_store _ _ _ _ hfresh]
        exact hts
  · intro hmiss
    cases hi : m.AMCreateToken_ID <;> cases hn : m.AMCreateToken_Name <;>
      cases hd : m.AMCreateToken_Digits <;>
      simp_all [am_create_token]

theorem C7_create_token_complete_or_fault_witness :
    (message_create.AMCreateToken = some (2 :: [7, 8, 9]) ∧ 2 % 256 ≤ [7, 8, 9].length ∧
      ∃ st1 code, am_create_token Env.zero message_create state_AB = .ok st1 ∧
        st1.token_list = state_AB.token_list ++ [some state_AB.next_addr] ∧
        st1.heap state_AB.next_addr = some
          { name := (([67] : List Nat).takeWhile (fun c => c != 0)).take 32,
            id := toShort (toInt32 3),
            secret_length := 2 % 256,
            secret := [7, 8, 9].take (2 % 256),
            code := code,
            digits := toShort (toInt32 6) } ∧
        ((([67] : List Nat).takeWhile (fun c => c != 0)).take 32).length ≤ 32 ∧
        ([7, 8, 9].take (2 % 256)).length = 2 % 256 ∧
        (∀ a, a ≠ state_AB.next_addr → st1.heap a = state_AB.heap a) ∧
        (∀ ts, records state_AB = .ok ts → some state_AB.next_addr ∉ state_AB.token_list →
          records st1 = .ok (ts ++
            [{ name := (([67] : List Nat).takeWhile (fun c => c != 0)).take 32,
               id := toShort (toInt32 3),
               secret_length := 2 % 256,
               secret := [7, 8, 9].take (2 % 256),
               code := code,
               digits := toShort (toInt32 6) }]))) ∧
    (message_secret_only.AMCreateToken = some (1 :: [7]) ∧ 1 % 256 ≤ [7].length ∧
      message_secret_only.AMCreateToken_ID = none ∧
      am_create_token Env.zero message_secret_only state_AB = .error .null_deref) :=
  ⟨⟨rfl, by decide,
      (C7_create_token_complete_or_fault Env.zero state_AB message_create 2 [7, 8, 9] rfl
        (by decide)).1 3 [67] 6 rfl rfl rfl⟩,
    ⟨rfl, by decide, rfl,
      (C7_create_token_complete_or_fault Env.zero state_AB message_secret_only 1 [7] rfl
        (by decide)).2 (Or.inl rfl)⟩⟩

/-! ## C8: delete-token and update-token of an absent id -/

/-- What `token_by_id` returns over a list of live records: the key of a
node whose record has the id, or `NULL` when no record has it. -/
theorem token_by_id_nodes_spec (h : Heap) (id : Int) :
    ∀ (l : List (Option Nat)) (ts : List TokenInfo), deref_all h l = .ok ts →
      ∃ key, token_by_id_nodes h id l = .ok key ∧
        (∀ a, key = some a → some a ∈ l ∧ ∃ t, h a = some t ∧ t.id = id) ∧
        (key = none → ∀ t ∈ ts, t.id ≠ id) ∧
        ((∀ t ∈ ts, t.id ≠ id) → key = none)
  | [], ts, e => by
    simp only [deref_all, Except.ok.injEq] at e
    subst e
    exact ⟨none, rfl, by simp, by simp, by simp⟩
  | k :: l, ts, e => by
    simp only [deref_all] at e
    cases hk : deref h k with
    | error f => simp [hk] at e
    | ok t =>
      cases hl : deref_all h l with
      | error f => simp [hk, hl] at e
      | ok ts1 =>
        simp only [hk, hl, Except.ok.injEq] at e
        subst e
        by_cases hid : t.id = id
        · refine ⟨k, by simp [token_by_id_nodes, hk, hid], ?_, ?_, ?_⟩
          · intro a ha
            subst ha
            refine ⟨List.mem_cons_self _ _, t, ?_, hid⟩
            simp only [deref] at hk
            split at hk <;> simp_all
          · intro hnone
            subst hnone
            simp [deref] at hk
          · intro hall
            exact absurd hid (hall t (List.mem_cons_self _ _))
        · obtain ⟨key, e1, p1, p2, p3⟩ := token_by_id_nodes_spec h id l ts1 hl
          refine ⟨key, by simp [token_by_id_nodes, hk, hid, e1], ?_, ?_, ?_⟩
          · intro a ha
            obtain ⟨q1, q2⟩ := p1 a ha
            exact ⟨List.mem_cons_of_mem _ q1, q2⟩
          · intro hnone t1 ht1
            rcases List.mem_cons.mp ht1 with rfl | ht1
            · exact hid
            · exact p2 hnone t1 ht1
          · intro hall
            exact p3 (fun t1 ht1 => hall t1 (List.mem_cons_of_mem _ ht1))

/-- C8 as stated fails: on the store holding ids 1 and 2, a delete-token and
an update-token message for the absent id 5 are not rejected, the handler
ends in a `NULL` dereference; and on a store holding id 44, a delete-token
message for the absent id 300 is read as `int8` 44 and deletes that record. -/
theorem C8_absent_id_is_not_rejected :
    fault_of (in_received_handler Env.zero 10 (fun _ => .ok) { AMDeleteToken := some 5 } state_AB)
      = some .null_deref ∧
    fault_of (in_received_handler Env.zero 10 (fun _ => .ok)
        { AMUpdateToken := some { id := 5, name := [90] } } state_AB) = some .null_deref ∧
    store_ids (State.of_records [token_44]) = .ok [44] ∧
    (in_received_handler Env.zero 10 (fun _ => .ok) { AMDeleteToken := some 300 }
        (State.of_records [token_44])).toOption.map store_ids = some (.ok []) := by
  decide

/-- C8, amended.  For every state whose list nodes hold live records: when no
record has the id a delete-token message carries (an id of the `int8` range,
as the block reads it), or the id an update-token message carries,
`token_by_id` returns `NULL`, the block dereferences it, and the handler
ends in that fault without returning a state; the command is neither
rejected nor applied. -/
theorem C8_absent_id_faults (env : Env) (now : Int) (oracle : Nat → WriteOutcome)
    (st : State) (ts : List TokenInfo) (hrec : records st = .ok ts) :
    (∀ v : Int, -128 ≤ v → v ≤ 127 → (∀ t ∈ ts, t.id ≠ v) →
      token_by_id st v = .ok none ∧
      (∀ m : Message, m.AMDeleteToken = some v → am_delete_token m st = .error .null_deref) ∧
      in_received_handler env now oracle { AMDeleteToken := some v } st = .error .null_deref) ∧
    (∀ pub : PublicTokenInfo, (∀ t ∈ ts, t.id ≠ toShort pub.id) →
      token_by_id st (toShort pub.id) = .ok none ∧
      (∀ m : Message, m.AMUpdateToken = some pub → am_update_token m st = .error .null_deref) ∧
      in_received_handler env now oracle { AMUpdateToken := some pub } st
        = .error .null_deref) := by
  constructor
  · intro v hv0 hv1 hv
    obtain ⟨key, e1, _, _, p3⟩ := token_by_id_nodes_spec st.heap v st.token_list ts hrec
    have hnone := p3 hv
    subst hnone
    have hfind0 : token_by_id st v = .ok none := e1
    have hfind : token_by_id st (toInt8 v) = .ok none := by
      rw [toInt8_of_range hv0 hv1]; exact e1
    refine ⟨hfind0, ?_, ?_⟩
    · intro m hm
      simp [am_delete_token, hm, hfind, deref]
    · simp [in_received_handler, am_set_utc_offset, am_clear_tokens, am_delete_token, hfind,
        deref]
  · intro pub hp
    obtain ⟨key, e1, _, _, p3⟩ :=
      token_by_id_nodes_spec st.heap (toShort pub.id) st.token_list ts hrec
    have hnone := p3 hp
    subst hnone
    have hfind : token_by_id st (toShort pub.id) = .ok none := e1
    refine ⟨hfind, ?_, ?_⟩
    · intro m hm
      simp [am_update_token, hm, hfind]
    · simp [in_received_handler, am_set_utc_offset, am_clear_tokens, am_delete_token,
        am_update_token, hfind]

theorem C8_absent_id_faults_witness :
    records state_AB = .ok [token_A, token_B] ∧
    (∀ t ∈ [token_A, token_B], t.id ≠ 5) ∧
    (token_by_id state_AB 5 = .ok none ∧
      (∀ m : Message, m.AMDeleteToken = some 5 →
        am_delete_token m state_AB = .error .null_deref) ∧
      in_received_handler Env.zero 10 (fun _ => .ok) { AMDeleteToken := some 5 } state_AB
        = .error .null_deref) ∧
    (∀ t ∈ [token_A, token_B], t.id ≠ toShort 5) ∧
    (token_by_id state_AB (toShort 5) = .ok none ∧
      (∀ m : Message, m.AMUpdateToken = some { id := 5, name := [90] } →
        am_update_token m state_AB = .error .null_deref) ∧
      in_received_handler Env.zero 10 (fun _ => .ok)
        { AMUpdateToken := some { id := 5, name := [90] } } state_AB = .error .null_deref) :=
  ⟨by decide, by decide,
    (C8_absent_id_faults Env.zero 10 (fun _ => .ok) state_AB [token_A, token_B]
      (by decide)).1 5 (by decide) (by decide) (by decide),
    by decide,
    (C8_absent_id_faults Env.zero 10 (fun _ => .ok) state_AB [token_A, token_B]
      (by decide)).2 { id := 5, name := [90] } (by decide)⟩

/-! ## C9: Set-order and its input -/

theorem toShort_byte (b : Nat) : toShort ((b : Int) % 256) = (b : Int) % 256 := by
  unfold toShort; omega

theorem reorder_build_spec (st : State) (ts : List TokenInfo) (hrec : records st = .ok ts)
    (data : List Nat) :
    ∀ (n i : Nat), i + n ≤ data.length →
      ∃ keys, reorder_build st data n i = .ok keys ∧ keys.length = n ∧
        ∀ j b, j < n → data.get? (i + j) = some b →
          ∃ key, keys.get? j = some key ∧ token_by_id st ((b : Int) % 256) = .ok key
  | 0, _, _ => ⟨[], rfl, rfl, fun j b hj => absurd hj (Nat.not_lt_zero _)⟩
  | n + 1, i, hle => by
    obtain ⟨b, hb⟩ : ∃ b, data.get? i = some b := by
      have : i < data.length := by omega
      exact ⟨data.get ⟨i, this⟩, List.get?_eq_get this⟩
    obtain ⟨key, e1, _⟩ :=
      token_by_id_nodes_spec st.heap ((b : Int) % 256) st.token_list ts hrec
    obtain ⟨keys, e2, l2, p2⟩ := reorder_build_spec st ts hrec data n (i + 1) (by omega)
    have hfind : token_by_id st (toShort ((b : Int) % 256)) = .ok key := by
      rw [toShort_byte]; exact e1
    refine ⟨key :: keys, ?_, by simp [l2], ?_⟩
    · simp only [reorder_build, hb, hfind, e2]
    · intro j b1 hj hb1
      cases j with
      | zero =>
        simp only [Nat.add_zero] at hb1
        rw [hb] at hb1
        cases hb1
        exact ⟨key, rfl, e1⟩
      | succ j1 =>
        have := p2 j1 b1 (by omega) (by rw [← hb1]; congr 1; omega)
        simpa using this

/-- C9 as stated fails: Set-order is applied without any validation.  On the
store holding ids 1 and 2 (at addresses 0 and 1), the sequence `[1, 1]` is
handled without fault and leaves the record of id 1 at both positions, the
record of id 2 gone from the list; the sequence `[1, 3]` makes the block link
a node with a `NULL` key at position 1, on which the refresh that follows
faults. -/
theorem C9_set_order_is_not_validated :
    store_ids state_AB = .ok [1, 2] ∧
    (in_received_handler Env.zero 10 (fun _ => .ok) { AMSetTokenListOrder := some [1, 1] }
        state_AB).toOption.map (fun s => (s.token_list, store_ids s))
      = some ([some 0, some 0], .ok [1, 1]) ∧
    (am_set_token_list_order { AMSetTokenListOrder := some [1, 3] } state_AB).toOption.map
        (fun s => s.token_list) = some [some 0, none] ∧
    fault_of (in_received_handler Env.zero 10 (fun _ => .ok)
        { AMSetTokenListOrder := some [1, 3] } state_AB) = some .null_deref := by
  decide

/-- C9, amended.  Set-order applies the sequence as it is.  For every state
whose list holds live records (at most 32767) and every byte sequence at
least as long as the list, the `AMSetTokenListOrder` block returns with a
list of the same length, the records themselves untouched, in which the node
at position `i` holds what `token_by_id` finds for the `i`-th byte of the
sequence: the key of a node of the old list whose record has that id, or a
`NULL` key exactly when no record has that id.  (So a repeated id puts one
record at two positions, an id left out drops its record from the list, and
an absent id leaves a position without a record.) -/
theorem C9_set_order_applies_sequence_as_is (st : State) (ts : List TokenInfo)
    (hrec : records st = .ok ts) (hlen : ts.length ≤ 32767) (m : Message) (data : List Nat)
    (hm : m.AMSetTokenListOrder = some data) (hdata : ts.length ≤ data.length) :
    ∃ st1, am_set_token_list_order m st = .ok st1 ∧ st1.heap = st.heap ∧
      st1.token_list.length = ts.length ∧ st1.key_list_is_dirty = true ∧
      ∀ i b, i < ts.length → data.get? i = some b →
        ∃ key, st1.token_list.get? i = some key ∧
          token_by_id st ((b : Int) % 256) = .ok key ∧
          (∀ a, key = some a →
            some a ∈ st.token_list ∧ ∃ t, st.heap a = some t ∧ t.id = ((b : Int) % 256)) ∧
          (key = none ↔ ∀ t ∈ ts, t.id ≠ ((b : Int) % 256)) := by
  have hl := deref_all_length hrec
  have hn : (token_list_length st).toNat = ts.length := by
    rw [token_list_length, toShort_of_le (by rw [hl]; exact hlen), Int.toNat_ofNat, hl]
  obtain ⟨keys, e1, l1, p1⟩ := reorder_build_spec st ts hrec data ts.length 0 (by omega)
  refine ⟨{ token_list_supplant keys st with
      persist_writeback := (token_list_supplant keys st).persist_writeback ||| PWTokens,
      delta := true },
    by simp only [am_set_token_list_order, hm, hn, e1], rfl, l1, rfl, ?_⟩
  intro i b hi hb
  obtain ⟨key, k1, k2⟩ := p1 i b hi (by rw [Nat.zero_add]; exact hb)
  obtain ⟨key1, e2, q1, q2, q3⟩ :=
    token_by_id_nodes_spec st.heap ((b : Int) % 256) st.token_list ts hrec
  have hkey : key1 = key := by
    have : Except.ok key1 = (Except.ok key : Except Fault (Option Nat)) := by
      rw [← e2, ← k2]; rfl
    cases this; rfl
  subst hkey
  exact ⟨key1, k1, k2, q1, ⟨q2, q3⟩⟩

theorem C9_set_order_applies_sequence_as_is_witness :
    records state_AB = .ok [token_A, token_B] ∧
    ([token_A, token_B] : List TokenInfo).length ≤ 32767 ∧
    ([token_A, token_B] : List TokenInfo).length ≤ ([1, 1] : List Nat).length ∧
    ∃ st1, am_set_token_list_order { AMSetTokenListOrder := some [1, 1] } state_AB = .ok st1 ∧
      st1.heap = state_AB.heap ∧
      st1.token_list.length = ([token_A, token_B] : List TokenInfo).length ∧
      st1.key_list_is_dirty = true ∧
      ∀ i b, i < ([token_A, token_B] : List TokenInfo).length →
        ([1, 1] : List Nat).get? i = some b →
        ∃ key, st1.token_list.get? i = some key ∧
          token_by_id state_AB ((b : Int) % 256) = .ok key ∧
          (∀ a, key = some a →
            some a ∈ state_AB.token_list ∧
              ∃ t, state_AB.heap a = some t ∧ t.id = ((b : Int) % 256)) ∧
          (key = none ↔ ∀ t ∈ [token_A, token_B], t.id ≠ ((b : Int) % 256)) :=
  ⟨by decide, by decide, by decide,
    C9_set_order_applies_sequence_as_is state_AB [token_A, token_B] (by decide) (by decide)
      { AMSetTokenListOrder := some [1, 1] } [1, 1] rfl (by decide)⟩

/-! ## C10: refresh idempotence -/

theorem token_list_retrieve_iter_delta {st st1 : State}
    (h : token_list_retrieve_iter st = .ok st1) : st1.delta = st.delta := by
  unfold token_list_retrieve_iter at h
  split at h
  · split at h <;> (simp only [Except.ok.injEq] at h; subst h; rfl)
  · split at h
    · cases h
    · split at h
      · cases h
      · simp only [Except.ok.injEq] at h
        subst h
        rfl

/-- While the handler's `delta` is still false, a message carrying only the
Read-token-list field is handled by the `AMReadTokenList` block alone. -/
theorem in_received_handler_read_token_list (env : Env) (now : Int)
    (oracle : Nat → WriteOutcome) (st : State) (hd : st.delta = false) :
    in_received_handler env now oracle { AMReadTokenList := true } st =
      am_read_token_list { AMReadTokenList := true } st := by
  simp only [in_received_handler, am_set_utc_offset, am_clear_tokens, am_delete_token,
    am_update_token, am_create_token, am_set_token_list_order, Bool.false_eq_true, if_false]
  cases h : am_read_token_list { AMReadTokenList := true } st with
  | error f => rfl
  | ok st1 =>
    have hd1 : st1.delta = false := by
      simp only [am_read_token_list, if_true] at h
      rw [token_list_retrieve_iter_delta h]
      exact hd
    simp [hd1]

/-! ## C11: the rendered code strings -/

theorem buffer12 (out : List Nat) (h : out.length = 12) :
    ∃ o0 o1 o2 o3 o4 o5 o6 o7 o8 o9 o10 o11, out = [o0, o1, o2, o3, o4, o5, o6, o7, o8, o9, o10, o11] := by
  match out, h with
  | [o0, o1, o2, o3, o4, o5, o6, o7, o8, o9, o10, o11], _ => exact ⟨_, _, _, _, _, _, _, _, _, _, _, _, rfl⟩

theorem code2char_content (c : Int) (out : List Nat) (hout : out.length = 12) (d : Nat)
    (hd : d ≤ 6) :
    code2char c out d = .ok (zero_padded d c ++ 0 :: out.drop (d + 1)) := by
  obtain ⟨o0, o1, o2, o3, o4, o5, o6, o7, o8, o9, o10, o11, rfl⟩ := buffer12 out hout
  interval_cases d <;>
    simp [code2char, code2char_loop, buf_write, zero_padded, List.range_succ] <;>
    omega

theorem code2charspace_content (c : Int) (out : List Nat) (hout : out.length = 12) (d : Nat)
    (h6 : 6 < d) (hd : d ≤ 10) :
    code2charspace c out d = .ok (zero_padded_spaced d c ++ 0 :: out.drop (d + 2)) := by
  obtain ⟨o0, o1, o2, o3, o4, o5, o6, o7, o8, o9, o10, o11, rfl⟩ := buffer12 out hout
  interval_cases d <;>
    simp [code2charspace, code2charspace_loop, buf_write, zero_padded, zero_padded_spaced, List.range_succ] <;>
    omega

theorem zero_padded_length (d : Nat) (c : Int) : (zero_padded d c).length = d := by
  simp [zero_padded]

theorem zero_padded_digit (d : Nat) (c : Int) : ∀ x ∈ zero_padded d c, 48 ≤ x ∧ x ≤ 57 := by
  intro x hx
  simp only [zero_padded, List.mem_map] at hx
  obtain ⟨i, _, rfl⟩ := hx
  omega

theorem cstring_append_zero (s rest : List Nat) (h : ∀ x ∈ s, x ≠ 0) :
    cstring (s ++ 0 :: rest) = s := by
  induction s with
  | nil => simp [cstring]
  | cons x s ih =>
    have hx : x ≠ 0 := h x (List.mem_cons_self _ _)
    have := ih (fun y hy => h y (List.mem_cons_of_mem _ hy))
    simp only [cstring] at this ⊢
    have hb : (x != 0) = true := by simpa using hx
    rw [List.cons_append, List.takeWhile_cons, hb, if_pos rfl, this]

theorem filter_digits (s : List Nat) (h : ∀ x ∈ s, 48 ≤ x) :
    s.filter (fun x => x != 32) = s := by
  rw [List.filter_eq_self]
  intro x hx
  have := h x hx
  simp
  omega

theorem count_digits (s : List Nat) (h : ∀ x ∈ s, 48 ≤ x) : s.count 32 = 0 := by
  rw [List.count_eq_zero]
  intro hx
  have := h 32 hx
  omega

theorem zero_padded_spaced_spec (d : Nat) (c : Int) :
    (zero_padded_spaced d c).length = d + 1 ∧
    (zero_padded_spaced d c).count 32 = 1 ∧
    (zero_padded_spaced d c).get? ((d + 1) / 2) = some 32 ∧
    (zero_padded_spaced d c).filter (fun x => x != 32) = zero_padded d c ∧
    ∀ x ∈ zero_padded_spaced d c, x ≠ 0 := by
  have hlen := zero_padded_length d c
  have hdig := zero_padded_digit d c
  have h1 : ∀ x ∈ (zero_padded d c).take ((d + 1) / 2), 48 ≤ x :=
    fun x hx => (hdig x (List.mem_of_mem_take hx)).1
  have h2 : ∀ x ∈ (zero_padded d c).drop ((d + 1) / 2), 48 ≤ x :=
    fun x hx => (hdig x (List.mem_of_mem_drop hx)).1
  refine ⟨?_, ?_, ?_, ?_, ?_⟩
  · simp only [zero_padded_spaced, List.length_append, List.length_cons, List.length_take,
      List.length_drop, hlen]
    omega
  · simp only [zero_padded_spaced, List.count_append, List.count_cons_self, count_digits _ h1,
      count_digits _ h2]
  · have hl : ((zero_padded d c).take ((d + 1) / 2)).length = (d + 1) / 2 := by
      rw [List.length_take, hlen]; omega
    simp only [zero_padded_spaced]
    rw [List.get?_eq_getElem?, List.getElem?_append_right (by omega), hl]
    simp
  · simp only [zero_padded_spaced, List.filter_append, List.filter_cons, filter_digits _ h1,
      filter_digits _ h2]
    simp
  · intro x hx
    simp only [zero_padded_spaced, List.mem_append, List.mem_cons] at hx
    rcases hx with hx | rfl | hx
    · have := h1 x hx; omega
    · decide
    · have := h2 x hx; omega

theorem render_content (c : Int) (t : TokenInfo) (hlen : t.code.length = 12)
    (h1 : 0 ≤ t.digits) (h10 : t.digits ≤ 10) :
    ∃ code,
      (if t.digits > 6 then code2charspace c t.code t.digits else code2char c t.code t.digits)
        = .ok code ∧
      cstring code = if t.digits ≤ 6 then zero_padded t.digits.toNat c
        else zero_padded_spaced t.digits.toNat c := by
  have hd : t.digits = ((t.digits.toNat : Nat) : Int) := (Int.toNat_of_nonneg h1).symm
  by_cases h6 : t.digits > 6
  · rw [if_pos h6, if_neg (by omega)]
    refine ⟨_, ?_, cstring_append_zero _ (t.code.drop (t.digits.toNat + 2))
      (zero_padded_spaced_spec _ c).2.2.2.2⟩
    have := code2charspace_content c t.code hlen t.digits.toNat (by omega) (by omega)
    rw [← hd] at this
    exact this
  · rw [if_neg h6, if_pos (by omega)]
    refine ⟨_, ?_, cstring_append_zero _ (t.code.drop (t.digits.toNat + 1))
      (fun x hx => by have := (zero_padded_digit _ c x hx).1; omega)⟩
    have := code2char_content c t.code hlen t.digits.toNat (by omega)
    rw [← hd] at this
    exact this

theorem refresh_all_nodes_codes (env : Env) (q : Int) :
    ∀ (addrs : List Nat) (st : State), addrs.Nodup →
      (∀ a ∈ addrs, ∃ t, st.heap a = some t ∧ t.code.length = 12 ∧ 0 ≤ t.digits ∧ t.digits ≤ 10) →
      ∃ st1, refresh_all_nodes env q (addrs.map some) st = .ok st1 ∧
        (∀ b, b ∉ addrs → st1.heap b = st.heap b) ∧
        ∀ a ∈ addrs, ∀ t, st.heap a = some t →
          ∃ code, st1.heap a = some { t with code := code } ∧
            cstring code =
              if t.digits ≤ 6 then
                zero_padded t.digits.toNat (toUInt32 (env.generateCode t.secret t.secret_length q))
              else
                zero_padded_spaced t.digits.toNat
                  (toUInt32 (env.generateCode t.secret t.secret_length q))
  | [], st, _, _ => ⟨st, rfl, fun _ _ => rfl, fun a ha => by cases ha⟩
  | a :: l, st, hnd, h => by
    obtain ⟨t, e, hlen, h1, h10⟩ := h a (List.mem_cons_self _ _)
    obtain ⟨code, ec, hs⟩ :=
      render_content (toUInt32 (env.generateCode t.secret t.secret_length q)) t hlen h1 h10
    have hal : a ∉ l := (List.nodup_cons.mp hnd).1
    have hne : ∀ b ∈ l, b ≠ a := fun b hb hba => hal (hba ▸ hb)
    obtain ⟨st1, e1, hframe, hcodes⟩ := refresh_all_nodes_codes env q l
      { emit (.generateCode t.secret t.secret_length q) st with
        heap := heap_store (emit (.generateCode t.secret t.secret_length q) st).heap a
          { t with code := code } }
      (List.nodup_cons.mp hnd).2
      (fun b hb => by
        obtain ⟨tb, eb, hb1⟩ := h b (List.mem_cons_of_mem _ hb)
        exact ⟨tb, by simp only [heap_store, emit, if_neg (hne b hb), eb], hb1⟩)
    refine ⟨st1, ?_, ?_, ?_⟩
    · simp only [List.map_cons, refresh_all_nodes, e, ec]
      exact e1
    · intro b hb
      rw [hframe b (fun hbl => hb (List.mem_cons_of_mem _ hbl))]
      have : b ≠ a := fun hba => hb (hba ▸ List.mem_cons_self _ _)
      simp only [heap_store, emit, if_neg this]
    · intro b hb tb eb
      rcases List.mem_cons.mp hb with rfl | hbl
      · rw [e] at eb
        cases eb
        refine ⟨code, ?_, hs⟩
        rw [hframe b hal]
        simp only [heap_store, emit, if_true]
      · exact hcodes b hbl tb (by simp only [heap_store, emit, if_neg (hne b hbl), eb])


/-- C11.  For every numeric code `c` and every 12-byte code buffer: with
`1 <= d <= 6` the string `code2char` leaves is exactly the `d` decimal
characters of `c mod 10^d`, zero-padded on the left; with `6 < d <= 10` the
string `code2charspace` leaves has exactly `d + 1` characters, exactly one of
them a space, which stands after the first `ceil(d/2)` digits, and deleting the
space gives the `d`-character zero-padded decimal of `c mod 10^d`.  When
`refresh_all` recomputes a store of distinct live records, the string it stores
in each record is the one of these two that the record's digit count selects,
for the code the generator returned. -/
theorem C11_code_formatting (env : Env) (now : Int) (st : State) (addrs : List Nat)
    (hl : st.token_list = addrs.map some) (hnd : addrs.Nodup)
    (hrec : ∀ a ∈ addrs, ∃ t, st.heap a = some t ∧ t.code.length = 12 ∧
      1 ≤ t.digits ∧ t.digits ≤ 10)
    (hrun : st.key_list_is_dirty = true ∨
      quantized_time env now st.utc_offset ≠ st.lastQuantizedTimeGenerated) :
    (∀ (c : Int) (out : List Nat) (d : Nat), out.length = 12 →
      (1 ≤ d → d ≤ 6 → ∃ r, code2char c out d = .ok r ∧
        (cstring r).length = d ∧ cstring r = zero_padded d c) ∧
      (6 < d → d ≤ 10 → ∃ r, code2charspace c out d = .ok r ∧
        (cstring r).length = d + 1 ∧ (cstring r).count 32 = 1 ∧
        (cstring r).get? ((d + 1) / 2) = some 32 ∧
        cstring r = (zero_padded d c).take ((d + 1) / 2) ++
          32 :: (zero_padded d c).drop ((d + 1) / 2) ∧
        (cstring r).filter (fun x => x != 32) = zero_padded d c)) ∧
    ∃ st1, refresh_all env now st = .ok st1 ∧
      ∀ a ∈ addrs, ∀ t, st.heap a = some t →
        ∃ code, st1.heap a = some { t with code := code } ∧
          cstring code =
            if t.digits ≤ 6 then
              zero_padded t.digits.toNat (toUInt32 (env.generateCode t.secret t.secret_length
                (quantized_time env now st.utc_offset)))
            else
              zero_padded_spaced t.digits.toNat (toUInt32 (env.generateCode t.secret
                t.secret_length (quantized_time env now st.utc_offset))) := by
  refine ⟨?_, ?_⟩
  · intro c out d hout
    refine ⟨fun _ h6 => ?_, fun h6 h10 => ?_⟩
    · have hs : cstring (zero_padded d c ++ 0 :: out.drop (d + 1)) = zero_padded d c :=
        cstring_append_zero _ _ (fun x hx => by have := (zero_padded_digit _ c x hx).1; omega)
      exact ⟨_, code2char_content c out hout d h6, by rw [hs, zero_padded_length], hs⟩
    · obtain ⟨s1, s2, s3, s4, s5⟩ := zero_padded_spaced_spec d c
      have hs : cstring (zero_padded_spaced d c ++ 0 :: out.drop (d + 2))
          = zero_padded_spaced d c := cstring_append_zero _ _ s5
      refine ⟨_, code2charspace_content c out hout d h6 h10, ?_, ?_, ?_, ?_, ?_⟩
      · rw [hs, s1]
      · rw [hs, s2]
      · rw [hs, s3]
      · rw [hs]; rfl
      · rw [hs, s4]
  · have hne : ¬ (quantized_time env now st.utc_offset = st.lastQuantizedTimeGenerated ∧
        st.key_list_is_dirty = false) := by
      rintro ⟨h1, h2⟩
      rcases hrun with h | h
      · rw [h2] at h; cases h
      · exact h h1
    obtain ⟨st2, e2, _, hcodes⟩ := refresh_all_nodes_codes env
      (quantized_time env now st.utc_offset) addrs
      { st with key_list_is_dirty := false,
                lastQuantizedTimeGenerated := quantized_time env now st.utc_offset }
      hnd (fun a ha => by
        obtain ⟨t, e, h12, h1, h10⟩ := hrec a ha
        exact ⟨t, e, h12, by omega, h10⟩)
    rw [← hl] at e2
    simp only [refresh_all, if_neg hne, e2]
    refine ⟨_, rfl, ?_⟩
    intro a ha t e
    obtain ⟨code, ec, hs⟩ := hcodes a ha t e
    refine ⟨code, ?_, hs⟩
    split <;> simpa [emit] using ec

theorem C11_code_formatting_witness :
    state_AB_dirty.token_list = [0, 1].map some ∧
    (∃ st1, refresh_all Env.zero 10 state_AB_dirty = .ok st1 ∧
      (∃ code, st1.heap 0 = some { token_A with code := code } ∧
        cstring code = [48, 48, 48, 48, 48, 48]) ∧
      (∃ code, st1.heap 1 = some { token_B with code := code } ∧
        cstring code = [48, 48, 48, 48, 32, 48, 48, 48, 48])) := by
  have hl : state_AB_dirty.token_list = [0, 1].map some := by decide
  have hrec : ∀ a ∈ [0, 1], ∃ t, state_AB_dirty.heap a = some t ∧ t.code.length = 12 ∧
      1 ≤ t.digits ∧ t.digits ≤ 10 := by
    intro a ha
    simp only [List.mem_cons, List.mem_singleton, List.not_mem_nil, or_false] at ha
    rcases ha with rfl | rfl
    · exact ⟨token_A, rfl, by decide, by decide, by decide⟩
    · exact ⟨token_B, rfl, by decide, by decide, by decide⟩
  obtain ⟨st1, e1, h⟩ :=
    (C11_code_formatting Env.zero 10 state_AB_dirty [0, 1] hl (by decide) hrec (Or.inl rfl)).2
  refine ⟨hl, st1, e1, ?_, ?_⟩
  · obtain ⟨code, ec, hs⟩ := h 0 (by decide) token_A rfl
    exact ⟨code, ec, hs.trans (by decide)⟩
  · obtain ⟨code, ec, hs⟩ := h 1 (by decide) token_B rfl
    exact ⟨code, ec, hs.trans (by decide)⟩

/-! ## C12: the startup load -/

theorem deref_all_snoc_fresh (h : Heap) (l : List (Option Nat)) (ts : List TokenInfo)
    (a : Nat) (t : TokenInfo) (hl : deref_all h l = .ok ts) (ha : some a ∉ l) :
    deref_all (heap_store h a t) (l ++ [some a]) = .ok (ts ++ [t]) := by
  apply deref_all_append_one
  · simp [deref, heap_store]
  · rw [deref_all_heap_store h a t l ha]
    exact hl

theorem loaded_record_congr (env : Env) {st st0 : State} (h : st.persist = st0.persist)
    (i : Int) (a : Nat) : loaded_record env st i a = loaded_record env st0 i a := by
  simp only [loaded_record, persist_read_token, persist_read_bytes, h]

theorem load_tokens_spec (env : Env) (st0 : State) :
    ∀ (n : Nat) (i : Int) (st : State) (ts : List TokenInfo),
      st.persist = st0.persist →
      records st = .ok ts → (∀ k ∈ st.token_list, ∃ b, k = some b ∧ b < st.next_addr) →
      records (load_tokens env n i st) =
          .ok (ts ++ (List.range n).map
            (fun (j : Nat) => loaded_record env st0 (i + (j : Int)) (st.next_addr + j))) ∧
        (load_tokens env n i st).utc_offset = st.utc_offset ∧
        (load_tokens env n i st).persist = st.persist
  | 0, i, st, ts, _, h, _ => by simp [load_tokens, h]
  | n + 1, i, st, ts, hp, h, hb => by
    have hfresh : some st.next_addr ∉ st.token_list := by
      intro hm
      obtain ⟨b, e, hlt⟩ := hb _ hm
      cases e
      omega
    obtain ⟨ih1, ih2, ih3⟩ := load_tokens_spec env st0 n (i + 1)
      (token_list_add (some st.next_addr)
        { st with heap := heap_store st.heap st.next_addr (loaded_record env st i st.next_addr),
                  next_addr := st.next_addr + 1 })
      (ts ++ [loaded_record env st i st.next_addr])
      hp
      (deref_all_snoc_fresh st.heap st.token_list ts _ _ h hfresh)
      (by
        intro k hk
        simp only [token_list_add, List.mem_append, List.mem_singleton] at hk
        rcases hk with hk | rfl
        · obtain ⟨b, e, hlt⟩ := hb k hk
          exact ⟨b, e, by simp only [token_list_add]; omega⟩
        · exact ⟨_, rfl, by simp only [token_list_add]; omega⟩)
    refine ⟨?_, ih2, ih3⟩
    show records (load_tokens env n (i + 1) _) = _
    refine ih1.trans ?_
    rw [List.range_succ_eq_map, List.map_cons, List.map_map, List.append_assoc,
      loaded_record_congr env hp]
    simp only [List.singleton_append, Nat.cast_zero, add_zero, token_list_add]
    congr 3
    apply List.map_congr_left
    intro j _
    simp only [Function.comp, Nat.cast_succ]
    rw [show i + 1 + (j : Int) = i + ((j : Int) + 1) by ring,
      show st.next_addr + 1 + j = st.next_addr + (j + 1) by ring]

/-- C12, as the claim states it, fails.  With a count of 1 and the metadata of
record A persisted but no secret slot for its id, the load adds the record all
the same, and its five secret bytes are what the fresh allocation held; with
only a count of 2 persisted, two records are added. -/
theorem C12_load_fabricates_secrets :
    persist_missing_secret 20001 = none ∧
    records (handle_init_load Env.stale (State.startup persist_missing_secret 0))
      = .ok [{ token_A with secret := [170, 171, 172, 173, 174] }] ∧
    persist_count_only 10000 = none ∧ persist_count_only 10001 = none ∧
    (records (handle_init_load Env.stale (State.startup persist_count_only 0))).toOption.map
      List.length = some 2 := by
  decide

/-- C12, amended.  The load adds one record for every position below the
persisted count, whatever slots exist.  The record of a position is the
metadata slot read over a fresh allocation, with the secret slot keyed by the
id so read copied over a fresh buffer: when both slots are present (and the
secret slot holds at least `secret_length` bytes) the record is the persisted
metadata with exactly the first `secret_length` bytes of the secret slot; when
the secret slot is absent the secret is the content of the fresh buffer; when
the metadata slot is absent the record is the content of the fresh allocation.
With the count slot absent the loaded store is empty, and with the offset slot
absent the offset is 0. -/
theorem C12_load_adds_every_position (env : Env) (persist : Persist) (sel : Int) :
    (persist 1 = none → (handle_init_load env (State.startup persist sel)).utc_offset = 0) ∧
    (persist 2 = none →
      (handle_init_load env (State.startup persist sel)).token_list = [] ∧
      records (handle_init_load env (State.startup persist sel)) = .ok []) ∧
    (∀ ct, persist 2 = some (.int ct) →
      records (handle_init_load env (State.startup persist sel)) =
        .ok ((List.range ct.toNat).map
          (fun (j : Nat) => loaded_record env (State.startup persist sel) (j : Int) j))) ∧
    (∀ (i : Int) (a : Nat) (t : TokenInfo) (b : List Nat),
      persist (persist_key (P_TOKENS_START + i)) = some (.token t) →
      persist (persist_key (P_SECRETS_START + t.id)) = some (.data b) →
      t.secret_length ≤ b.length →
      loaded_record env (State.startup persist sel) i a
        = { t with secret := b.take t.secret_length }) ∧
    (∀ (i : Int) (a : Nat) (t : TokenInfo),
      persist (persist_key (P_TOKENS_START + i)) = some (.token t) →
      persist (persist_key (P_SECRETS_START + t.id)) = none →
      loaded_record env (State.startup persist sel) i a
        = { t with secret := (List.range t.secret_length).map (env.uninit_byte a) }) ∧
    (∀ (i : Int) (a : Nat),
      persist (persist_key (P_TOKENS_START + i)) = none →
      (loaded_record env (State.startup persist sel) i a).id = (fresh_token env a).id ∧
      (loaded_record env (State.startup persist sel) i a).name = (fresh_token env a).name ∧
      (loaded_record env (State.startup persist sel) i a).secret_length
        = (fresh_token env a).secret_length) := by
  have hk1 : persist_key P_UTCOFFSET = 1 := by decide
  have hk2 : persist_key P_TOKENS_COUNT = 2 := by decide
  refine ⟨?_, ?_, ?_, ?_, ?_, ?_⟩
  · intro h
    simp only [handle_init_load, persist_exists, State.startup, hk1, hk2, h, Option.isSome_none,
      Bool.false_eq_true, if_false]
    split
    · exact (load_tokens_spec env (State.startup persist sel) _ 0 _ [] rfl rfl
        (fun k hk => by cases hk)).2.1
    · rfl
  · intro h
    constructor <;>
      simp [handle_init_load, persist_exists, State.startup, hk2, h, records, deref_all]
  · intro ct h
    have hload : handle_init_load env (State.startup persist sel) =
        load_tokens env ct.toNat 0
          { State.startup persist sel with
            utc_offset := if persist_exists (State.startup persist sel) P_UTCOFFSET then
                persist_read_int env (State.startup persist sel) P_UTCOFFSET else 0 } := by
      simp only [handle_init_load, persist_exists, persist_read_int, State.startup, hk2, h,
        Option.isSome_some, if_true]
    rw [hload]
    have key := (load_tokens_spec env (State.startup persist sel) ct.toNat 0
      { State.startup persist sel with
        utc_offset := if persist_exists (State.startup persist sel) P_UTCOFFSET then
            persist_read_int env (State.startup persist sel) P_UTCOFFSET else 0 }
      [] rfl rfl (fun k hk => by cases hk)).1
    refine key.trans ?_
    simp [State.startup]
  · intro i a t b h1 h2 hb
    simp only [loaded_record, persist_read_token, persist_read_bytes, State.startup, h1, h2]
    congr 1
    simp [List.length_take, Nat.min_eq_left hb]
  · intro i a t h1 h2
    simp only [loaded_record, persist_read_token, persist_read_bytes, State.startup, h1, h2]
  · intro i a h1
    simp [loaded_record, persist_read_token, State.startup, h1]

theorem C12_load_adds_every_position_witness :
    persist_A 2 = some (.int 1) ∧
    records (handle_init_load Env.stale (State.startup persist_A 0)) = .ok [token_A] :=
  ⟨rfl, ((C12_load_adds_every_position Env.stale persist_A 0).2.2.1 1 rfl).trans (by decide)⟩

/-! ## C14: Clear-all -/

theorem or_tokens_and_tokens (x : Nat) : (x ||| 2) &&& 2 = 2 := by
  apply Nat.eq_of_testBit_eq
  intro i
  simp only [Nat.testBit_and, Nat.testBit_or]
  cases x.testBit i <;> cases Nat.testBit 2 i <;> rfl

theorem or_tokens_and_secrets (x : Nat) : (x ||| 2) &&& 4 = x &&& 4 := by
  apply Nat.eq_of_testBit_eq
  intro i
  simp only [Nat.testBit_and, Nat.testBit_or]
  have h2 : Nat.testBit 2 i = decide (1 = i) := @Nat.testBit_two_pow 1 i
  have h4 : Nat.testBit 4 i = decide (2 = i) := @Nat.testBit_two_pow 2 i
  rw [h2, h4]
  by_cases h : 2 = i
  · subst h; simp
  · simp [h]

theorem or_tokens_and_offset (x : Nat) : (x ||| 2) &&& 1 = x &&& 1 := by
  apply Nat.eq_of_testBit_eq
  intro i
  simp only [Nat.testBit_and, Nat.testBit_or]
  have h2 : Nat.testBit 2 i = decide (1 = i) := @Nat.testBit_two_pow 1 i
  have h1 : Nat.testBit 1 i = decide (0 = i) := @Nat.testBit_two_pow 0 i
  rw [h2, h1]
  by_cases h : 0 = i
  · subst h; simp
  · simp [h]

theorem token_list_clear_nodes_spec :
    ∀ (addrs : List Nat) (h : Heap), addrs.Nodup → (∀ a ∈ addrs, ∃ t, h a = some t) →
      ∃ h1, token_list_clear_nodes (addrs.map some) h = .ok h1 ∧
        (∀ a ∈ addrs, h1 a = none) ∧ (∀ b, b ∉ addrs → h1 b = h b)
  | [], h, _, _ => ⟨h, rfl, fun a ha => (by cases ha), fun _ _ => rfl⟩
  | a :: l, h, hnd, hlive => by
    obtain ⟨t, e⟩ := hlive a (List.mem_cons_self _ _)
    have hal : a ∉ l := (List.nodup_cons.mp hnd).1
    have hne : ∀ b ∈ l, b ≠ a := fun b hb hba => hal (hba ▸ hb)
    obtain ⟨h1, e1, hfreed, hframe⟩ := token_list_clear_nodes_spec l (heap_free h (some a))
      (List.nodup_cons.mp hnd).2
      (fun b hb => by
        obtain ⟨tb, eb⟩ := hlive b (List.mem_cons_of_mem _ hb)
        exact ⟨tb, by simp only [heap_free, if_neg (hne b hb), eb]⟩)
    refine ⟨h1, ?_, ?_, ?_⟩
    · simp only [List.map_cons, token_list_clear_nodes, deref, e]
      exact e1
    · intro b hb
      rcases List.mem_cons.mp hb with rfl | hbl
      · rw [hframe b hal]
        simp only [heap_free, if_true]
      · exact hfreed b hbl
    · intro b hb
      rw [hframe b (fun hbl => hb (List.mem_cons_of_mem _ hbl))]
      have : b ≠ a := fun hba => hb (hba ▸ List.mem_cons_self _ _)
      simp only [heap_free, if_neg this]

/-- C14, as the claim states it, fails: on the store of records A and B with no
flag pending, Clear-all empties the store and sets the token-metadata flag, but
the secret flag stays clear. -/
theorem C14_clear_does_not_set_secret_flag :
    (am_clear_tokens { AMClearTokens := true } state_AB).toOption.map
      (fun s => (s.token_list, s.persist_writeback,
        has_flag s.persist_writeback PWTokens, has_flag s.persist_writeback PWSecrets))
      = some ([], PWTokens, true, false) := by
  decide

/-- C14, amended.  On a store of distinct live records, Clear-all frees every
record, leaves the store empty (length 0) and dirty, and sets the
token-metadata writeback flag, and only that one: the secret flag and the
offset flag are as they were before the message.  Nothing is deleted from or
written to the persistent store by the block itself. -/
theorem C14_clear_sets_token_flag_only (st : State) (addrs : List Nat) (m : Message)
    (hl : st.token_list = addrs.map some) (hnd : addrs.Nodup)
    (hlive : ∀ a ∈ addrs, ∃ t, st.heap a = some t) (hm : m.AMClearTokens = true) :
    ∃ st1, am_clear_tokens m st = .ok st1 ∧
      st1.token_list = [] ∧ token_list_length st1 = 0 ∧ records st1 = .ok [] ∧
      (∀ a ∈ addrs, st1.heap a = none) ∧
      st1.key_list_is_dirty = true ∧ st1.delta = true ∧
      st1.persist_writeback = st.persist_writeback ||| PWTokens ∧
      has_flag st1.persist_writeback PWTokens = true ∧
      has_flag st1.persist_writeback PWSecrets = has_flag st.persist_writeback PWSecrets ∧
      has_flag st1.persist_writeback PWUTCOffset = has_flag st.persist_writeback PWUTCOffset ∧
      st1.persist = st.persist ∧ st1.trace = st.trace := by
  obtain ⟨h1, e1, hfreed, _⟩ := token_list_clear_nodes_spec addrs st.heap hnd hlive
  rw [← hl] at e1
  refine ⟨{ st with heap := h1, token_list := [], key_list_is_dirty := true,
                    persist_writeback := st.persist_writeback ||| PWTokens, delta := true },
    by simp only [am_clear_tokens, hm, if_true, token_list_clear, e1], rfl,
    (by simp only [token_list_length, List.length_nil]; decide), rfl,
    hfreed, rfl, rfl, rfl, ?_, ?_, ?_, rfl, rfl⟩
  · simp only [has_flag, PWTokens, or_tokens_and_tokens, beq_self_eq_true]
  · simp only [has_flag, PWTokens, PWSecrets, or_tokens_and_secrets]
  · simp only [has_flag, PWTokens, PWUTCOffset, or_tokens_and_offset]

theorem C14_clear_sets_token_flag_only_witness :
    state_AB.token_list = [0, 1].map some ∧
    ∃ st1, am_clear_tokens { AMClearTokens := true } state_AB = .ok st1 ∧
      st1.token_list = [] ∧ token_list_length st1 = 0 ∧ records st1 = .ok [] ∧
      (∀ a ∈ [0, 1], st1.heap a = none) ∧
      st1.key_list_is_dirty = true ∧ st1.delta = true ∧
      st1.persist_writeback = state_AB.persist_writeback ||| PWTokens ∧
      has_flag st1.persist_writeback PWTokens = true ∧
      has_flag st1.persist_writeback PWSecrets = has_flag state_AB.persist_writeback PWSecrets ∧
      has_flag st1.persist_writeback PWUTCOffset
        = has_flag state_AB.persist_writeback PWUTCOffset ∧
      st1.persist = state_AB.persist ∧ st1.trace = state_AB.trace :=
  ⟨by decide,
    C14_clear_sets_token_flag_only state_AB [0, 1] { AMClearTokens := true } (by decide)
      (by decide)
      (fun a ha => by
        simp only [List.mem_cons, List.mem_singleton, List.not_mem_nil, or_false] at ha
        rcases ha with rfl | rfl
        · exact ⟨token_A, rfl⟩
        · exact ⟨token_B, rfl⟩)
      rfl⟩

/-! ## C15: lookup by position -/

theorem token_by_list_index_nodes_past_end :
    ∀ (l : List (Option Nat)) (n : Nat), l.length ≤ n →
      token_by_list_index_nodes l n = .error .null_deref
  | [], _, _ => by simp only [token_by_list_index_nodes]
  | _ :: l, 0, h => by simp at h
  | _ :: l, n + 1, h => by
    simp only [token_by_list_index_nodes]
    exact token_by_list_index_nodes_past_end l n (by simpa using h)

theorem token_by_list_index_nodes_get :
    ∀ (l : List (Option Nat)) (n : Nat) (k : Option Nat), l.get? n = some k →
      token_by_list_index_nodes l n = .ok k
  | [], _, _, h => by simp at h
  | k1 :: l, 0, k, h => by
    simp only [List.get?_cons_zero, Option.some.injEq] at h
    subst h
    simp only [token_by_list_index_nodes]
  | _ :: l, n + 1, k, h => by
    simp only [token_by_list_index_nodes]
    exact token_by_list_index_nodes_get l n k (by simpa using h)

theorem deref_all_get {h : Heap} :
    ∀ (l : List (Option Nat)) (ts : List TokenInfo) (n : Nat) (t : TokenInfo),
      deref_all h l = .ok ts → ts.get? n = some t →
      ∃ k, l.get? n = some k ∧ deref h k = .ok t
  | [], ts, n, t, e, hn => by
    simp only [deref_all, Except.ok.injEq] at e
    subst e
    simp at hn
  | k :: l, ts, n, t, e, hn => by
    simp only [deref_all] at e
    cases hk : deref h k with
    | error f => simp [hk] at e
    | ok t0 =>
      cases hl : deref_all h l with
      | error f => simp [hk, hl] at e
      | ok ts0 =>
        simp only [hk, hl, Except.ok.injEq] at e
        subst e
        cases n with
        | zero =>
          simp only [List.get?_cons_zero, Option.some.injEq] at hn
          subst hn
          exact ⟨k, rfl, hk⟩
        | succ n =>
          obtain ⟨k1, e1, d1⟩ := deref_all_get l ts0 n t hl (by simpa using hn)
          exact ⟨k1, by simpa using e1, d1⟩

/-- C15, as the claim states it, fails: on the store of records A and B the
lookup of position 2 (the length) and of position 5 does not return "no
record"; it walks off the list and dereferences a `NULL` node.  So does the
lookup of position 0 in an empty store. -/
theorem C15_lookup_past_end_faults :
    token_list_length state_AB = 2 ∧
    token_by_list_index state_AB 2 = .error .null_deref ∧
    token_by_list_index state_AB 5 = .error .null_deref ∧
    token_by_list_index (State.of_records []) 0 = .error .null_deref := by
  decide

/-- C15, amended.  `token_by_list_index` returns the key of the node at
position `i`, hence the record at position `i`, when `0 <= i < length`; when
`i >= length` it dereferences a `NULL` node (a fault, not a "not found"
result); a negative index is treated as position 0. -/
theorem C15_lookup_by_position (st : State) (i : Int) :
    (∀ k, 0 ≤ i → st.token_list.get? i.toNat = some k → token_by_list_index st i = .ok k) ∧
    (∀ ts t, records st = .ok ts → 0 ≤ i → ts.get? i.toNat = some t →
      ∃ k, token_by_list_index st i = .ok k ∧ deref st.heap k = .ok t) ∧
    ((st.token_list.length : Int) ≤ i → token_by_list_index st i = .error .null_deref) ∧
    (i < 0 → token_by_list_index st i = token_by_list_index st 0) := by
  refine ⟨?_, ?_, ?_, ?_⟩
  · intro k _ h
    exact token_by_list_index_nodes_get _ _ k h
  · intro ts t hrec _ h
    obtain ⟨k, e, d⟩ := deref_all_get st.token_list ts i.toNat t hrec h
    exact ⟨k, token_by_list_index_nodes_get _ _ k e, d⟩
  · intro h
    exact token_by_list_index_nodes_past_end _ _ (by omega)
  · intro h
    simp only [token_by_list_index]
    rw [Int.toNat_of_nonpos (by omega)]
    rfl

theorem C15_lookup_by_position_witness :
    records state_AB = .ok [token_A, token_B] ∧
    (∃ k, token_by_list_index state_AB 1 = .ok k ∧ deref state_AB.heap k = .ok token_B) ∧
    token_by_list_index state_AB 7 = .error .null_deref ∧
    token_by_list_index state_AB (-3) = token_by_list_index state_AB 0 :=
  ⟨by decide,
    (C15_lookup_by_position state_AB 1).2.1 [token_A, token_B] token_B (by decide) (by decide)
      (by decide),
    by decide, by decide⟩

/-! ## C16: order preservation -/

theorem deref_all_append (h : Heap) :
    ∀ (l1 l2 : List (Option Nat)) (t1 t2 : List TokenInfo),
      deref_all h l1 = .ok t1 → deref_all h l2 = .ok t2 →
      deref_all h (l1 ++ l2) = .ok (t1 ++ t2)
  | [], l2, t1, t2, e1, e2 => by
    simp only [deref_all, Except.ok.injEq] at e1
    subst e1
    simpa using e2
  | k :: l1, l2, t1, t2, e1, e2 => by
    simp only [deref_all] at e1
    cases hk : deref h k with
    | error f => simp [hk] at e1
    | ok t0 =>
      cases hl : deref_all h l1 with
      | error f => simp [hk, hl] at e1
      | ok ts0 =>
        simp only [hk, hl, Except.ok.injEq] at e1
        subst e1
        simp only [List.cons_append, deref_all, hk, List.append_eq,
          deref_all_append h l1 l2 ts0 t2 hl e2]

/-- Over a list of live records, `token_by_id` returns the key of the first
node whose record has the id, and that key is the key of no earlier node. -/
theorem token_by_id_nodes_first (h : Heap) (id : Int) :
    ∀ (l : List (Option Nat)) (ts : List TokenInfo), deref_all h l = .ok ts →
      (∃ t ∈ ts, t.id = id) →
      ∃ lpre key lpost tpre t tpost,
        l = lpre ++ key :: lpost ∧ ts = tpre ++ t :: tpost ∧
        deref_all h lpre = .ok tpre ∧ deref h key = .ok t ∧ deref_all h lpost = .ok tpost ∧
        t.id = id ∧ (∀ u ∈ tpre, u.id ≠ id) ∧ key ∉ lpre ∧
        token_by_id_nodes h id l = .ok key
  | [], ts, e, hex => by
    simp only [deref_all, Except.ok.injEq] at e
    subst e
    obtain ⟨t, ht, _⟩ := hex
    cases ht
  | k :: l, ts, e, hex => by
    simp only [deref_all] at e
    cases hk : deref h k with
    | error f => simp [hk] at e
    | ok t0 =>
      cases hl : deref_all h l with
      | error f => simp [hk, hl] at e
      | ok ts0 =>
        simp only [hk, hl, Except.ok.injEq] at e
        subst e
        by_cases hid : t0.id = id
        · exact ⟨[], k, l, [], t0, ts0, rfl, rfl, rfl, hk, hl, hid, fun u hu => (by cases hu),
            fun hm => (by cases hm), by simp only [token_by_id_nodes, hk, hid, if_true]⟩
        · have hex0 : ∃ t ∈ ts0, t.id = id := by
            obtain ⟨t, ht, e⟩ := hex
            rcases List.mem_cons.mp ht with rfl | ht
            · exact absurd e hid
            · exact ⟨t, ht, e⟩
          obtain ⟨lpre, key, lpost, tpre, t, tpost, e1, e2, d1, d2, d3, hi, hpre, hk1, hf⟩ :=
            token_by_id_nodes_first h id l ts0 hl hex0
          refine ⟨k :: lpre, key, lpost, t0 :: tpre, t, tpost, by rw [e1]; rfl, by rw [e2]; rfl,
            by simp only [deref_all, hk, d1], d2, d3, hi, ?_, ?_, ?_⟩
          · intro u hu
            rcases List.mem_cons.mp hu with rfl | hu
            · exact hid
            · exact hpre u hu
          · intro hm
            rcases List.mem_cons.mp hm with rfl | hm
            · rw [hk] at d2
              cases d2
              exact hid hi
            · exact hk1 hm
          · simp only [token_by_id_nodes, hk, if_neg hid]
            exact hf

/-- The store operations behind C16.  Appending (`token_list_add`, and the
create-token block that calls it
on its new record) puts the new record at the last position and leaves the
records of all earlier positions as they were, so the length grows by one.
Deleting a present id (`token_by_id`, then `token_list_delete` on the key
found) removes only the record found, the first with that id, and the
remaining records keep their relative order, so the length shrinks by one.
Both set `key_list_is_dirty`. -/
theorem C16_order_preservation (env : Env) (st : State) (ts : List TokenInfo)
    (hrec : records st = .ok ts) :
    (∀ key t, deref st.heap key = .ok t →
      records (token_list_add key st) = .ok (ts ++ [t]) ∧
      (token_list_add key st).token_list.length = st.token_list.length + 1 ∧
      (token_list_add key st).key_list_is_dirty = true) ∧
    (∀ (m : Message) (len : Nat) (bytes : List Nat) (id : Int) (name : List Nat) (digits : Int),
      m.AMCreateToken = some (len :: bytes) → len % 256 ≤ bytes.length →
      m.AMCreateToken_ID = some id → m.AMCreateToken_Name = some name →
      m.AMCreateToken_Digits = some digits →
      (∀ k ∈ st.token_list, ∃ b, k = some b ∧ b < st.next_addr) →
      ∃ st1 t, am_create_token env m st = .ok st1 ∧
        records st1 = .ok (ts ++ [t]) ∧
        t.id = toShort (toInt32 id) ∧ t.name = strncpy_name name ∧
        t.secret = bytes.take (len % 256) ∧ t.digits = toShort (toInt32 digits) ∧
        st1.token_list.length = st.token_list.length + 1 ∧
        st1.key_list_is_dirty = true) ∧
    (∀ id, (∃ t ∈ ts, t.id = id) →
      ∃ key tpre t tpost,
        token_by_id st id = .ok key ∧ deref st.heap key = .ok t ∧
        ts = tpre ++ t :: tpost ∧ t.id = id ∧ (∀ u ∈ tpre, u.id ≠ id) ∧
        (token_list_delete key st).2 = true ∧
        records (token_list_delete key st).1 = .ok (tpre ++ tpost) ∧
        (token_list_delete key st).1.token_list.length + 1 = st.token_list.length ∧
        (token_list_delete key st).1.key_list_is_dirty = true) := by
  refine ⟨?_, ?_, ?_⟩
  · intro key t hk
    refine ⟨?_, by simp [token_list_add], rfl⟩
    exact deref_all_append_one st.heap key t hk st.token_list ts hrec
  · intro m len bytes id name digits hs hlen h1 h2 h3 hfresh
    have hnew : some st.next_addr ∉ st.token_list := by
      intro hm
      obtain ⟨b, e, hlt⟩ := hfresh _ hm
      cases e
      omega
    refine ⟨_, _, am_create_token_eq env st m len bytes id name digits hs hlen h1 h2 h3,
      deref_all_snoc_fresh st.heap st.token_list ts st.next_addr _ hrec hnew,
      rfl, rfl, rfl, rfl, by simp, rfl⟩
  · intro id hex
    obtain ⟨lpre, key, lpost, tpre, t, tpost, e1, e2, d1, d2, d3, hi, hpre, hk1, hf⟩ :=
      token_by_id_nodes_first st.heap id st.token_list ts hrec hex
    have hmem : key ∈ st.token_list := by rw [e1]; simp
    have her : st.token_list.erase key = lpre ++ lpost := by
      rw [e1]
      exact erase_middle lpre lpost key hk1
    refine ⟨key, tpre, t, tpost, hf, d2, e2, hi, hpre, ?_, ?_, ?_, ?_⟩
    · simp only [token_list_delete, if_pos hmem]
    · simp only [token_list_delete, if_pos hmem, records, her]
      exact deref_all_append st.heap lpre lpost tpre tpost d1 d3
    · simp only [token_list_delete, if_pos hmem, her]
      rw [e1]
      simp
      omega
    · simp only [token_list_delete, if_pos hmem]

theorem C16_order_preservation_witness :
    records state_AB = .ok [token_A, token_B] ∧
    (∃ key tpre t tpost,
        token_by_id state_AB 1 = .ok key ∧ deref state_AB.heap key = .ok t ∧
        [token_A, token_B] = tpre ++ t :: tpost ∧ t.id = 1 ∧ (∀ u ∈ tpre, u.id ≠ 1) ∧
        (token_list_delete key state_AB).2 = true ∧
        records (token_list_delete key state_AB).1 = .ok (tpre ++ tpost) ∧
        (token_list_delete key state_AB).1.token_list.length + 1 = state_AB.token_list.length ∧
        (token_list_delete key state_AB).1.key_list_is_dirty = true) :=
  ⟨by decide,
    (C16_order_preservation Env.zero state_AB [token_A, token_B] (by decide)).2.2 1
      ⟨token_A, by decide, by decide⟩⟩

/-! ## C17: Update-token -/

theorem strncpy_name_length (src : List Nat) : (strncpy_name src).length ≤ 32 := by
  simp only [strncpy_name, MAX_NAME_LENGTH, List.length_take]
  omega

/-- C17.  For a store of live records and an update-token message whose id is
present: the block returns, the record found for the id (the first with it)
gets the name of the message truncated to at most 32 bytes, and nothing else
changes: the record keeps its id, digit count, secret length, secret bytes and
code, every other heap cell and the list (so every position and the length) are
as before, and so is every other component of the state except that the
token-metadata writeback flag is set (and `delta`).  When no record is linked
twice, the records of the store are the same sequence with only that name
replaced. -/
theorem C17_update_token_frame (st : State) (ts : List TokenInfo) (m : Message)
    (pub : PublicTokenInfo) (hrec : records st = .ok ts) (hm : m.AMUpdateToken = some pub)
    (hpresent : ∃ t ∈ ts, t.id = toShort pub.id) :
    ∃ a t tpre tpost,
      token_by_id st (toShort pub.id) = .ok (some a) ∧ st.heap a = some t ∧
      t.id = toShort pub.id ∧ ts = tpre ++ t :: tpost ∧ (∀ u ∈ tpre, u.id ≠ toShort pub.id) ∧
      am_update_token m st = .ok
        { st with
          heap := heap_store st.heap a { t with name := strncpy_name pub.name },
          persist_writeback := st.persist_writeback ||| PWTokens,
          delta := true } ∧
      (strncpy_name pub.name).length ≤ 32 ∧
      (∀ b, b ≠ a → heap_store st.heap a { t with name := strncpy_name pub.name } b = st.heap b) ∧
      has_flag (st.persist_writeback ||| PWTokens) PWTokens = true ∧
      has_flag (st.persist_writeback ||| PWTokens) PWSecrets
        = has_flag st.persist_writeback PWSecrets ∧
      has_flag (st.persist_writeback ||| PWTokens) PWUTCOffset
        = has_flag st.persist_writeback PWUTCOffset ∧
      (st.token_list.Nodup →
        deref_all (heap_store st.heap a { t with name := strncpy_name pub.name }) st.token_list
          = .ok (tpre ++ { t with name := strncpy_name pub.name } :: tpost)) := by
  obtain ⟨lpre, key, lpost, tpre, t, tpost, e1, e2, d1, d2, d3, hi, hpre, hk1, hf⟩ :=
    token_by_id_nodes_first st.heap (toShort pub.id) st.token_list ts hrec hpresent
  obtain ⟨a, rfl, ha⟩ : ∃ a, key = some a ∧ st.heap a = some t := by
    cases key with
    | none => simp [deref] at d2
    | some a =>
      refine ⟨a, rfl, ?_⟩
      simp only [deref] at d2
      cases hh : st.heap a with
      | none => simp [hh] at d2
      | some t1 =>
        simp only [hh, Except.ok.injEq] at d2
        rw [d2]
  refine ⟨a, t, tpre, tpost, hf, ha, hi, e2, hpre, ?_, strncpy_name_length _, ?_, ?_, ?_, ?_, ?_⟩
  · have hfind : token_by_id st (toShort pub.id) = .ok (some a) := hf
    have hrecord : publicinfo2tokeninfo { pub with id := toShort pub.id } t
        = { t with name := strncpy_name pub.name } := by
      simp only [publicinfo2tokeninfo, ← hi]
    simp only [am_update_token, hm, hfind, ha, hrecord]
  · intro b hb
    simp only [heap_store, if_neg hb]
  · simp only [has_flag, PWTokens, or_tokens_and_tokens, beq_self_eq_true]
  · simp only [has_flag, PWTokens, PWSecrets, or_tokens_and_secrets]
  · simp only [has_flag, PWTokens, PWUTCOffset, or_tokens_and_offset]
  · intro hnd
    rw [e1] at hnd ⊢
    have hnd1 := List.nodup_middle.mp hnd
    rw [List.nodup_cons] at hnd1
    have hpost : some a ∉ lpost := fun hm1 => hnd1.1 (List.mem_append_right _ hm1)
    apply deref_all_append
    · rw [deref_all_heap_store _ _ _ _ hk1]
      exact d1
    · simp only [deref_all, deref, heap_store, if_true, deref_all_heap_store _ _ _ _ hpost, d3]

theorem C17_update_token_frame_witness :
    records state_AB = .ok [token_A, token_B] ∧
    ∃ a t tpre tpost,
      token_by_id state_AB (toShort 2) = .ok (some a) ∧ state_AB.heap a = some t ∧
      t.id = toShort 2 ∧ [token_A, token_B] = tpre ++ t :: tpost ∧
      (∀ u ∈ tpre, u.id ≠ toShort 2) ∧
      am_update_token message_rename_B state_AB = .ok
        { state_AB with
          heap := heap_store state_AB.heap a { t with name := strncpy_name [90] },
          persist_writeback := state_AB.persist_writeback ||| PWTokens,
          delta := true } ∧
      (strncpy_name [90]).length ≤ 32 ∧
      (∀ b, b ≠ a →
        heap_store state_AB.heap a { t with name := strncpy_name [90] } b = state_AB.heap b) ∧
      has_flag (state_AB.persist_writeback ||| PWTokens) PWTokens = true ∧
      has_flag (state_AB.persist_writeback ||| PWTokens) PWSecrets
        = has_flag state_AB.persist_writeback PWSecrets ∧
      has_flag (state_AB.persist_writeback ||| PWTokens) PWUTCOffset
        = has_flag state_AB.persist_writeback PWUTCOffset ∧
      (state_AB.token_list.Nodup →
        deref_all (heap_store state_AB.heap a { t with name := strncpy_name [90] })
          state_AB.token_list
          = .ok (tpre ++ { t with name := strncpy_name [90] } :: tpost)) :=
  ⟨by decide,
    C17_update_token_frame state_AB [token_A, token_B] message_rename_B { id := 2, name := [90] }
      (by decide) rfl ⟨token_B, by decide, by decide⟩⟩

/-! ## C18: the time window -/

theorem refresh_all_nodes_trace (env : Env) (q : Int) :
    ∀ (l : List (Option Nat)) (st st1 : State), refresh_all_nodes env q l st = .ok st1 →
      ∃ gen, st1.trace = st.trace ++ gen ∧ gen.length = l.length ∧
        ∀ e ∈ gen, ∃ s n, e = Event.generateCode s n q
  | [], st, st1, e => by
    simp only [refresh_all_nodes, Except.ok.injEq] at e
    subst e
    exact ⟨[], by simp, rfl, fun e he => by cases he⟩
  | k :: l, st, st1, e => by
    cases k with
    | none => simp [refresh_all_nodes] at e
    | some a =>
      cases hh : st.heap a with
      | none => simp [refresh_all_nodes, hh] at e
      | some t =>
        simp only [refresh_all_nodes, hh] at e
        split at e
        · cases e
        · obtain ⟨gen, h1, h2, h3⟩ := refresh_all_nodes_trace env q l _ st1 e
          refine ⟨.generateCode t.secret t.secret_length q :: gen, ?_, by simp [h2], ?_⟩
          · rw [h1]
            simp [emit]
          · intro e1 he1
            rcases List.mem_cons.mp he1 with rfl | he1
            · exact ⟨_, _, rfl⟩
            · exact h3 e1 he1

/-- C18, as the claim states it, fails.  At wall time 10 with a stored offset
of 3600 the floor of (10 - 3600)/30 is -120, but the difference is converted
to an unsigned 32-bit value before the division and the counter passed to the
generator is 143165456.  In a `PBL_SDK_3` build the offset is not subtracted:
at wall time 100 with offset 30 the counter is 3, not 2. -/
theorem C18_window_is_unsigned_and_build_dependent :
    ((10 - 3600 : Int) / 30 = -120) ∧
    quantized_time Env.zero 10 3600 = 143165456 ∧
    (refresh_all Env.zero 10 state_A_offset).toOption.map (fun s => s.trace)
      = some [.generateCode [1, 2, 3, 4, 5] 5 143165456, .menu_layer_reload_data,
              .show_no_tokens_message false] ∧
    ((100 - 30 : Int) / 30 = 2) ∧
    quantized_time Env.sdk3 100 30 = 3 := by
  decide

/-- C18, amended.  The window counter `refresh_all` passes to every call of the
code generator is `quantized_time`: the wall-clock time minus the stored
offset, taken as an unsigned 32-bit value, divided by 30; in a `PBL_SDK_3`
build the offset is not subtracted.  It is the floor of `(t - o) / 30` in a
build without `PBL_SDK_3` when `0 <= t - o < 2^32`.  When the refresh is not
skipped the generator is called once per list node, each time with that
counter. -/
theorem C18_window_counter (env : Env) (now : Int) (st : State) :
    quantized_time env now st.utc_offset =
      ((if env.time_is_utc then now else now - st.utc_offset) % 4294967296) / 30 ∧
    (env.time_is_utc = false → 0 ≤ now - st.utc_offset → now - st.utc_offset < 4294967296 →
      quantized_time env now st.utc_offset = (now - st.utc_offset) / 30) ∧
    (env.time_is_utc = true → 0 ≤ now → now < 4294967296 →
      quantized_time env now st.utc_offset = now / 30) ∧
    (∀ st1, refresh_all env now st = .ok st1 →
      (quantized_time env now st.utc_offset = st.lastQuantizedTimeGenerated ∧
        st.key_list_is_dirty = false → st1 = st) ∧
      (¬ (quantized_time env now st.utc_offset = st.lastQuantizedTimeGenerated ∧
        st.key_list_is_dirty = false) →
        ∃ gen rest, st1.trace = st.trace ++ gen ++ rest ∧
          gen.length = st.token_list.length ∧
          (∀ e ∈ gen, ∃ s n,
            e = Event.generateCode s n (quantized_time env now st.utc_offset)) ∧
          (∀ e ∈ rest, ∀ s n q, e ≠ Event.generateCode s n q))) := by
  refine ⟨rfl, ?_, ?_, ?_⟩
  · intro hb h0 h1
    simp only [quantized_time, toUInt32, hb, Bool.false_eq_true, if_false]
    rw [Int.emod_eq_of_lt h0 h1]
  · intro hb h0 h1
    simp only [quantized_time, toUInt32, hb, if_true]
    rw [Int.emod_eq_of_lt h0 h1]
  · intro st1 h
    refine ⟨?_, ?_⟩
    · intro hskip
      simp only [refresh_all, hskip, and_self, if_true, Except.ok.injEq] at h
      exact h.symm
    · intro hrun
      simp only [refresh_all, if_neg hrun] at h
      split at h
      · cases h
      · rename_i st2 e2
        obtain ⟨gen, h1, h2, h3⟩ := refresh_all_nodes_trace env _ _ _ st2 e2
        simp only [Except.ok.injEq] at h
        subst h
        split
        · refine ⟨gen, [.menu_layer_reload_data,
            .show_no_tokens_message (!(!st.token_list.isEmpty))], ?_, h2, h3, ?_⟩
          · simp [emit, h1]
          · intro e he s n q
            simp only [List.mem_cons, List.mem_singleton, List.not_mem_nil, or_false] at he
            rcases he with rfl | rfl <;> simp
        · refine ⟨gen, [.show_no_tokens_message (!(!st.token_list.isEmpty))], ?_, h2, h3, ?_⟩
          · simp [emit, h1]
          · intro e he s n q
            simp only [List.mem_singleton] at he
            subst he
            simp

theorem C18_window_counter_witness :
    Env.zero.time_is_utc = false ∧ (0 : Int) ≤ 3700 - state_A_offset.utc_offset ∧
    (3700 : Int) - state_A_offset.utc_offset < 4294967296 ∧
    quantized_time Env.zero 3700 state_A_offset.utc_offset
      = (3700 - state_A_offset.utc_offset) / 30 :=
  ⟨rfl, by decide, by decide,
    (C18_window_counter Env.zero 3700 state_A_offset).2.1 rfl (by decide) (by decide)⟩

/-! ## C19: the writes of a pass in which every write succeeds -/

theorem attempt_writes_all_ok (oracle : Nat → WriteOutcome) (hok : ∀ i, oracle i = .ok) :
    ∀ (P : List (Int × PValue)) (i : Nat) (p : Persist),
      attempt_writes oracle i P p =
        (apply_writes P p,
         P.map (fun kv => Event.persist_write (persist_key kv.1) kv.2 .ok), none)
  | [], i, p => rfl
  | (key, v) :: rest, i, p => by
    simp only [attempt_writes, hok i, attempt_writes_all_ok oracle hok rest (i + 1), apply_writes,
      List.map_cons]

theorem planned_tokens_enumFrom :
    ∀ (ts : List TokenInfo) (i : Nat), i + ts.length ≤ 32768 →
      planned_tokens ts (i : Int) =
        (ts.enumFrom i).map (fun p => (P_TOKENS_START + (p.1 : Int), PValue.token p.2))
  | [], _, _ => rfl
  | t :: rest, i, h => by
    simp only [planned_tokens, List.enumFrom_cons, List.map_cons]
    congr 1
    cases rest with
    | nil => rfl
    | cons t1 rest1 =>
      have hi : i + 1 ≤ 32767 := by
        simp only [List.length_cons] at h
        omega
      have hs : toShort ((i : Int) + 1) = ((i + 1 : Nat) : Int) := by
        have := toShort_of_le hi
        rw [← this]
        push_cast
        rfl
      rw [hs]
      exact planned_tokens_enumFrom (t1 :: rest1) (i + 1) (by
        simp only [List.length_cons] at h ⊢
        omega)

theorem planned_secrets_map :
    ∀ (ts : List TokenInfo),
      planned_secrets ts =
        ts.map (fun t => (P_SECRETS_START + t.id, PValue.data (t.secret.take t.secret_length)))
  | [] => rfl
  | t :: rest => by simp only [planned_secrets, List.map_cons, planned_secrets_map rest]

/-- C19, as the claim states it, fails: the three flagged regions are not all
a pass writes.  With every flag clear and row 2 selected (row 0 remembered from
startup) the pass still issues one write, of the selected-row scalar; and with
every flag set that write comes between the offset and the token count. -/
theorem C19_pass_writes_selected_row :
    has_flag state_row_moved.persist_writeback PWUTCOffset = false ∧
    has_flag state_row_moved.persist_writeback PWTokens = false ∧
    has_flag state_row_moved.persist_writeback PWSecrets = false ∧
    (persist_do_writeback (fun _ => .ok) state_row_moved).toOption.map (fun s => s.trace)
      = some [.persist_write 3 (.int 2) .ok] ∧
    (persist_do_writeback (fun _ => .ok) state_all_dirty).toOption.map (fun s => s.trace)
      = some [.persist_write 1 (.int 3600) .ok, .persist_write 3 (.int 1) .ok,
              .persist_write 2 (.int 2) .ok,
              .persist_write 10000 (.token token_A) .ok,
              .persist_write 10001 (.token token_B) .ok,
              .persist_write 20001 (.data [1, 2, 3, 4, 5]) .ok,
              .persist_write 20002 (.data [9]) .ok] := by
  decide

/-- C19, amended.  For every state whose list holds at most 32767 live records,
when all writes succeed the writes issued by one pass are, in this order: the
offset scalar if and only if the offset flag is set; then the selected-row
scalar if and only if the selected row differs from
`startup_selected_list_index` (whatever the flags); then the token count
followed by the metadata record of every position `0..length-1` in store order
if and only if the token flag is set; then the secret of every record, keyed by
its id, if and only if the secret flag is set.  Nothing else is written and no
error is pushed. -/
theorem C19_writeback_order (oracle : Nat → WriteOutcome) (st : State) (ts : List TokenInfo)
    (hok : ∀ i, oracle i = .ok) (hrec : records st = .ok ts) (hlen : ts.length ≤ 32767) :
    ∃ st1, persist_do_writeback oracle st = .ok st1 ∧
      st1.trace = st.trace ++
        ((if has_flag st.persist_writeback PWUTCOffset then
            [Event.persist_write (persist_key P_UTCOFFSET) (.int st.utc_offset) .ok] else []) ++
         (if st.startup_selected_list_index ≠ st.selected_row then
            [Event.persist_write (persist_key P_SELECTED_LIST_INDEX) (.int st.selected_row) .ok]
          else []) ++
         (if has_flag st.persist_writeback PWTokens then
            Event.persist_write (persist_key P_TOKENS_COUNT) (.int (ts.length : Int)) .ok ::
              ts.enum.map (fun p =>
                Event.persist_write (persist_key (P_TOKENS_START + (p.1 : Int))) (.token p.2) .ok)
          else []) ++
         (if has_flag st.persist_writeback PWSecrets then
            ts.map (fun t =>
              Event.persist_write (persist_key (P_SECRETS_START + t.id))
                (.data (t.secret.take t.secret_length)) .ok)
          else [])) ∧
      st1.persist = apply_writes (planned_writes st ts) st.persist := by
  have hpt : planned_tokens ts 0 =
      ts.enum.map (fun p => (P_TOKENS_START + (p.1 : Int), PValue.token p.2)) := by
    have := planned_tokens_enumFrom ts 0 (by omega)
    simpa [List.enum] using this
  have hcount : token_list_length st = (ts.length : Int) := by
    rw [token_list_length, deref_all_length hrec]
    exact toShort_of_le hlen
  have hev : (planned_writes st ts).map
      (fun kv => Event.persist_write (persist_key kv.1) kv.2 .ok) =
      ((if has_flag st.persist_writeback PWUTCOffset then
          [Event.persist_write (persist_key P_UTCOFFSET) (.int st.utc_offset) .ok] else []) ++
       (if st.startup_selected_list_index ≠ st.selected_row then
          [Event.persist_write (persist_key P_SELECTED_LIST_INDEX) (.int st.selected_row) .ok]
        else []) ++
       (if has_flag st.persist_writeback PWTokens then
          Event.persist_write (persist_key P_TOKENS_COUNT) (.int (ts.length : Int)) .ok ::
            ts.enum.map (fun p =>
              Event.persist_write (persist_key (P_TOKENS_START + (p.1 : Int))) (.token p.2) .ok)
        else []) ++
       (if has_flag st.persist_writeback PWSecrets then
          ts.map (fun t =>
            Event.persist_write (persist_key (P_SECRETS_START + t.id))
              (.data (t.secret.take t.secret_length)) .ok)
        else [])) := by
    simp only [planned_writes, hpt, hcount, planned_secrets_map]
    by_cases h1 : has_flag st.persist_writeback PWUTCOffset = true <;>
    by_cases h2 : st.startup_selected_list_index ≠ st.selected_row <;>
    by_cases h3 : has_flag st.persist_writeback PWTokens = true <;>
    by_cases h4 : has_flag st.persist_writeback PWSecrets = true <;>
    simp [h1, h2, h3, h4] <;> rfl
  refine ⟨_, persist_do_writeback_eq oracle st ts hrec, ?_, ?_⟩
  · simp only [attempt_writes_all_ok oracle hok, push_events, List.append_nil, hev]
  · simp only [attempt_writes_all_ok oracle hok]

theorem C19_writeback_order_witness :
    records state_all_dirty = .ok [token_A, token_B] ∧
    ∃ st1, persist_do_writeback (fun _ => .ok) state_all_dirty = .ok st1 ∧
      st1.trace =
        [.persist_write 1 (.int 3600) .ok, .persist_write 3 (.int 1) .ok,
         .persist_write 2 (.int 2) .ok,
         .persist_write 10000 (.token token_A) .ok, .persist_write 10001 (.token token_B) .ok,
         .persist_write 20001 (.data [1, 2, 3, 4, 5]) .ok,
         .persist_write 20002 (.data [9]) .ok] := by
  obtain ⟨st1, e1, h1, _⟩ := C19_writeback_order (fun _ => .ok) state_all_dirty
    [token_A, token_B] (fun _ => rfl) (by decide) (by decide)
  exact ⟨by decide, st1, e1, h1.trans (by decide)⟩

/-! ## C20: the write of the selected row -/

theorem attempt_writes_events_subset (oracle : Nat → WriteOutcome) :
    ∀ (Q : List (Int × PValue)) (i : Nat) (p : Persist) (e : Event),
      e ∈ (attempt_writes oracle i Q p).2.1 →
      ∃ kv ∈ Q, ∃ o, e = Event.persist_write (persist_key kv.1) kv.2 o
  | [], i, p, e, h => by simp [attempt_writes] at h
  | (key, v) :: rest, i, p, e, h => by
    simp only [attempt_writes] at h
    cases ho : oracle i with
    | ok =>
      simp only [ho, List.mem_cons] at h
      rcases h with rfl | h
      · exact ⟨(key, v), List.mem_cons_self _ _, .ok, rfl⟩
      · obtain ⟨kv, hkv, o, e1⟩ := attempt_writes_events_subset oracle rest (i + 1) _ e h
        exact ⟨kv, List.mem_cons_of_mem _ hkv, o, e1⟩
    | fail c =>
      simp only [ho, List.mem_singleton] at h
      exact ⟨(key, v), List.mem_cons_self _ _, .fail c, h⟩

theorem planned_tokens_value :
    ∀ (ts : List TokenInfo) (i : Int) (kv : Int × PValue), kv ∈ planned_tokens ts i →
      ∃ t, kv.2 = .token t
  | [], _, kv, h => by simp [planned_tokens] at h
  | t :: rest, i, kv, h => by
    simp only [planned_tokens, List.mem_cons] at h
    rcases h with rfl | h
    · exact ⟨t, rfl⟩
    · exact planned_tokens_value rest _ kv h

theorem planned_secrets_value :
    ∀ (ts : List TokenInfo) (kv : Int × PValue), kv ∈ planned_secrets ts → ∃ b, kv.2 = .data b
  | [], kv, h => by simp [planned_secrets] at h
  | t :: rest, kv, h => by
    simp only [planned_secrets, List.mem_cons] at h
    rcases h with rfl | h
    · exact ⟨_, rfl⟩
    · exact planned_secrets_value rest kv h

/-- No planned write of the token or secret regions is a scalar write to the
selected-row slot. -/
theorem table_entries_not_selected_row (st : State) (ts : List TokenInfo) :
    ∀ kv ∈ (if has_flag st.persist_writeback PWTokens then
          (P_TOKENS_COUNT, PValue.int (token_list_length st)) :: planned_tokens ts 0 else []) ++
        (if has_flag st.persist_writeback PWSecrets then planned_secrets ts else []),
      ∀ v, ¬ (persist_key kv.1 = persist_key P_SELECTED_LIST_INDEX ∧ kv.2 = PValue.int v) := by
  intro kv hkv v ⟨e1, e2⟩
  rcases List.mem_append.mp hkv with hk | hk
  · split at hk
    · rcases List.mem_cons.mp hk with rfl | hk
      · have hne : persist_key P_TOKENS_COUNT ≠ persist_key P_SELECTED_LIST_INDEX := by decide
        exact hne e1
      · obtain ⟨t, ht⟩ := planned_tokens_value ts 0 kv hk
        rw [ht] at e2
        cases e2
    · cases hk
  · split at hk
    · obtain ⟨b, hb⟩ := planned_secrets_value ts kv hk
      rw [hb] at e2
      cases e2
    · cases hk

theorem attempt_writes_head (oracle : Nat → WriteOutcome) (i : Nat) (key : Int) (v : PValue)
    (Q : List (Int × PValue)) (p : Persist) :
    ∃ o, Event.persist_write (persist_key key) v o ∈
      (attempt_writes oracle i ((key, v) :: Q) p).2.1 := by
  cases ho : oracle i with
  | ok => exact ⟨.ok, by simp only [attempt_writes, ho]; exact List.mem_cons_self _ _⟩
  | fail c => exact ⟨.fail c, by simp only [attempt_writes, ho]; exact List.mem_cons_self _ _⟩

/-- The write events of a pass hold a scalar write to the selected-row slot
exactly when the selected row differs from `startup_selected_list_index` and
the offset write, if there was one, succeeded; the value written is the
selected row. -/
theorem pass_selected_row_write (oracle : Nat → WriteOutcome) (st : State)
    (ts : List TokenInfo) :
    ((∃ v o, Event.persist_write (persist_key P_SELECTED_LIST_INDEX) (.int v) o ∈
        (attempt_writes oracle 0 (planned_writes st ts) st.persist).2.1) ↔
      (st.startup_selected_list_index ≠ st.selected_row ∧
        (has_flag st.persist_writeback PWUTCOffset = true → oracle 0 = .ok))) ∧
    (∀ v o, Event.persist_write (persist_key P_SELECTED_LIST_INDEX) (.int v) o ∈
        (attempt_writes oracle 0 (planned_writes st ts) st.persist).2.1 →
      v = st.selected_row) := by
  have hR := table_entries_not_selected_row st ts
  generalize hRdef : (if has_flag st.persist_writeback PWTokens then
          (P_TOKENS_COUNT, PValue.int (token_list_length st)) :: planned_tokens ts 0 else []) ++
        (if has_flag st.persist_writeback PWSecrets then planned_secrets ts else []) = R at hR
  have hP : planned_writes st ts =
      (if has_flag st.persist_writeback PWUTCOffset then [(P_UTCOFFSET, .int st.utc_offset)]
        else []) ++
      ((if st.startup_selected_list_index ≠ st.selected_row then
        [(P_SELECTED_LIST_INDEX, .int st.selected_row)] else []) ++ R) := by
    rw [← hRdef]
    simp only [planned_writes, List.append_assoc]
  have hkey : persist_key P_UTCOFFSET ≠ persist_key P_SELECTED_LIST_INDEX := by decide
  have hsub := attempt_writes_events_subset oracle (planned_writes st ts) 0 st.persist
  have hval : ∀ v o, Event.persist_write (persist_key P_SELECTED_LIST_INDEX) (.int v) o ∈
        (attempt_writes oracle 0 (planned_writes st ts) st.persist).2.1 →
      v = st.selected_row ∧ st.startup_selected_list_index ≠ st.selected_row := by
    intro v o hmem
    obtain ⟨kv, hkv, o1, e⟩ := hsub _ hmem
    simp only [Event.persist_write.injEq] at e
    rw [hP] at hkv
    rcases List.mem_append.mp hkv with hkv | hkv
    · split at hkv
      · rw [List.mem_singleton] at hkv
        subst hkv
        exact absurd e.1.symm hkey
      · cases hkv
    · rcases List.mem_append.mp hkv with hkv | hkv
      · split at hkv
        · rename_i hS
          rw [List.mem_singleton] at hkv
          subst hkv
          have := e.2.1
          simp only [PValue.int.injEq] at this
          exact ⟨this, hS⟩
        · cases hkv
      · exact absurd ⟨e.1.symm, e.2.1.symm⟩ (hR kv hkv v)
  refine ⟨⟨?_, ?_⟩, fun v o h => (hval v o h).1⟩
  · rintro ⟨v, o, hmem⟩
    refine ⟨(hval v o hmem).2, ?_⟩
    intro hA
    cases ho : oracle 0 with
    | ok => rfl
    | fail c =>
      exfalso
      rw [hP, if_pos hA] at hmem
      simp only [List.singleton_append, attempt_writes, ho, List.mem_singleton,
        Event.persist_write.injEq] at hmem
      exact hkey hmem.1.symm
  · rintro ⟨hS, hA⟩
    rw [hP, if_pos hS]
    by_cases hf : has_flag st.persist_writeback PWUTCOffset = true
    · rw [if_pos hf]
      obtain ⟨o, ho⟩ := attempt_writes_head oracle 1 P_SELECTED_LIST_INDEX (.int st.selected_row) R
        (fun k => if k = persist_key P_UTCOFFSET then some (.int st.utc_offset) else st.persist k)
      refine ⟨st.selected_row, o, ?_⟩
      simp only [List.singleton_append, attempt_writes, hA hf]
      exact List.mem_cons_of_mem _ ho
    · rw [if_neg hf]
      obtain ⟨o, ho⟩ := attempt_writes_head oracle 0 P_SELECTED_LIST_INDEX (.int st.selected_row) R
        st.persist
      exact ⟨st.selected_row, o, ho⟩

/-- C20, as the claim states it, fails.  Row 2 is selected and the row
remembered from startup is 0 (no slot was persisted).  A first pass writes 2 to
the selected-row slot; a second pass, with the same row selected and 2 the
value most recently written, writes it again.  And when the selection then
returns to row 0, a pass does not write, although the row differs from the 2
the slot holds. -/
theorem C20_selected_row_rewritten_every_pass :
    trace_and_row (persist_do_writeback (fun _ => .ok) state_row_moved)
      = some ([.persist_write 3 (.int 2) .ok], some (.int 2)) ∧
    trace_and_row ((persist_do_writeback (fun _ => .ok) state_row_moved).bind
        (persist_do_writeback (fun _ => .ok)))
      = some ([.persist_write 3 (.int 2) .ok, .persist_write 3 (.int 2) .ok], some (.int 2)) ∧
    trace_and_row ((persist_do_writeback (fun _ => .ok) state_row_moved).bind
        (fun s => persist_do_writeback (fun _ => .ok) { s with selected_row := 0 }))
      = some ([.persist_write 3 (.int 2) .ok], some (.int 2)) := by
  decide

/-- C20, amended.  A pass over a list of live records writes the selected-row
scalar if and only if the selected row differs from
`startup_selected_list_index` and no earlier write of the pass (the offset
write) failed; the value written is the selected row.  The pass leaves
`startup_selected_list_index` as it was, so a second pass with the same
selected row writes the scalar again exactly when the row differs from
`startup_selected_list_index`, whatever the first pass wrote.  That value is
set once, at startup: to the persisted row (as `uint16_t`) when the slot
exists, which is then also the selected row, and left at its initial value
otherwise. -/
theorem C20_selected_row_written_iff_differs_from_startup (env : Env)
    (oracle1 oracle2 : Nat → WriteOutcome) (st : State) (ts : List TokenInfo)
    (hrec : records st = .ok ts) :
    (∃ st1 writes1 failure1 st2 writes2 failure2,
      persist_do_writeback oracle1 st = .ok st1 ∧
      st1.trace = st.trace ++ writes1 ++ push_events failure1 ∧
      st1.startup_selected_list_index = st.startup_selected_list_index ∧
      st1.selected_row = st.selected_row ∧
      ((∃ v o, Event.persist_write (persist_key P_SELECTED_LIST_INDEX) (.int v) o ∈ writes1) ↔
        (st.startup_selected_list_index ≠ st.selected_row ∧
          (has_flag st.persist_writeback PWUTCOffset = true → oracle1 0 = .ok))) ∧
      (∀ v o, Event.persist_write (persist_key P_SELECTED_LIST_INDEX) (.int v) o ∈ writes1 →
        v = st.selected_row) ∧
      persist_do_writeback oracle2 st1 = .ok st2 ∧
      st2.trace = st1.trace ++ writes2 ++ push_events failure2 ∧
      st2.startup_selected_list_index = st.startup_selected_list_index ∧
      ((∃ v o, Event.persist_write (persist_key P_SELECTED_LIST_INDEX) (.int v) o ∈ writes2) ↔
        st.startup_selected_list_index ≠ st.selected_row)) ∧
    (∀ s0 : State, persist_exists s0 P_SELECTED_LIST_INDEX = true →
      (handle_init_selected env s0).startup_selected_list_index
        = persist_read_int env s0 P_SELECTED_LIST_INDEX % 65536 ∧
      (handle_init_selected env s0).selected_row
        = (handle_init_selected env s0).startup_selected_list_index) ∧
    (∀ s0 : State, persist_exists s0 P_SELECTED_LIST_INDEX = false →
      handle_init_selected env s0 = s0) := by
  refine ⟨?_, ?_, ?_⟩
  · obtain ⟨st1, e1, ht, hs, hr, hh, hl, hpw⟩ : ∃ st1,
        persist_do_writeback oracle1 st = .ok st1 ∧
        st1.trace = st.trace ++ (attempt_writes oracle1 0 (planned_writes st ts) st.persist).2.1 ++
          push_events (attempt_writes oracle1 0 (planned_writes st ts) st.persist).2.2 ∧
        st1.startup_selected_list_index = st.startup_selected_list_index ∧
        st1.selected_row = st.selected_row ∧ st1.heap = st.heap ∧
        st1.token_list = st.token_list ∧ st1.persist_writeback = PWNone :=
      ⟨_, persist_do_writeback_eq oracle1 st ts hrec, rfl, rfl, rfl, rfl, rfl, rfl⟩
    have hrec1 : records st1 = .ok ts := by
      rw [records_congr hh hl]
      exact hrec
    obtain ⟨hiff1, hval1⟩ := pass_selected_row_write oracle1 st ts
    obtain ⟨hiff2, _⟩ := pass_selected_row_write oracle2 st1 ts
    rw [hs, hr, hpw] at hiff2
    refine ⟨st1, _, _, _, _, _, e1, ht, hs, hr, hiff1, hval1,
      persist_do_writeback_eq oracle2 st1 ts hrec1, rfl, hs, ?_⟩
    rw [hiff2]
    constructor
    · exact fun h => h.1
    · exact fun h => ⟨h, fun hf => absurd hf (by decide)⟩
  · intro s0 hex
    simp only [handle_init_selected, hex, if_true, and_self]
  · intro s0 hex
    simp only [handle_init_selected, hex, Bool.false_eq_true, if_false]

theorem C20_selected_row_written_iff_differs_from_startup_witness :
    records state_row_moved = .ok [] ∧
    ∃ st1 writes1 failure1 st2 writes2 failure2,
      persist_do_writeback (fun _ => .ok) state_row_moved = .ok st1 ∧
      st1.trace = state_row_moved.trace ++ writes1 ++ push_events failure1 ∧
      st1.startup_selected_list_index = state_row_moved.startup_selected_list_index ∧
      st1.selected_row = state_row_moved.selected_row ∧
      ((∃ v o, Event.persist_write (persist_key P_SELECTED_LIST_INDEX) (.int v) o ∈ writes1) ↔
        (state_row_moved.startup_selected_list_index ≠ state_row_moved.selected_row ∧
          (has_flag state_row_moved.persist_writeback PWUTCOffset = true →
            (fun _ => WriteOutcome.ok) 0 = WriteOutcome.ok))) ∧
      (∀ v o, Event.persist_write (persist_key P_SELECTED_LIST_INDEX) (.int v) o ∈ writes1 →
        v = state_row_moved.selected_row) ∧
      persist_do_writeback (fun _ => .ok) st1 = .ok st2 ∧
      st2.trace = st1.trace ++ writes2 ++ push_events failure2 ∧
      st2.startup_selected_list_index = state_row_moved.startup_selected_list_index ∧
      ((∃ v o, Event.persist_write (persist_key P_SELECTED_LIST_INDEX) (.int v) o ∈ writes2) ↔
        state_row_moved.startup_selected_list_index ≠ state_row_moved.selected_row) :=
  ⟨by decide,
    (C20_selected_row_written_iff_differs_from_startup Env.zero (fun _ => .ok) (fun _ => .ok)
      state_row_moved [] (by decide)).1⟩

/-! ## C13: delete-token and the persistent store -/

/-- C13 at an id outside the `int8` range.  The store holds the records of the
distinct ids 300 and 44, and the message carries only delete-token(300).  The
block reads the id as `int8`, that is as 44: the record of id 44 and its secret
slot are removed, while the record of id 300 stays in the store, is the one
persisted at position 0, and keeps its secret slot.  With the record of id 300
alone in the store the same message ends in a `NULL` dereference. -/
theorem C13_delete_reads_id_as_int8 :
    store_ids state_300_44 = .ok [300, 44] ∧
    delete_outcome (in_received_handler Env.zero 10 (fun _ => .ok) { AMDeleteToken := some 300 }
        state_300_44)
      = some (.ok [300], some (.int 1),
          some (.token { token_300 with code := [48, 48, 48, 48, 48, 48, 0, 0, 0, 0, 0, 0] }),
          some (.data [1, 2, 3, 4, 5]), none) ∧
    fault_of (in_received_handler Env.zero 10 (fun _ => .ok) { AMDeleteToken := some 300 }
        (State.of_records [token_300])) = some .null_deref := by
  decide

/-! ### Delete-token of an id in the `int8` range -/

theorem deref_all_filterMap (h : Heap) :
    ∀ (addrs : List Nat), (∀ a ∈ addrs, ∃ t, h a = some t) →
      deref_all h (addrs.map some) = .ok (addrs.filterMap h)
  | [], _ => rfl
  | a :: addrs, hall => by
    obtain ⟨t, e⟩ := hall a (List.mem_cons_self _ _)
    have ih := deref_all_filterMap h addrs (fun b hb => hall b (List.mem_cons_of_mem _ hb))
    simp only [List.map_cons, deref_all, deref, e, ih, List.filterMap_cons]

theorem filterMap_same_but_code {h h1 : Heap} (hs : ∀ a, same_but_code (h a) (h1 a)) :
    ∀ (l : List Nat),
      (l.filterMap h1).map TokenInfo.without_code = (l.filterMap h).map TokenInfo.without_code
  | [] => rfl
  | a :: l => by
    have ih := filterMap_same_but_code hs l
    have ha := hs a
    cases e : h a with
    | none =>
      cases e1 : h1 a with
      | none => simp only [List.filterMap_cons, e, e1, ih]
      | some t1 => simp [e, e1, same_but_code] at ha
    | some t =>
      cases e1 : h1 a with
      | none => simp [e, e1, same_but_code] at ha
      | some t1 =>
        simp only [e, e1, same_but_code] at ha
        obtain ⟨c, _, rfl⟩ := ha
        simp only [List.filterMap_cons, e, e1, List.map_cons, ih, TokenInfo.without_code]

theorem filterMap_heap_free (h : Heap) (a : Nat) :
    ∀ (l : List Nat), a ∉ l → l.filterMap (heap_free h (some a)) = l.filterMap h
  | [], _ => rfl
  | b :: l, hn => by
    have hb : b ≠ a := fun e => hn (e ▸ List.mem_cons_self _ _)
    have ih := filterMap_heap_free h a l (fun hm => hn (List.mem_cons_of_mem _ hm))
    simp only [List.filterMap_cons, heap_free, if_neg hb] at ih ⊢
    rw [ih]

theorem refresh_all_nodes_frame_persist (env : Env) (q : Int) :
    ∀ (l : List (Option Nat)) (st st1 : State), refresh_all_nodes env q l st = .ok st1 →
      st1.persist = st.persist ∧ st1.persist_writeback = st.persist_writeback ∧
      st1.startup_selected_list_index = st.startup_selected_list_index ∧
      st1.selected_row = st.selected_row
  | [], st, st1, e => by
    simp only [refresh_all_nodes, Except.ok.injEq] at e
    subst e
    exact ⟨rfl, rfl, rfl, rfl⟩
  | none :: l, st, st1, e => by simp [refresh_all_nodes] at e
  | some a :: l, st, st1, e => by
    simp only [refresh_all_nodes] at e
    cases hh : st.heap a with
    | none => simp [hh] at e
    | some t =>
      simp only [hh] at e
      split at e
      · cases e
      · have ih := refresh_all_nodes_frame_persist env q l _ st1 e
        simpa [emit] using ih

theorem refresh_all_frame_persist (env : Env) (now : Int) (st st1 : State)
    (h : refresh_all env now st = .ok st1) :
    st1.persist = st.persist ∧ st1.persist_writeback = st.persist_writeback ∧
    st1.startup_selected_list_index = st.startup_selected_list_index ∧
    st1.selected_row = st.selected_row := by
  unfold refresh_all at h
  simp only [] at h
  split at h
  · simp only [Except.ok.injEq] at h
    subst h
    exact ⟨rfl, rfl, rfl, rfl⟩
  · split at h
    · cases h
    · rename_i st2 e2
      obtain ⟨f1, f2, f3, f4⟩ := refresh_all_nodes_frame_persist env _ _ _ _ e2
      simp only [Except.ok.injEq] at h
      subst h
      split <;> simp [emit, f1, f2, f3, f4]

theorem refresh_all_same_but_code (env : Env) (now : Int) {st : State} {ids : List Int}
    (h : StoreInv st ids) :
    ∃ st1, refresh_all env now st = .ok st1 ∧
      (∀ a, same_but_code (st.heap a) (st1.heap a)) ∧ st1.token_list = st.token_list := by
  unfold refresh_all
  simp only []
  split
  · exact ⟨st, rfl, fun a => same_but_code_refl _, rfl⟩
  · obtain ⟨addrs, h1, h2, h3, h4, h5, h6⟩ := h
    obtain ⟨st2, e2, s2, l2, n2⟩ := refresh_all_nodes_ok env
      (quantized_time env now st.utc_offset) st.token_list
      { st with key_list_is_dirty := false,
                lastQuantizedTimeGenerated := quantized_time env now st.utc_offset }
      (by
        intro k hk
        rw [h1] at hk
        obtain ⟨a, ha, rfl⟩ := List.mem_map.mp hk
        obtain ⟨t, e, hr⟩ := h4 a ha
        exact ⟨a, t, rfl, e, hr⟩)
    rw [e2]
    refine ⟨_, rfl, ?_, ?_⟩
    · intro a
      have := s2 a
      split <;> simpa [emit] using this
    · split <;> simpa [emit] using l2

theorem apply_writes_other :
    ∀ (P : List (Int × PValue)) (p : Persist) (k : Int),
      (∀ kv ∈ P, persist_key kv.1 ≠ k) → apply_writes P p k = p k
  | [], _, _, _ => rfl
  | (key, v) :: rest, p, k, h => by
    have hk : k ≠ persist_key key := fun e => h (key, v) (List.mem_cons_self _ _) e.symm
    rw [apply_writes, apply_writes_other rest _ k (fun kv hkv => h kv (List.mem_cons_of_mem _ hkv))]
    simp only [if_neg hk]

theorem apply_writes_at (P1 P2 : List (Int × PValue)) (key : Int) (v : PValue) (p : Persist)
    (h2 : ∀ kv ∈ P2, persist_key kv.1 ≠ persist_key key) :
    apply_writes (P1 ++ (key, v) :: P2) p (persist_key key) = some v := by
  induction P1 generalizing p with
  | nil =>
    rw [List.nil_append, apply_writes, apply_writes_other P2 _ _ h2]
    simp only [if_true]
  | cons kv P1 ih =>
    obtain ⟨k1, v1⟩ := kv
    rw [List.cons_append, apply_writes]
    exact ih _

theorem persist_key_of_range {k : Int} (h0 : 0 ≤ k) (h1 : k < 4294967296) :
    persist_key k = k := by
  unfold persist_key toUInt32
  exact Int.emod_eq_of_lt h0 h1

theorem filterMap_ids (h : Heap) :
    ∀ (l : List Nat), (∀ a ∈ l, ∃ t, h a = some t) →
      (l.filterMap h).map (fun t => t.id) = l.map (id_at h)
  | [], _ => rfl
  | a :: l, hall => by
    obtain ⟨t, e⟩ := hall a (List.mem_cons_self _ _)
    have ih := filterMap_ids h l (fun b hb => hall b (List.mem_cons_of_mem _ hb))
    simp only [List.filterMap_cons, e, List.map_cons, ih, id_at]

theorem enumFrom_split {α : Type} :
    ∀ (ts : List α) (i n : Nat) (u : α), ts.get? n = some u →
      ∃ E1 E2, ts.enumFrom i = E1 ++ (i + n, u) :: E2 ∧
        ∀ x ∈ E2, i + n < x.1 ∧ x.1 < i + ts.length
  | [], _, _, _, h => by simp at h
  | t :: rest, i, 0, u, h => by
    simp only [List.get?_cons_zero, Option.some.injEq] at h
    subst h
    refine ⟨[], rest.enumFrom (i + 1), rfl, ?_⟩
    intro x hx
    have h1 := List.le_fst_of_mem_enumFrom hx
    have h2 := List.fst_lt_add_of_mem_enumFrom hx
    simp only [List.length_cons]
    omega
  | t :: rest, i, n + 1, u, h => by
    obtain ⟨E1, E2, e, hE⟩ := enumFrom_split rest (i + 1) n u (by simpa using h)
    refine ⟨(i, t) :: E1, E2, ?_, ?_⟩
    · rw [List.enumFrom_cons, e, show i + 1 + n = i + (n + 1) by omega]
      rfl
    · intro x hx
      have := hE x hx
      simp only [List.length_cons]
      omega

/-- The `AMDeleteToken` block on an id of the `int8` range whose record is the
node after `pre`: the state it leaves. -/
theorem am_delete_token_eq (st : State) (pre post : List Nat) (a : Nat) (t : TokenInfo)
    (m : Message) (v : Int) (hm : m.AMDeleteToken = some v) (hv0 : -128 ≤ v) (hv1 : v ≤ 127)
    (hl : st.token_list = (pre ++ a :: post).map some) (ha : st.heap a = some t)
    (hid : t.id = v) (hpre : ∀ b ∈ pre, ∃ tb, st.heap b = some tb ∧ tb.id ≠ v)
    (hnot : a ∉ pre) :
    am_delete_token m st = .ok
      { st with
        heap := heap_free st.heap (some a),
        token_list := (pre ++ post).map some,
        key_list_is_dirty := true,
        persist := fun k => if k = persist_key (P_SECRETS_START + t.id) then none else st.persist k,
        trace := st.trace ++ [.persist_delete (persist_key (P_SECRETS_START + t.id))],
        persist_writeback := st.persist_writeback ||| PWTokens,
        delta := true } := by
  have hfind : token_by_id st (toInt8 v) = .ok (some a) := by
    rw [toInt8_of_range hv0 hv1, token_by_id, hl, List.map_append, List.map_cons,
      token_by_id_nodes_skip]
    · simp only [token_by_id_nodes, deref, ha, hid, if_true]
    · exact hpre
  have hin : some a ∈ (persist_delete (P_SECRETS_START + t.id) st).token_list := by
    simp [persist_delete, emit, hl]
  have her : (persist_delete (P_SECRETS_START + t.id) st).token_list.erase (some a) =
      (pre ++ post).map some := by
    have : some a ∉ pre.map some := by
      intro hmem
      obtain ⟨b, hb, hbe⟩ := List.mem_map.mp hmem
      exact hnot (by cases hbe; exact hb)
    simp only [persist_delete, emit, hl, List.map_append, List.map_cons]
    exact erase_middle _ _ _ this
  simp only [am_delete_token, hm, hfind, deref, ha, token_list_delete, if_pos hin, her]
  simp [persist_delete, emit]

/-- Delete-token of a present id of the `int8` range, followed by the refresh
and a writeback pass in which every write succeeds.  For a store of distinct
live renderable records with distinct ids (fewer than 9873 records, ids from
-128 to 32767, so that no secret slot is a scalar or metadata slot) and no
writeback flag pending: the handler returns, the store holds exactly the other
records in their order (with recomputed codes), the persisted count is the new
length, the metadata slot of every position holds the record of that position,
the secret slot keyed by the deleted id is absent, and the secret slot of every
remaining record is as it was. -/
theorem delete_token_persisted (env : Env) (now : Int) (oracle : Nat → WriteOutcome)
    (st : State) (ids : List Int) (v : Int) (hok : ∀ i, oracle i = .ok)
    (h : StoreInv st ids) (hflags : st.persist_writeback = PWNone)
    (hrange : ∀ id ∈ ids, -128 ≤ id ∧ id ≤ 32767) (hsmall : ids.length ≤ 9872)
    (hv0 : -128 ≤ v) (hv1 : v ≤ 127) (hmem : v ∈ ids) :
    ∃ st1 tpre t tpost ts1,
      records st = .ok (tpre ++ t :: tpost) ∧ t.id = v ∧
      in_received_handler env now oracle { AMDeleteToken := some v } st = .ok st1 ∧
      records st1 = .ok ts1 ∧
      ts1.map TokenInfo.without_code = (tpre ++ tpost).map TokenInfo.without_code ∧
      st1.persist 2 = some (.int (ts1.length : Int)) ∧
      (∀ (i : Nat) (u : TokenInfo), ts1.get? i = some u →
        st1.persist (10000 + (i : Int)) = some (.token u)) ∧
      st1.persist (20000 + v) = none ∧
      (∀ u ∈ ts1, st1.persist (20000 + u.id) = st.persist (20000 + u.id)) := by
  have hinv := h
  obtain ⟨addrs, h1, h2, h3, h4, h5, h6⟩ := h
  have hmem1 := hmem
  rw [← h5] at hmem1
  obtain ⟨a, ha, hav⟩ := List.mem_map.mp hmem1
  obtain ⟨pre, post, rfl⟩ := List.append_of_mem ha
  obtain ⟨t, e, hr⟩ := h4 a ha
  have htid : t.id = v := by simpa [id_at, e] using hav
  have hnd := List.nodup_middle.mp h2
  rw [List.nodup_cons] at hnd
  have ha_pre : a ∉ pre := fun hm => hnd.1 (List.mem_append_left _ hm)
  have ha_both : a ∉ pre ++ post := hnd.1
  have hlive : ∀ b ∈ pre ++ a :: post, ∃ tb, st.heap b = some tb :=
    fun b hb => (h4 b hb).imp fun _ hb1 => hb1.1
  have hlive_pre : ∀ b ∈ pre, ∃ tb, st.heap b = some tb :=
    fun b hb => hlive b (List.mem_append_left _ hb)
  have hlive_post : ∀ b ∈ post, ∃ tb, st.heap b = some tb :=
    fun b hb => hlive b (List.mem_append_right _ (List.mem_cons_of_mem _ hb))
  -- the ids
  rw [List.map_append, List.map_cons, hav] at h5
  have hnd6 : (v :: (pre.map (id_at st.heap) ++ post.map (id_at st.heap))).Nodup := by
    rw [← h5] at h6
    exact List.nodup_middle.mp h6
  rw [List.nodup_cons] at hnd6
  have hv_pre : v ∉ pre.map (id_at st.heap) := fun hm => hnd6.1 (List.mem_append_left _ hm)
  -- the records before
  have hrec : records st = .ok (pre.filterMap st.heap ++ t :: post.filterMap st.heap) := by
    rw [records, h1, deref_all_filterMap st.heap _ hlive, List.filterMap_append,
      List.filterMap_cons, e]
  -- the delete block
  have e3 := am_delete_token_eq st pre post a t { AMDeleteToken := some v } v rfl hv0 hv1 h1 e
    htid
    (fun b hb => by
      obtain ⟨tb, eb⟩ := hlive_pre b hb
      refine ⟨tb, eb, ?_⟩
      intro hid
      exact hv_pre (List.mem_map.mpr ⟨b, hb, by simp [id_at, eb, hid]⟩))
    ha_pre
  obtain ⟨st3x, e3x, _, i3x⟩ := am_delete_token_storeInv hinv v hv0 hv1 hmem
  obtain ⟨st3, hst3, i3⟩ : ∃ st3, am_delete_token { AMDeleteToken := some v } st = .ok st3 ∧
      StoreInv st3 (ids.erase v) := ⟨st3x, e3x, i3x⟩
  have hst3eq := hst3.symm.trans e3
  simp only [Except.ok.injEq] at hst3eq
  -- the refresh
  obtain ⟨st8, e8, s8, l8⟩ := refresh_all_same_but_code env now i3
  obtain ⟨p8, w8, su8, sr8⟩ := refresh_all_frame_persist env now st3 st8 e8
  have hheap3 : st3.heap = heap_free st.heap (some a) := by rw [hst3eq]
  have hlist3 : st3.token_list = (pre ++ post).map some := by rw [hst3eq]
  have hpers3 : st3.persist =
      fun k => if k = persist_key (P_SECRETS_START + t.id) then none else st.persist k := by
    rw [hst3eq]
  have hpw3 : st3.persist_writeback = PWNone ||| PWTokens := by rw [hst3eq, ← hflags]
  have hdelta3 : st3.delta = true := by rw [hst3eq]
  have hlive8 : ∀ b ∈ pre ++ post, ∃ tb, st8.heap b = some tb := by
    intro b hb
    have hba : b ≠ a := fun hba => ha_both (hba ▸ hb)
    have hb1 : b ∈ pre ++ a :: post := by
      rcases List.mem_append.mp hb with hb | hb
      · exact List.mem_append_left _ hb
      · exact List.mem_append_right _ (List.mem_cons_of_mem _ hb)
    obtain ⟨tb, eb⟩ := hlive b hb1
    have hs := s8 b
    rw [hheap3] at hs
    simp only [heap_free, if_neg hba, eb] at hs
    cases e8b : st8.heap b with
    | none => simp [e8b, same_but_code] at hs
    | some t8 => exact ⟨t8, rfl⟩
  have hrec8 : records st8 = .ok ((pre ++ post).filterMap st8.heap) := by
    rw [records, l8, hlist3]
    exact deref_all_filterMap st8.heap _ hlive8
  have hwc : ((pre ++ post).filterMap st8.heap).map TokenInfo.without_code =
      (pre.filterMap st.heap ++ post.filterMap st.heap).map TokenInfo.without_code := by
    rw [filterMap_same_but_code s8 (pre ++ post), hheap3, filterMap_heap_free _ _ _ ha_both,
      List.filterMap_append]
  generalize hts1 : (pre ++ post).filterMap st8.heap = ts1 at hrec8 hwc
  -- lengths and ids of the remaining records
  have hlen1 : ts1.length + 1 = ids.length := by
    have := congrArg List.length hwc
    simp only [List.length_map, List.length_append] at this
    rw [this, ← h5]
    have l1 : (pre.filterMap st.heap).length = pre.length := by
      have := congrArg List.length (filterMap_ids st.heap pre hlive_pre)
      simpa using this
    have l2 : (post.filterMap st.heap).length = post.length := by
      have := congrArg List.length (filterMap_ids st.heap post hlive_post)
      simpa using this
    simp only [List.length_append, List.length_cons, List.length_map, l1, l2]
    omega
  have hids1 : ∀ u ∈ ts1, u.id ≠ v ∧ -128 ≤ u.id ∧ u.id ≤ 32767 := by
    intro u hu
    have hu1 : u.without_code ∈ ts1.map TokenInfo.without_code := List.mem_map_of_mem _ hu
    rw [hwc] at hu1
    obtain ⟨u0, hu0, eu⟩ := List.mem_map.mp hu1
    have hid0 : u0.id = u.id := by
      have := congrArg TokenInfo.id eu
      simpa [TokenInfo.without_code] using this
    have hin : u0.id ∈ pre.map (id_at st.heap) ++ post.map (id_at st.heap) := by
      rw [← filterMap_ids st.heap pre hlive_pre, ← filterMap_ids st.heap post hlive_post,
        ← List.map_append]
      exact List.mem_map_of_mem _ hu0
    have hne : u0.id ≠ v := fun hv => hnd6.1 (hv ▸ hin)
    have hin_ids : u0.id ∈ ids := by
      rw [← h5]
      rcases List.mem_append.mp hin with hin | hin
      · exact List.mem_append_left _ hin
      · exact List.mem_append_right _ (List.mem_cons_of_mem _ hin)
    rw [← hid0]
    exact ⟨hne, hrange _ hin_ids⟩
  -- the pass
  have e9 := persist_do_writeback_eq oracle st8 ts1 hrec8
  have hf1 : has_flag (PWNone ||| PWTokens) PWUTCOffset = false := by decide
  have hf2 : has_flag (PWNone ||| PWTokens) PWTokens = true := by decide
  have hf3 : has_flag (PWNone ||| PWTokens) PWSecrets = false := by decide
  have hcount : token_list_length st8 = (ts1.length : Int) := by
    rw [token_list_length, deref_all_length hrec8]
    exact toShort_of_le (by omega)
  have hpt : planned_tokens ts1 0 =
      (ts1.enumFrom 0).map (fun p => (P_TOKENS_START + (p.1 : Int), PValue.token p.2)) := by
    have := planned_tokens_enumFrom ts1 0 (by omega)
    simpa using this
  have hP : planned_writes st8 ts1 =
      (if st8.startup_selected_list_index ≠ st8.selected_row then
        [(P_SELECTED_LIST_INDEX, PValue.int st8.selected_row)] else []) ++
      (P_TOKENS_COUNT, PValue.int (ts1.length : Int)) ::
        (ts1.enumFrom 0).map (fun p => (P_TOKENS_START + (p.1 : Int), PValue.token p.2)) := by
    simp only [planned_writes, w8, hpw3, hf1, hf2, hf3, hcount, hpt, Bool.false_eq_true, if_false,
      if_true, List.nil_append, List.append_nil]
  have hSkey : ∀ kv ∈ (if st8.startup_selected_list_index ≠ st8.selected_row then
        [(P_SELECTED_LIST_INDEX, PValue.int st8.selected_row)] else []),
      persist_key kv.1 = 3 := by
    intro kv hkv
    split at hkv
    · rw [List.mem_singleton] at hkv
      subst hkv
      show persist_key P_SELECTED_LIST_INDEX = 3
      decide
    · cases hkv
  have hTkey : ∀ kv ∈ (ts1.enumFrom 0).map
        (fun p => (P_TOKENS_START + (p.1 : Int), PValue.token p.2)),
      ∃ j : Nat, j < ts1.length ∧ persist_key kv.1 = 10000 + (j : Int) := by
    intro kv hkv
    obtain ⟨x, hx, rfl⟩ := List.mem_map.mp hkv
    have hlt := List.fst_lt_add_of_mem_enumFrom hx
    refine ⟨x.1, by omega, ?_⟩
    simp only [P_TOKENS_START]
    exact persist_key_of_range (by omega) (by omega)
  have hpersist9 : ∀ st9, persist_do_writeback oracle st8 = .ok st9 →
      st9.persist = apply_writes (planned_writes st8 ts1) st8.persist ∧
      records st9 = .ok ts1 := by
    intro st9 h9
    rw [e9] at h9
    simp only [Except.ok.injEq] at h9
    subst h9
    exact ⟨by simp only [attempt_writes_all_ok oracle hok], hrec8⟩
  obtain ⟨st9, h9⟩ : ∃ st9, persist_do_writeback oracle st8 = .ok st9 := ⟨_, e9⟩
  obtain ⟨hp9, hrec9⟩ := hpersist9 st9 h9
  have hother : ∀ k : Int, k ≠ 2 → k ≠ 3 → (∀ j : Nat, j < ts1.length → k ≠ 10000 + (j : Int)) →
      st9.persist k = st8.persist k := by
    intro k k2 k3 kj
    rw [hp9, hP]
    apply apply_writes_other
    intro kv hkv
    rcases List.mem_append.mp hkv with hkv | hkv
    · rw [hSkey kv hkv]
      exact fun hk => k3 hk.symm
    · rcases List.mem_cons.mp hkv with rfl | hkv
      · have : persist_key P_TOKENS_COUNT = 2 := by decide
        rw [this]
        exact fun hk => k2 hk.symm
      · obtain ⟨j, hj, ej⟩ := hTkey kv hkv
        rw [ej]
        exact fun hk => kj j hj hk.symm
  refine ⟨st9, pre.filterMap st.heap, t, post.filterMap st.heap, ts1, hrec, htid, ?_, hrec9, hwc,
    ?_, ?_, ?_, ?_⟩
  · generalize hm : ({ AMDeleteToken := some v } : Message) = m at hst3 ⊢
    have m1 : m.AMSetUTCOffset = none := by rw [← hm]
    have m2 : m.AMClearTokens = false := by rw [← hm]
    have m3 : m.AMCreateToken = none := by rw [← hm]
    have m4 : m.AMUpdateToken = none := by rw [← hm]
    have m5 : m.AMReadTokenList = false := by rw [← hm]
    have m6 : m.AMSetTokenListOrder = none := by rw [← hm]
    simp only [in_received_handler, am_set_utc_offset, am_clear_tokens, am_create_token,
      am_update_token, am_read_token_list, am_set_token_list_order, m1, m2, m3, m4, m5, m6, hst3,
      hdelta3, e8, h9, if_true, Bool.false_eq_true, if_false]
  · have hk : persist_key P_TOKENS_COUNT = 2 := by decide
    rw [hp9, hP, ← hk]
    exact apply_writes_at _ _ P_TOKENS_COUNT _ _ (by
      intro kv hkv
      obtain ⟨j, hj, ej⟩ := hTkey kv hkv
      rw [ej, hk]
      omega)
  · intro i u hi
    obtain ⟨E1, E2, eE, hE⟩ := enumFrom_split ts1 0 i u hi
    have hi_lt : i < ts1.length := by
      rcases Nat.lt_or_ge i ts1.length with hlt | hge
      · exact hlt
      · rw [List.get?_eq_none.mpr hge] at hi
        cases hi
    have hk : persist_key (P_TOKENS_START + ((0 + i : Nat) : Int)) = 10000 + (i : Int) := by
      simp only [P_TOKENS_START, Nat.zero_add]
      exact persist_key_of_range (by omega) (by omega)
    rw [hp9, hP, eE, List.map_append, List.map_cons, ← hk, ← List.cons_append,
      ← List.append_assoc]
    apply apply_writes_at
    intro kv hkv
    obtain ⟨x, hx, rfl⟩ := List.mem_map.mp hkv
    have hx1 := hE x hx
    rw [hk]
    simp only [P_TOKENS_START]
    rw [persist_key_of_range (by omega) (by omega)]
    omega
  · rw [hother (20000 + v) (by omega) (by omega) (fun j hj => by omega), p8, hpers3, htid]
    have hk : persist_key (P_SECRETS_START + v) = 20000 + v := by
      simp only [P_SECRETS_START]
      exact persist_key_of_range (by omega) (by omega)
    simp only [hk, if_true]
  · intro u hu
    obtain ⟨hne, hu0, hu1⟩ := hids1 u hu
    rw [hother (20000 + u.id) (by omega) (by omega) (fun j hj => by omega), p8, hpers3, htid]
    have hk : persist_key (P_SECRETS_START + v) = 20000 + v := by
      simp only [P_SECRETS_START]
      exact persist_key_of_range (by omega) (by omega)
    have hne2 : 20000 + u.id ≠ 20000 + v := by omega
    simp only [hk, if_neg hne2]

theorem delete_token_persisted_example :
    ∃ st1 tpre t tpost ts1,
      records state_AB = .ok (tpre ++ t :: tpost) ∧ t.id = 1 ∧
      in_received_handler Env.zero 10 (fun _ => .ok) { AMDeleteToken := some 1 } state_AB
        = .ok st1 ∧
      records st1 = .ok ts1 ∧
      ts1.map TokenInfo.without_code = (tpre ++ tpost).map TokenInfo.without_code ∧
      st1.persist 2 = some (.int (ts1.length : Int)) ∧
      (∀ (i : Nat) (u : TokenInfo), ts1.get? i = some u →
        st1.persist (10000 + (i : Int)) = some (.token u)) ∧
      st1.persist (20000 + 1) = none ∧
      (∀ u ∈ ts1, st1.persist (20000 + u.id) = state_AB.persist (20000 + u.id)) := by
  have hinv : StoreInv state_AB [1, 2] := by
    refine ⟨[0, 1], rfl, by decide, ?_, ?_, rfl, by decide⟩
    · intro a ha
      simp only [List.mem_cons, List.mem_singleton, List.not_mem_nil, or_false] at ha
      rcases ha with rfl | rfl <;> decide
    · intro a ha
      simp only [List.mem_cons, List.mem_singleton, List.not_mem_nil, or_false] at ha
      rcases ha with rfl | rfl
      · exact ⟨token_A, rfl, by decide, by decide, by decide⟩
      · exact ⟨token_B, rfl, by decide, by decide, by decide⟩
  exact delete_token_persisted Env.zero 10 (fun _ => .ok) state_AB [1, 2] 1 (fun _ => rfl) hinv rfl
    (by decide) (by decide) (by decide) (by decide) (by decide)

/-! ## What the refresh and the writeback pass leave alone -/

theorem same_list_refl (s : State) : same_list s s := ⟨rfl, rfl, rfl⟩

theorem same_list_trans {s s1 s2 : State} (h1 : same_list s s1) (h2 : same_list s1 s2) :
    same_list s s2 :=
  ⟨h2.1.trans h1.1, h2.2.1.trans h1.2.1, h2.2.2.trans h1.2.2⟩

theorem persist_write_same_list (o : WriteOutcome) (key : Int) (v : PValue) (size : Nat)
    (st : State) : same_list st (persist_write o key v size st).1 := by
  cases o <;> exact ⟨rfl, rfl, rfl⟩

theorem writeback_int_same_list (oracle : Nat → WriteOutcome) (key value : Int) (w : Writeback) :
    same_list w.st (writeback_int oracle key value w).st :=
  persist_write_same_list _ _ _ _ _

theorem writeback_data_same_list (oracle : Nat → WriteOutcome) (key : Int) (v : PValue)
    (size : Nat) (code : Int) (w : Writeback) :
    same_list w.st (writeback_data oracle key v size code w).st :=
  persist_write_same_list _ _ _ _ _

theorem writeback_tokens_same_list (oracle : Nat → WriteOutcome) :
    ∀ (l : List (Option Nat)) (idx : Int) (w w1 : Writeback),
      writeback_tokens oracle l idx w = .ok w1 → same_list w.st w1.st
  | [], _, w, w1, h => by
    simp only [writeback_tokens, Except.ok.injEq] at h
    subst h
    exact same_list_refl _
  | k :: rest, idx, w, w1, h => by
    simp only [writeback_tokens] at h
    split at h
    · split at h
      · cases h
      · exact same_list_trans (writeback_data_same_list _ _ _ _ _ _)
          (writeback_tokens_same_list oracle rest _ _ w1 h)
    · simp only [Except.ok.injEq] at h
      subst h
      exact same_list_refl _

theorem writeback_secrets_same_list (oracle : Nat → WriteOutcome) :
    ∀ (l : List (Option Nat)) (w w1 : Writeback),
      writeback_secrets oracle l w = .ok w1 → same_list w.st w1.st
  | [], w, w1, h => by
    simp only [writeback_secrets, Except.ok.injEq] at h
    subst h
    exact same_list_refl _
  | k :: rest, w, w1, h => by
    simp only [writeback_secrets] at h
    split at h
    · split at h
      · cases h
      · exact same_list_trans (writeback_data_same_list _ _ _ _ _ _)
          (writeback_secrets_same_list oracle rest _ w1 h)
    · simp only [Except.ok.injEq] at h
      subst h
      exact same_list_refl _

/-- A pass of `persist_do_writeback` that returns leaves the list, the export
cursor and `delta` as they were. -/
theorem persist_do_writeback_same_list (oracle : Nat → WriteOutcome) (st st1 : State)
    (h : persist_do_writeback oracle st = .ok st1) : same_list st st1 := by
  unfold persist_do_writeback at h
  simp only [] at h
  have s1 : same_list st (if has_flag st.persist_writeback PWUTCOffset = true then
      writeback_int oracle P_UTCOFFSET st.utc_offset
        { st := st, writeback_ok := true, writeback_status := S_SUCCESS, attempts := 0 }
    else { st := st, writeback_ok := true, writeback_status := S_SUCCESS, attempts := 0 }).st := by
    split
    · exact writeback_int_same_list _ _ _ _
    · exact same_list_refl _
  generalize (if has_flag st.persist_writeback PWUTCOffset = true then
      writeback_int oracle P_UTCOFFSET st.utc_offset
        { st := st, writeback_ok := true, writeback_status := S_SUCCESS, attempts := 0 }
    else { st := st, writeback_ok := true, writeback_status := S_SUCCESS, attempts := 0 }) = w1
    at h s1
  have s2 : same_list st (if st.startup_selected_list_index ≠ st.selected_row ∧
        w1.writeback_ok = true then
      writeback_int oracle P_SELECTED_LIST_INDEX st.selected_row w1 else w1).st := by
    split
    · exact same_list_trans s1 (writeback_int_same_list _ _ _ _)
    · exact s1
  generalize (if st.startup_selected_list_index ≠ st.selected_row ∧ w1.writeback_ok = true then
      writeback_int oracle P_SELECTED_LIST_INDEX st.selected_row w1 else w1) = w2 at h s2
  split at h
  · cases h
  · rename_i w3 e3
    have s3 : same_list st w3.st := by
      split at e3
      · exact same_list_trans (same_list_trans s2 (writeback_int_same_list _ _ _ _))
          (writeback_tokens_same_list oracle _ _ _ w3 e3)
      · simp only [Except.ok.injEq] at e3
        subst e3
        exact s2
    split at h
    · cases h
    · rename_i w4 e4
      have s4 : same_list st w4.st := by
        split at e4
        · exact same_list_trans s3 (writeback_secrets_same_list oracle _ _ w4 e4)
        · simp only [Except.ok.injEq] at e4
          subst e4
          exact s3
      simp only [Except.ok.injEq] at h
      subst h
      split
      · exact s4
      · exact s4

theorem refresh_all_nodes_same_list (env : Env) (q : Int) :
    ∀ (l : List (Option Nat)) (st st1 : State), refresh_all_nodes env q l st = .ok st1 →
      same_list st st1
  | [], st, st1, e => by
    simp only [refresh_all_nodes, Except.ok.injEq] at e
    subst e
    exact same_list_refl _
  | none :: l, st, st1, e => by simp [refresh_all_nodes] at e
  | some a :: l, st, st1, e => by
    simp only [refresh_all_nodes] at e
    cases hh : st.heap a with
    | none => simp [hh] at e
    | some t =>
      simp only [hh] at e
      split at e
      · cases e
      · have ih := refresh_all_nodes_same_list env q l _ st1 e
        exact ⟨ih.1, ih.2.1, ih.2.2⟩

/-- A call of `refresh_all` that returns leaves the list, the export cursor and
`delta` as they were. -/
theorem refresh_all_same_list (env : Env) (now : Int) (st st1 : State)
    (h : refresh_all env now st = .ok st1) : same_list st st1 := by
  unfold refresh_all at h
  simp only [] at h
  split at h
  · simp only [Except.ok.injEq] at h
    subst h
    exact same_list_refl _
  · split at h
    · cases h
    · rename_i st2 e2
      have s2 := refresh_all_nodes_same_list env _ _ _ st2 e2
      simp only [Except.ok.injEq] at h
      subst h
      split
      · exact ⟨s2.1, s2.2.1, s2.2.2⟩
      · exact ⟨s2.1, s2.2.1, s2.2.2⟩

/-! ## What each block of the handler does to the list, the cursor and `delta` -/

theorem token_by_id_nodes_mem (h : Heap) (id : Int) :
    ∀ (l : List (Option Nat)) (key : Option Nat), token_by_id_nodes h id l = .ok key →
      key = none ∨ key ∈ l
  | [], key, e => by
    simp only [token_by_id_nodes, Except.ok.injEq] at e
    exact Or.inl e.symm
  | k :: l, key, e => by
    simp only [token_by_id_nodes] at e
    split at e
    · cases e
    · split at e
      · simp only [Except.ok.injEq] at e
        exact Or.inr (e ▸ List.mem_cons_self _ _)
      · rcases token_by_id_nodes_mem h id l key e with hn | hm
        · exact Or.inl hn
        · exact Or.inr (List.mem_cons_of_mem _ hm)

theorem token_by_list_index_nodes_lt (l : List (Option Nat)) (n : Nat) (k : Option Nat)
    (h : token_by_list_index_nodes l n = .ok k) : n < l.length := by
  rcases Nat.lt_or_ge n l.length with hlt | hge
  · exact hlt
  · rw [token_by_list_index_nodes_past_end l n hge] at h
    cases h

theorem reorder_build_length (st : State) (data : List Nat) :
    ∀ (n i : Nat) (keys : List (Option Nat)), reorder_build st data n i = .ok keys →
      keys.length = n
  | 0, _, keys, e => by
    simp only [reorder_build, Except.ok.injEq] at e
    subst e
    rfl
  | n + 1, i, keys, e => by
    simp only [reorder_build] at e
    split at e
    · cases e
    · split at e
      · cases e
      · split at e
        · cases e
        · rename_i keys1 e1
          simp only [Except.ok.injEq] at e
          subst e
          simp only [List.length_cons, reorder_build_length st data n (i + 1) keys1 e1]

theorem am_set_utc_offset_frame (m : Message) (st : State) :
    (am_set_utc_offset m st).token_list = st.token_list ∧
    (am_set_utc_offset m st).token_list_retrieve_index = st.token_list_retrieve_index ∧
    (st.delta = true → (am_set_utc_offset m st).delta = true) := by
  unfold am_set_utc_offset
  split
  · exact ⟨rfl, rfl, id⟩
  · split
    · exact ⟨rfl, rfl, fun _ => rfl⟩
    · exact ⟨rfl, rfl, id⟩

theorem am_clear_tokens_frame (m : Message) (st st1 : State)
    (h : am_clear_tokens m st = .ok st1) :
    st1.token_list_retrieve_index = st.token_list_retrieve_index ∧
    (st.delta = true → st1.delta = true) ∧
    (m.AMClearTokens = true → st1.token_list = []) ∧
    (m.AMClearTokens = false → st1.token_list = st.token_list) := by
  unfold am_clear_tokens at h
  by_cases hc : m.AMClearTokens = true
  · simp only [hc, if_true] at h
    cases e : token_list_clear st with
    | error f => simp [e] at h
    | ok st2 =>
      have h2 : st2.token_list = [] ∧
          st2.token_list_retrieve_index = st.token_list_retrieve_index := by
        unfold token_list_clear at e
        cases e2 : token_list_clear_nodes st.token_list st.heap with
        | error f => simp [e2] at e
        | ok hp =>
          simp only [e2, Except.ok.injEq] at e
          subst e
          exact ⟨rfl, rfl⟩
      simp only [e, Except.ok.injEq] at h
      subst h
      exact ⟨h2.2, fun _ => rfl, fun _ => h2.1, fun hf => by rw [hc] at hf; cases hf⟩
  · simp only [hc, Bool.false_eq_true, if_false, Except.ok.injEq] at h
    subst h
    exact ⟨rfl, id, fun ht => absurd ht hc, fun _ => rfl⟩

theorem am_delete_token_frame (m : Message) (st st1 : State)
    (h : am_delete_token m st = .ok st1) :
    st1.token_list_retrieve_index = st.token_list_retrieve_index ∧
    (st.delta = true → st1.delta = true) ∧
    (m.AMDeleteToken = none → st1.token_list = st.token_list) ∧
    (m.AMDeleteToken ≠ none → st1.token_list.length + 1 = st.token_list.length) := by
  unfold am_delete_token at h
  split at h
  · rename_i hn
    simp only [Except.ok.injEq] at h
    subst h
    exact ⟨rfl, id, fun _ => rfl, fun hne => absurd hn hne⟩
  · rename_i v hv
    split at h
    · cases h
    · rename_i key ek
      split at h
      · cases h
      · rename_i t et
        have hmem : key ∈ st.token_list := by
          rcases token_by_id_nodes_mem st.heap (toInt8 v) st.token_list key ek with hn | hm
          · subst hn
            simp [deref] at et
          · exact hm
        have hmem1 : key ∈ (persist_delete (P_SECRETS_START + t.id) st).token_list := hmem
        simp only [Except.ok.injEq] at h
        subst h
        refine ⟨?_, fun _ => rfl, fun hn => ?_, fun _ => ?_⟩
        · simp only [token_list_delete, if_pos hmem1]
          rfl
        · rw [hv] at hn
          cases hn
        · simp only [token_list_delete, if_pos hmem1]
          show ((persist_delete (P_SECRETS_START + t.id) st).token_list.erase key).length + 1 = _
          rw [List.length_erase_of_mem hmem1]
          have hpos : 0 < st.token_list.length := List.length_pos_of_mem hmem
          show st.token_list.length - 1 + 1 = st.token_list.length
          omega

theorem am_update_token_frame (m : Message) (st st1 : State)
    (h : am_update_token m st = .ok st1) :
    st1.token_list = st.token_list ∧
    st1.token_list_retrieve_index = st.token_list_retrieve_index ∧
    (st.delta = true → st1.delta = true) := by
  unfold am_update_token at h
  split at h
  · simp only [Except.ok.injEq] at h
    subst h
    exact ⟨rfl, rfl, id⟩
  · split at h
    · cases h
    · cases h
    · split at h
      · cases h
      · simp only [Except.ok.injEq] at h
        subst h
        exact ⟨rfl, rfl, fun _ => rfl⟩

theorem am_create_token_frame (env : Env) (m : Message) (st st1 : State)
    (h : am_create_token env m st = .ok st1) :
    st1.token_list_retrieve_index = st.token_list_retrieve_index ∧
    (st.delta = true → st1.delta = true) ∧
    st.token_list.length ≤ st1.token_list.length ∧
    st1.token_list.length ≤ st.token_list.length + 1 := by
  unfold am_create_token at h
  cases hs : m.AMCreateToken with
  | none =>
    simp only [hs, Except.ok.injEq] at h
    subst h
    exact ⟨rfl, id, Nat.le_refl _, Nat.le_succ _⟩
  | some secret =>
    cases secret with
    | nil => simp [hs] at h
    | cons len rest =>
      simp only [hs] at h
      by_cases hlt : rest.length < len % 256
      · simp [hlt] at h
      · simp only [hlt, if_false] at h
        cases h1 : m.AMCreateToken_ID <;> cases h2 : m.AMCreateToken_Name <;>
          cases h3 : m.AMCreateToken_Digits <;> simp only [h1, h2, h3] at h <;>
          cases h
        refine ⟨rfl, fun _ => rfl, ?_, ?_⟩ <;> simp [token_list_add]

theorem token_list_retrieve_iter_frame (st st1 : State)
    (h : token_list_retrieve_iter st = .ok st1) :
    st1.token_list = st.token_list ∧ st1.delta = st.delta ∧
    (cursor_in_range st → cursor_in_range st1) := by
  unfold token_list_retrieve_iter at h
  split at h
  · split at h <;>
      (simp only [Except.ok.injEq] at h; subst h; exact ⟨rfl, rfl, id⟩)
  · split at h
    · cases h
    · rename_i key ek
      split at h
      · cases h
      · simp only [Except.ok.injEq] at h
        subst h
        refine ⟨rfl, rfl, ?_⟩
        intro hc
        have hlt := token_by_list_index_nodes_lt _ _ _ ek
        have h0 := hc.1
        show 0 ≤ st.token_list_retrieve_index + 1 ∧
          st.token_list_retrieve_index + 1 ≤ (st.token_list.length : Int)
        omega

theorem am_read_token_list_frame (m : Message) (st st1 : State)
    (h : am_read_token_list m st = .ok st1) :
    st1.token_list = st.token_list ∧ st1.delta = st.delta ∧
    (m.AMReadTokenList = true → cursor_in_range st1) ∧
    (m.AMReadTokenList = false →
      st1.token_list_retrieve_index = st.token_list_retrieve_index) := by
  unfold am_read_token_list at h
  split at h
  · rename_i hc
    obtain ⟨f1, f2, f3⟩ := token_list_retrieve_iter_frame _ st1 h
    refine ⟨f1, f2, fun _ => f3 ⟨Int.le_refl 0, ?_⟩, fun hf => by rw [hc] at hf; cases hf⟩
    show (0 : Int) ≤ (st.token_list.length : Int)
    omega
  · rename_i hc
    simp only [Except.ok.injEq] at h
    subst h
    exact ⟨rfl, rfl, fun ht => absurd ht hc, fun _ => rfl⟩

theorem am_set_token_list_order_frame (m : Message) (st st1 : State)
    (h : am_set_token_list_order m st = .ok st1) :
    st1.token_list_retrieve_index = st.token_list_retrieve_index ∧
    (st.delta = true → st1.delta = true) ∧
    (st.token_list.length ≤ 32767 → st1.token_list.length = st.token_list.length) := by
  unfold am_set_token_list_order at h
  split at h
  · simp only [Except.ok.injEq] at h
    subst h
    exact ⟨rfl, id, fun _ => rfl⟩
  · split at h
    · cases h
    · rename_i newList e
      simp only [Except.ok.injEq] at h
      subst h
      refine ⟨rfl, fun _ => rfl, fun hlen => ?_⟩
      have := reorder_build_length st _ _ 0 newList e
      simp only [token_list_supplant]
      rw [this, token_list_length, toShort_of_le hlen]
      simp

/-! ## The stages of `in_received_handler` -/

/-- A call of `in_received_handler` that returns went through every block,
and then either `delta` was false and nothing more was done, or `delta` was
true and `refresh_all` and `persist_do_writeback` ran. -/
theorem in_received_handler_stages (env : Env) (now : Int) (oracle : Nat → WriteOutcome)
    (m : Message) (st st1 : State) (h : in_received_handler env now oracle m st = .ok st1) :
    ∃ st2 st3 st4 st5 st6 st7,
      am_clear_tokens m (am_set_utc_offset m st) = .ok st2 ∧
      am_delete_token m st2 = .ok st3 ∧ am_update_token m st3 = .ok st4 ∧
      am_create_token env m st4 = .ok st5 ∧ am_read_token_list m st5 = .ok st6 ∧
      am_set_token_list_order m st6 = .ok st7 ∧
      ((st7.delta = false ∧ st1 = st7) ∨
       (st7.delta = true ∧ ∃ st8, refresh_all env now st7 = .ok st8 ∧
          persist_do_writeback oracle st8 = .ok st1)) := by
  unfold in_received_handler at h
  simp only [] at h
  cases e2 : am_clear_tokens m (am_set_utc_offset m st) with
  | error f => simp [e2] at h
  | ok st2 =>
  cases e3 : am_delete_token m st2 with
  | error f => simp [e2, e3] at h
  | ok st3 =>
  cases e4 : am_update_token m st3 with
  | error f => simp [e2, e3, e4] at h
  | ok st4 =>
  cases e5 : am_create_token env m st4 with
  | error f => simp [e2, e3, e4, e5] at h
  | ok st5 =>
  cases e6 : am_read_token_list m st5 with
  | error f => simp [e2, e3, e4, e5, e6] at h
  | ok st6 =>
  cases e7 : am_set_token_list_order m st6 with
  | error f => simp [e2, e3, e4, e5, e6, e7] at h
  | ok st7 =>
  simp only [e2, e3, e4, e5, e6, e7] at h
  refine ⟨st2, st3, st4, st5, st6, st7, rfl, e3, e4, e5, e6, e7, ?_⟩
  cases hd : st7.delta with
  | false =>
    simp only [hd, Bool.false_eq_true, if_false, Except.ok.injEq] at h
    exact Or.inl ⟨rfl, h.symm⟩
  | true =>
    simp only [hd, if_true] at h
    cases e8 : refresh_all env now st7 with
    | error f => simp [e8] at h
    | ok st8 =>
      simp only [e8] at h
      exact Or.inr ⟨rfl, st8, rfl, h⟩

/-- Once set, `delta` stays set: no call of the handler resets it. -/
theorem in_received_handler_delta_stays (env : Env) (now : Int) (oracle : Nat → WriteOutcome)
    (m : Message) (st st1 : State) (h : in_received_handler env now oracle m st = .ok st1)
    (hd : st.delta = true) : st1.delta = true := by
  obtain ⟨st2, st3, st4, st5, st6, st7, e2, e3, e4, e5, e6, e7, hend⟩ :=
    in_received_handler_stages env now oracle m st st1 h
  have d1 := (am_set_utc_offset_frame m st).2.2 hd
  have d2 := (am_clear_tokens_frame m _ st2 e2).2.1 d1
  have d3 := (am_delete_token_frame m st2 st3 e3).2.1 d2
  have d4 := (am_update_token_frame m st3 st4 e4).2.2 d3
  have d5 := (am_create_token_frame env m st4 st5 e5).2.1 d4
  have d6 : st6.delta = true := by rw [(am_read_token_list_frame m st5 st6 e6).2.1]; exact d5
  have d7 := (am_set_token_list_order_frame m st6 st7 e7).2.1 d6
  rcases hend with ⟨hf, _⟩ | ⟨_, st8, e8, e9⟩
  · rw [d7] at hf
    cases hf
  · rw [(persist_do_writeback_same_list oracle st8 st1 e9).2.2,
      (refresh_all_same_list env now st7 st8 e8).2.2]
    exact d7

/-! ## C21: the handler's `delta` -/

theorem am_set_utc_offset_same (st : State) (v : Int) (hv : toInt32 v = st.utc_offset) :
    am_set_utc_offset { AMSetUTCOffset := some v } st = st := by
  simp only [am_set_utc_offset, hv, ne_eq, not_true_eq_false, if_false]

/-- The handler on a message carrying only Read-token-list. -/
theorem in_received_handler_read_only (env : Env) (now : Int) (oracle : Nat → WriteOutcome)
    (st : State) :
    in_received_handler env now oracle message_read st =
      if st.delta then
        (am_read_token_list message_read st).bind
          (fun s => (refresh_all env now s).bind (persist_do_writeback oracle))
      else am_read_token_list message_read st := by
  unfold message_read
  simp only [in_received_handler, am_set_utc_offset, am_clear_tokens, am_delete_token,
    am_update_token, am_create_token, am_set_token_list_order, Bool.false_eq_true, if_false]
  cases h : am_read_token_list { AMReadTokenList := true } st with
  | error f => cases st.delta <;> rfl
  | ok st1 =>
    have hd1 : st1.delta = st.delta := by
      simp only [am_read_token_list, if_true] at h
      rw [token_list_retrieve_iter_delta h]
    simp only [hd1]
    cases hd : st.delta with
    | false => simp
    | true =>
      simp only [if_true, Except.bind]
      cases refresh_all env now st1 <;> rfl

/-- The handler on a message carrying only Set-UTC-offset with the value
already stored. -/
theorem in_received_handler_same_offset (env : Env) (now : Int) (oracle : Nat → WriteOutcome)
    (st : State) (v : Int) (hv : toInt32 v = st.utc_offset) :
    in_received_handler env now oracle { AMSetUTCOffset := some v } st =
      if st.delta then (refresh_all env now st).bind (persist_do_writeback oracle)
      else .ok st := by
  have hs := am_set_utc_offset_same st v hv
  generalize hm : ({ AMSetUTCOffset := some v } : Message) = m at hs
  have m2 : m.AMClearTokens = false := by rw [← hm]
  have m3 : m.AMCreateToken = none := by rw [← hm]
  have m4 : m.AMUpdateToken = none := by rw [← hm]
  have m5 : m.AMReadTokenList = false := by rw [← hm]
  have m6 : m.AMSetTokenListOrder = none := by rw [← hm]
  have m7 : m.AMDeleteToken = none := by rw [← hm]
  simp only [in_received_handler, hs, am_clear_tokens, am_delete_token, am_create_token,
    am_update_token, am_read_token_list, am_set_token_list_order, m2, m3, m4, m5, m6, m7,
    Bool.false_eq_true, if_false]
  cases hd : st.delta with
  | false => simp
  | true =>
    simp only [if_true, Except.bind]
    cases refresh_all env now st <;> rfl

theorem am_set_utc_offset_delta (m : Message) (st : State) :
    (am_set_utc_offset m st).delta = true ↔
      (st.delta = true ∨ ∃ v, m.AMSetUTCOffset = some v ∧ st.utc_offset ≠ toInt32 v) := by
  cases hm : m.AMSetUTCOffset with
  | none =>
    have e : am_set_utc_offset m st = st := by simp only [am_set_utc_offset, hm]
    rw [e]
    constructor
    · exact Or.inl
    · rintro (h | ⟨v, e1, _⟩)
      · exact h
      · cases e1
  | some v =>
    by_cases hne : st.utc_offset ≠ toInt32 v
    · refine iff_of_true ?_ (Or.inr ⟨v, rfl, hne⟩)
      simp only [am_set_utc_offset, hm, if_pos hne]
    · have e : (am_set_utc_offset m st).delta = st.delta := by
        simp only [am_set_utc_offset, hm, if_neg hne]
      rw [e]
      constructor
      · exact Or.inl
      · rintro (h | ⟨v1, e1, h1⟩)
        · exact h
        · cases e1
          exact absurd h1 hne

theorem am_clear_tokens_delta (m : Message) (st st1 : State)
    (h : am_clear_tokens m st = .ok st1) :
    st1.delta = true ↔ (st.delta = true ∨ m.AMClearTokens = true) := by
  unfold am_clear_tokens at h
  by_cases hc : m.AMClearTokens = true
  · simp only [hc, if_true] at h
    cases e : token_list_clear st with
    | error f => simp [e] at h
    | ok st2 =>
      simp only [e, Except.ok.injEq] at h
      subst h
      exact ⟨fun _ => Or.inr hc, fun _ => rfl⟩
  · simp only [hc, Bool.false_eq_true, if_false, Except.ok.injEq] at h
    subst h
    exact ⟨fun h => Or.inl h, fun h => h.resolve_right hc⟩

theorem am_delete_token_delta (m : Message) (st st1 : State)
    (h : am_delete_token m st = .ok st1) :
    st1.delta = true ↔ (st.delta = true ∨ m.AMDeleteToken ≠ none) := by
  unfold am_delete_token at h
  split at h
  · rename_i hn
    simp only [Except.ok.injEq] at h
    subst h
    exact ⟨fun h => Or.inl h, fun h => h.resolve_right (fun hne => hne hn)⟩
  · rename_i v hv
    split at h
    · cases h
    · split at h
      · cases h
      · simp only [Except.ok.injEq] at h
        subst h
        exact ⟨fun _ => Or.inr (by rw [hv]; exact fun e => by cases e), fun _ => rfl⟩

theorem am_update_token_delta (m : Message) (st st1 : State)
    (h : am_update_token m st = .ok st1) :
    st1.delta = true ↔ (st.delta = true ∨ m.AMUpdateToken ≠ none) := by
  unfold am_update_token at h
  split at h
  · rename_i hn
    simp only [Except.ok.injEq] at h
    subst h
    exact ⟨fun h => Or.inl h, fun h => h.resolve_right (fun hne => hne hn)⟩
  · rename_i pub hv
    split at h
    · cases h
    · cases h
    · split at h
      · cases h
      · simp only [Except.ok.injEq] at h
        subst h
        exact ⟨fun _ => Or.inr (by rw [hv]; exact fun e => by cases e), fun _ => rfl⟩

theorem am_create_token_delta (env : Env) (m : Message) (st st1 : State)
    (h : am_create_token env m st = .ok st1) :
    st1.delta = true ↔ (st.delta = true ∨ m.AMCreateToken ≠ none) := by
  unfold am_create_token at h
  cases hs : m.AMCreateToken with
  | none =>
    simp only [hs, Except.ok.injEq] at h
    subst h
    exact ⟨fun h => Or.inl h, fun h => h.resolve_right (fun hne => hne rfl)⟩
  | some secret =>
    cases secret with
    | nil => simp [hs] at h
    | cons len rest =>
      simp only [hs] at h
      by_cases hlt : rest.length < len % 256
      · simp [hlt] at h
      · simp only [hlt, if_false] at h
        cases h1 : m.AMCreateToken_ID <;> cases h2 : m.AMCreateToken_Name <;>
          cases h3 : m.AMCreateToken_Digits <;> simp only [h1, h2, h3] at h <;>
          cases h
        exact ⟨fun _ => Or.inr (fun e => by cases e), fun _ => rfl⟩

theorem am_set_token_list_order_delta (m : Message) (st st1 : State)
    (h : am_set_token_list_order m st = .ok st1) :
    st1.delta = true ↔ (st.delta = true ∨ m.AMSetTokenListOrder ≠ none) := by
  unfold am_set_token_list_order at h
  split at h
  · rename_i hn
    simp only [Except.ok.injEq] at h
    subst h
    exact ⟨fun h => Or.inl h, fun h => h.resolve_right (fun hne => hne hn)⟩
  · rename_i data hv
    split at h
    · cases h
    · simp only [Except.ok.injEq] at h
      subst h
      exact ⟨fun _ => Or.inr (by rw [hv]; exact fun e => by cases e), fun _ => rfl⟩

/-- The value of `delta` after a call of the handler that returns: it is set
exactly when it was set before or the message applies a mutation. -/
theorem in_received_handler_delta (env : Env) (now : Int) (oracle : Nat → WriteOutcome)
    (m : Message) (st st1 : State) (h : in_received_handler env now oracle m st = .ok st1) :
    st1.delta = true ↔ (st.delta = true ∨ applies_mutation m st) := by
  obtain ⟨st2, st3, st4, st5, st6, st7, e2, e3, e4, e5, e6, e7, hend⟩ :=
    in_received_handler_stages env now oracle m st st1 h
  have d1 := am_set_utc_offset_delta m st
  have d2 := am_clear_tokens_delta m _ st2 e2
  have d3 := am_delete_token_delta m st2 st3 e3
  have d4 := am_update_token_delta m st3 st4 e4
  have d5 := am_create_token_delta env m st4 st5 e5
  have d6 : st6.delta = st5.delta := (am_read_token_list_frame m st5 st6 e6).2.1
  have d7 := am_set_token_list_order_delta m st6 st7 e7
  have hfin : st1.delta = st7.delta := by
    rcases hend with ⟨_, e⟩ | ⟨_, st8, e8, e9⟩
    · rw [e]
    · rw [(persist_do_writeback_same_list oracle st8 st1 e9).2.2,
        (refresh_all_same_list env now st7 st8 e8).2.2]
  have k2 : st2.delta = true ↔ (st.delta = true ∨
      (∃ v, m.AMSetUTCOffset = some v ∧ st.utc_offset ≠ toInt32 v) ∨
      m.AMClearTokens = true) := by
    rw [d2, d1, or_assoc]
  have k3 : st3.delta = true ↔ (st.delta = true ∨
      (∃ v, m.AMSetUTCOffset = some v ∧ st.utc_offset ≠ toInt32 v) ∨
      m.AMClearTokens = true ∨ m.AMDeleteToken ≠ none) := by
    rw [d3, k2, or_assoc, or_assoc]
  have k4 : st4.delta = true ↔ (st.delta = true ∨
      (∃ v, m.AMSetUTCOffset = some v ∧ st.utc_offset ≠ toInt32 v) ∨
      m.AMClearTokens = true ∨ m.AMDeleteToken ≠ none ∨ m.AMUpdateToken ≠ none) := by
    rw [d4, k3, or_assoc, or_assoc, or_assoc]
  have k5 : st5.delta = true ↔ (st.delta = true ∨
      (∃ v, m.AMSetUTCOffset = some v ∧ st.utc_offset ≠ toInt32 v) ∨
      m.AMClearTokens = true ∨ m.AMDeleteToken ≠ none ∨ m.AMUpdateToken ≠ none ∨
      m.AMCreateToken ≠ none) := by
    rw [d5, k4, or_assoc, or_assoc, or_assoc, or_assoc]
  rw [hfin, d7, d6, k5]
  unfold applies_mutation
  rw [or_assoc, or_assoc, or_assoc, or_assoc, or_assoc]

/-- C21, as the claim states it, fails.  On the store of records A and B with
no earlier mutation, a message carrying only Read-token-list triggers neither
the refresh nor the pass (the trace shows the export message alone, although
the window and the selected row have changed).  But after one message that
changed the UTC offset, the same message, and a Set-UTC-offset message with the
value already stored, are each followed by `refresh_all` (the generator is
called for both records) and `persist_do_writeback` (the selected row is
written): `delta` has kept the value the earlier message gave it. -/
theorem C21_delta_survives_the_message :
    trace_of (in_received_handler Env.zero 4000 (fun _ => .ok) message_read
        (row_moved state_AB))
      = some [.app_message_outbox_send
                { result := some { id := 1, name := [65] }, finished := false }] ∧
    trace_of ((in_received_handler Env.zero 10 (fun _ => .ok) message_offset state_AB).bind
        (fun s => in_received_handler Env.zero 4000 (fun _ => .ok) message_read (row_moved s)))
      = some [.app_message_outbox_send
                { result := some { id := 1, name := [65] }, finished := false },
              .generateCode [1, 2, 3, 4, 5] 5 253, .generateCode [9] 1 253,
              .menu_layer_reload_data, .show_no_tokens_message false,
              .persist_write 3 (.int 1) .ok] ∧
    trace_of ((in_received_handler Env.zero 10 (fun _ => .ok) message_offset state_AB).bind
        (fun s => in_received_handler Env.zero 4000 (fun _ => .ok) message_offset
          (row_moved s)))
      = some [.generateCode [1, 2, 3, 4, 5] 5 253, .generateCode [9] 1 253,
              .menu_layer_reload_data, .show_no_tokens_message false,
              .persist_write 3 (.int 1) .ok] := by
  decide

/-- C21, amended.  `delta` is a static of the handler that no call resets:
after a call that returns it is set exactly when it was set before the call or
the message applied a mutation.  While it is clear (no earlier message has
applied a mutation), a message carrying only Read-token-list, or only
Set-UTC-offset with the value already stored, triggers neither `refresh_all`
nor `persist_do_writeback`.  Once it is set, each of these messages is followed
by `refresh_all` and `persist_do_writeback`, as every message is. -/
theorem C21_delta_is_sticky (env : Env) (now : Int) (oracle : Nat → WriteOutcome)
    (st : State) :
    (st.delta = false →
      in_received_handler env now oracle message_read st
        = am_read_token_list message_read st ∧
      ∀ v, toInt32 v = st.utc_offset →
        in_received_handler env now oracle { AMSetUTCOffset := some v } st = .ok st) ∧
    (st.delta = true →
      in_received_handler env now oracle message_read st
        = (am_read_token_list message_read st).bind
            (fun s => (refresh_all env now s).bind (persist_do_writeback oracle)) ∧
      ∀ v, toInt32 v = st.utc_offset →
        in_received_handler env now oracle { AMSetUTCOffset := some v } st
          = (refresh_all env now st).bind (persist_do_writeback oracle)) ∧
    (∀ m st1, in_received_handler env now oracle m st = .ok st1 →
      (st1.delta = true ↔ (st.delta = true ∨ applies_mutation m st))) := by
  refine ⟨fun hd => ⟨?_, fun v hv => ?_⟩, fun hd => ⟨?_, fun v hv => ?_⟩, ?_⟩
  · rw [in_received_handler_read_only, hd]
    simp only [Bool.false_eq_true, if_false]
  · rw [in_received_handler_same_offset env now oracle st v hv, hd]
    simp only [Bool.false_eq_true, if_false]
  · rw [in_received_handler_read_only, hd]
    simp only [if_true]
  · rw [in_received_handler_same_offset env now oracle st v hv, hd]
    simp only [if_true]
  · exact fun m st1 h => in_received_handler_delta env now oracle m st st1 h

theorem C21_delta_is_sticky_witness :
    state_AB.delta = false ∧
    in_received_handler Env.zero 4000 (fun _ => .ok) message_read state_AB
      = am_read_token_list message_read state_AB ∧
    (∀ v, toInt32 v = state_AB.utc_offset →
      in_received_handler Env.zero 4000 (fun _ => .ok) { AMSetUTCOffset := some v } state_AB
        = .ok state_AB) :=
  ⟨rfl, (C21_delta_is_sticky Env.zero 4000 (fun _ => .ok) state_AB).1 rfl⟩

/-! ## C22: the export cursor and the store length -/

theorem am_create_token_none (env : Env) (m : Message) (st : State)
    (h : m.AMCreateToken = none) : am_create_token env m st = .ok st := by
  simp only [am_create_token, h]

/-- The export cursor and the length of the list after a call of the handler
that returns, from those before it. -/
theorem in_received_handler_cursor (env : Env) (now : Int) (oracle : Nat → WriteOutcome)
    (m : Message) (st st1 : State) (h : in_received_handler env now oracle m st = .ok st1)
    (hlen : st.token_list.length < 32767) :
    (m.AMReadTokenList = true → cursor_in_range st1) ∧
    (m.AMReadTokenList = false →
      st1.token_list_retrieve_index = st.token_list_retrieve_index) ∧
    ∃ L2 L3 : Nat,
      (m.AMClearTokens = true → L2 = 0) ∧
      (m.AMClearTokens = false → L2 = st.token_list.length) ∧
      (m.AMDeleteToken = none → L3 = L2) ∧ (m.AMDeleteToken ≠ none → L3 + 1 = L2) ∧
      L3 ≤ st1.token_list.length ∧ st1.token_list.length ≤ L3 + 1 ∧
      (m.AMCreateToken = none → st1.token_list.length = L3) := by
  obtain ⟨st2, st3, st4, st5, st6, st7, e2, e3, e4, e5, e6, e7, hend⟩ :=
    in_received_handler_stages env now oracle m st st1 h
  obtain ⟨u1, u2, _⟩ := am_set_utc_offset_frame m st
  obtain ⟨c1, _, c3, c4⟩ := am_clear_tokens_frame m _ st2 e2
  obtain ⟨d1, _, d3, d4⟩ := am_delete_token_frame m st2 st3 e3
  obtain ⟨p1, p2, _⟩ := am_update_token_frame m st3 st4 e4
  obtain ⟨k1, _, k3, k4⟩ := am_create_token_frame env m st4 st5 e5
  obtain ⟨r1, _, r3, r4⟩ := am_read_token_list_frame m st5 st6 e6
  obtain ⟨o1, _, o3⟩ := am_set_token_list_order_frame m st6 st7 e7
  have hfin : st1.token_list = st7.token_list ∧
      st1.token_list_retrieve_index = st7.token_list_retrieve_index := by
    rcases hend with ⟨_, e⟩ | ⟨_, st8, e8, e9⟩
    · rw [e]
      exact ⟨rfl, rfl⟩
    · have s8 := refresh_all_same_list env now st7 st8 e8
      have s9 := persist_do_writeback_same_list oracle st8 st1 e9
      exact ⟨s9.1.trans s8.1, s9.2.1.trans s8.2.1⟩
  -- the lengths along the blocks
  have hL2 : st2.token_list.length ≤ st.token_list.length := by
    cases hc : m.AMClearTokens with
    | true => rw [c3 hc]; exact Nat.zero_le _
    | false => rw [c4 hc, u1]
  have hL3 : st3.token_list.length ≤ st2.token_list.length := by
    by_cases hd : m.AMDeleteToken = none
    · rw [d3 hd]
    · have := d4 hd
      omega
  have hL4 : st4.token_list.length = st3.token_list.length := by rw [p1]
  have hL6 : st6.token_list.length = st5.token_list.length := by rw [r1]
  have hL7 : st7.token_list.length = st6.token_list.length := o3 (by omega)
  have hL1 : st1.token_list.length = st5.token_list.length := by
    rw [hfin.1, hL7, hL6]
  refine ⟨?_, ?_, st2.token_list.length, st3.token_list.length, ?_, ?_, ?_, ?_, ?_, ?_, ?_⟩
  · intro hr
    have hc6 := r3 hr
    unfold cursor_in_range at hc6 ⊢
    rw [hfin.2, o1, hL1, ← hL6]
    exact hc6
  · intro hr
    rw [hfin.2, o1, r4 hr, k1, p2, d1, c1, u2]
  · intro hc
    rw [c3 hc]
    rfl
  · intro hc
    rw [c4 hc, u1]
  · intro hd
    rw [d3 hd]
  · exact d4
  · rw [hL1, ← hL4]
    exact k3
  · rw [hL1, ← hL4]
    exact k4
  · intro hn
    have e5a := am_create_token_none env m st4 hn
    rw [e5a] at e5
    simp only [Except.ok.injEq] at e5
    rw [hL1, ← e5, hL4]

theorem load_tokens_cursor (env : Env) :
    ∀ (n : Nat) (i : Int) (st : State),
      (load_tokens env n i st).token_list_retrieve_index = st.token_list_retrieve_index
  | 0, _, _ => rfl
  | n + 1, i, st => by
    rw [load_tokens]
    exact load_tokens_cursor env n (i + 1) _

theorem handle_init_cursor (env : Env) (persist : Persist) (sel : Int) :
    cursor_in_range (handle_init_selected env (handle_init_load env (State.startup persist sel)))
    := by
  have h0 : (handle_init_load env (State.startup persist sel)).token_list_retrieve_index = 0 := by
    unfold handle_init_load
    simp only []
    split <;> split <;> first | rfl | rw [load_tokens_cursor]; rfl
  have h1 : cursor_in_range (handle_init_load env (State.startup persist sel)) := by
    unfold cursor_in_range
    rw [h0]
    omega
  unfold handle_init_selected
  split
  · exact h1
  · exact h1

/-- A message that is `removal_safe` keeps the cursor in range. -/
theorem in_received_handler_cursor_in_range (env : Env) (now : Int)
    (oracle : Nat → WriteOutcome) (m : Message) (st st1 : State)
    (h : in_received_handler env now oracle m st = .ok st1)
    (hlen : st.token_list.length < 32767) (hc : cursor_in_range st) (hs : removal_safe m st) :
    cursor_in_range st1 := by
  obtain ⟨hA, hB, L2, L3, c1, c2, d1, d2, k1, _, _⟩ :=
    in_received_handler_cursor env now oracle m st st1 h hlen
  cases hr : m.AMReadTokenList with
  | true => exact hA hr
  | false =>
    have hidx := hB hr
    rcases hs with hs | ⟨s1, s2⟩
    · rw [hr] at hs
      cases hs
    · obtain ⟨h0, h1⟩ := hc
      unfold cursor_in_range
      rw [hidx]
      refine ⟨h0, ?_⟩
      cases hcl : m.AMClearTokens with
      | true =>
        rw [s1 hcl]
        omega
      | false =>
        have e2 := c2 hcl
        by_cases hd : m.AMDeleteToken = none
        · have e3 := d1 hd
          omega
        · have e3 := d2 hd
          have := s2 hd
          omega

theorem out_sent_handler_cursor_in_range (sent : OutMessage) (st st1 : State)
    (h : out_sent_handler sent st = .ok st1) (hc : cursor_in_range st) :
    cursor_in_range st1 := by
  unfold out_sent_handler at h
  split at h
  · exact (token_list_retrieve_iter_frame st st1 h).2.2 hc
  · simp only [Except.ok.injEq] at h
    subst h
    exact hc

theorem run_inputs_cursor_in_range (env : Env) :
    ∀ (inputs : List Input) (st st1 : State), cursor_in_range st →
      safe_inputs env inputs st → run_inputs env inputs st = .ok st1 → cursor_in_range st1
  | [], st, st1, hc, _, h => by
    simp only [run_inputs, Except.ok.injEq] at h
    subst h
    exact hc
  | i :: rest, st, st1, hc, hs, h => by
    obtain ⟨hi, hrest⟩ := hs
    simp only [run_inputs] at h
    cases e : step env i st with
    | error f => simp [e] at h
    | ok st2 =>
      simp only [e] at h
      have hc2 : cursor_in_range st2 := by
        cases i with
        | message a m =>
          exact in_received_handler_cursor_in_range env a.now a.oracle m st st2 e hi.1 hc hi.2
        | ack sent => exact out_sent_handler_cursor_in_range sent st st2 e hc
      exact run_inputs_cursor_in_range env rest st2 st1 hc2 (hrest st2 e) h

/-- C22, as the claim states it, fails.  From startup with an empty store:
create the record of id 3, request the list (the record is sent, marked last,
and the cursor is 1), then delete id 3.  The cursor is 1 and the store length
0, and the acknowledgement of the message sent makes
`token_list_retrieve_iter` look up position 1 of the empty list, a `NULL`
dereference.  Likewise after a clear-all that arrives while the store of
records A and B is being exported. -/
theorem C22_removal_leaves_cursor_beyond_end :
    cursor_and_length
        (run_inputs Env.zero inputs_delete_after_export (State.startup (fun _ => none) 0))
      = some (1, 0) ∧
    (trace_of (run_inputs Env.zero inputs_delete_after_export
        (State.startup (fun _ => none) 0))).map
        (fun t => decide (Event.app_message_outbox_send sent_record_3 ∈ t)) = some true ∧
    fault_of (run_inputs Env.zero (inputs_delete_after_export ++ [.ack sent_record_3])
        (State.startup (fun _ => none) 0)) = some .null_deref ∧
    cursor_and_length (run_inputs Env.zero inputs_clear_during_export state_AB) = some (1, 0) ∧
    fault_of (run_inputs Env.zero
        (inputs_clear_during_export ++
          [.ack { result := some { id := 1, name := [65] }, finished := false }]) state_AB)
      = some .null_deref := by
  decide

/-- With the cursor above the store length `token_list_retrieve_iter` looks up
a position beyond the end of the list, which is a `NULL` dereference. -/
theorem token_list_retrieve_iter_beyond_end (st : State)
    (h : (st.token_list.length : Int) < st.token_list_retrieve_index)
    (hlen : st.token_list.length ≤ 32767) :
    token_by_list_index st st.token_list_retrieve_index = .error .null_deref ∧
    token_list_retrieve_iter st = .error .null_deref := by
  have hl : token_list_length st = (st.token_list.length : Int) := toShort_of_le hlen
  have hp : token_by_list_index st st.token_list_retrieve_index = .error .null_deref := by
    simp only [token_by_list_index]
    exact token_by_list_index_nodes_past_end _ _ (by omega)
  refine ⟨hp, ?_⟩
  unfold token_list_retrieve_iter
  rw [hl, if_neg (by omega), hp]

/-- C22, amended.  The cursor is in range after startup, and it stays at most
the store length through every interleaving of inbound messages and
acknowledgements in which each message arrives with fewer than 32767 records
in the store and is `removal_safe`: it carries Read-token-list, or its
clear-all arrives with the cursor at 0 and its delete-token with the cursor
below the store length.  While the cursor is in range (and the store has at
most 32767 records) `token_list_retrieve_iter` looks up no position at or
beyond the end.  A message carrying neither Read-token-list nor create-token
leaves the cursor above the store length when the handler returns and either
it carries delete-token (and no clear-all) and arrives with the cursor at the
store length, or it carries clear-all and arrives with the cursor above 0.
In every state with the cursor above the store length (and at most 32767
records) `token_list_retrieve_iter` looks up the position of the cursor,
beyond the end of the list, and ends in a `NULL` dereference, and so does
`out_sent_handler` on the acknowledgement of any result message. -/
theorem C22_cursor_in_range (env : Env) :
    (∀ persist sel, cursor_in_range
      (handle_init_selected env (handle_init_load env (State.startup persist sel)))) ∧
    (∀ (inputs : List Input) (st st1 : State), cursor_in_range st →
      safe_inputs env inputs st → run_inputs env inputs st = .ok st1 → cursor_in_range st1) ∧
    (∀ st : State, cursor_in_range st → st.token_list.length ≤ 32767 →
      st.token_list_retrieve_index = token_list_length st ∨
      ∃ k, st.token_list.get? st.token_list_retrieve_index.toNat = some k ∧
        token_by_list_index st st.token_list_retrieve_index = .ok k) ∧
    (∀ (a : Arrival) (m : Message) (st st1 : State),
      in_received_handler env a.now a.oracle m st = .ok st1 →
      st.token_list.length < 32767 → m.AMReadTokenList = false → m.AMCreateToken = none →
      m.AMClearTokens = false → m.AMDeleteToken ≠ none →
      st.token_list_retrieve_index = (st.token_list.length : Int) →
      ¬ cursor_in_range st1 ∧
      (st1.token_list.length : Int) < st1.token_list_retrieve_index ∧
      st1.token_list.length ≤ 32767) ∧
    (∀ (a : Arrival) (m : Message) (st st1 : State),
      in_received_handler env a.now a.oracle m st = .ok st1 →
      st.token_list.length < 32767 → m.AMReadTokenList = false → m.AMCreateToken = none →
      m.AMClearTokens = true → 0 < st.token_list_retrieve_index →
      ¬ cursor_in_range st1 ∧
      (st1.token_list.length : Int) < st1.token_list_retrieve_index ∧
      st1.token_list.length ≤ 32767) ∧
    (∀ (sent : OutMessage) (st : State),
      (st.token_list.length : Int) < st.token_list_retrieve_index →
      st.token_list.length ≤ 32767 →
      token_by_list_index st st.token_list_retrieve_index = .error .null_deref ∧
      token_list_retrieve_iter st = .error .null_deref ∧
      (sent.result.isSome = true → out_sent_handler sent st = .error .null_deref)) := by
  refine ⟨handle_init_cursor env, run_inputs_cursor_in_range env, ?_, ?_, ?_, ?_⟩
  · intro st hc hlen
    obtain ⟨h0, h1⟩ := hc
    have hl : token_list_length st = (st.token_list.length : Int) := toShort_of_le hlen
    by_cases he : st.token_list_retrieve_index = (st.token_list.length : Int)
    · exact Or.inl (by rw [hl]; exact he)
    · right
      have hlt : st.token_list_retrieve_index.toNat < st.token_list.length := by omega
      refine ⟨st.token_list.get ⟨_, hlt⟩, List.get?_eq_get hlt, ?_⟩
      exact token_by_list_index_nodes_get _ _ _ (List.get?_eq_get hlt)
  · intro a m st st1 h hlen hr hcr hcl hd hidx
    obtain ⟨_, hB, L2, L3, _, c2, _, d2, _, _, k3⟩ :=
      in_received_handler_cursor env a.now a.oracle m st st1 h hlen
    have e1 := hB hr
    have e2 := c2 hcl
    have e3 := d2 hd
    have e4 := k3 hcr
    have hgt : (st1.token_list.length : Int) < st1.token_list_retrieve_index := by omega
    exact ⟨fun hc => by have := hc.2; omega, hgt, by omega⟩
  · intro a m st st1 h hlen hr hcr hcl hpos
    obtain ⟨_, hB, L2, L3, c1, _, d1, d2, _, _, k3⟩ :=
      in_received_handler_cursor env a.now a.oracle m st st1 h hlen
    have e1 := hB hr
    have e2 := c1 hcl
    have e4 := k3 hcr
    have hgt : (st1.token_list.length : Int) < st1.token_list_retrieve_index ∧
        st1.token_list.length ≤ 32767 := by
      by_cases hd : m.AMDeleteToken = none
      · have e3 := d1 hd
        omega
      · have e3 := d2 hd
        omega
    exact ⟨fun hc => by have := hc.2; omega, hgt.1, hgt.2⟩
  · intro sent st hgt hlen
    obtain ⟨h1, h2⟩ := token_list_retrieve_iter_beyond_end st hgt hlen
    refine ⟨h1, h2, fun hs => ?_⟩
    simp only [out_sent_handler, hs, if_true, h2]

theorem C22_cursor_in_range_witness :
    cursor_in_range state_AB ∧
    cursor_and_length (run_inputs Env.zero inputs_export_AB state_AB) = some (2, 2) ∧
    (∀ st1, run_inputs Env.zero inputs_export_AB state_AB = .ok st1 → cursor_in_range st1) ∧
    token_list_retrieve_iter { state_AB with token_list_retrieve_index := 3 }
      = .error .null_deref :=
  ⟨⟨by decide, by decide⟩, by decide,
    fun st1 h => (C22_cursor_in_range Env.zero).2.1 inputs_export_AB state_AB st1
      ⟨by decide, by decide⟩
      ⟨⟨by decide, Or.inl rfl⟩, fun _ _ => ⟨trivial, fun _ _ => trivial⟩⟩ h,
    ((C22_cursor_in_range Env.zero).2.2.2.2.2 { result := none, finished := true }
      { state_AB with token_list_retrieve_index := 3 } (by decide) (by decide)).2.1⟩

/-! ## C16: the delete-token block at an id outside the `int8` range -/

/-- C16 at a present id outside the `int8` range.  The store holds the records
of ids 300 and 44, in this order.  The delete-token block for id 300 reads
the id as `int8`, that is as 44, and removes the record of id 44: the record
named, of id 300, stays in the store, at block level and after the whole
handler.  The store operations the block calls, handed the id 300 itself,
find the record at address 0 and remove it, leaving the record of id 44.
With the records of ids 300 and 1 in the store the block removes nothing and
ends in a `NULL` dereference. -/
theorem C16_delete_block_removes_another_record :
    store_ids state_300_44 = .ok [300, 44] ∧
    (am_delete_token { AMDeleteToken := some 300 } state_300_44).toOption.map store_ids
      = some (.ok [300]) ∧
    (in_received_handler Env.zero 10 (fun _ => .ok) { AMDeleteToken := some 300 }
        state_300_44).toOption.map store_ids = some (.ok [300]) ∧
    token_by_id state_300_44 300 = .ok (some 0) ∧
    store_ids (token_list_delete (some 0) state_300_44).1 = .ok [44] ∧
    fault_of (am_delete_token { AMDeleteToken := some 300 }
        (State.of_records [token_300, token_A])) = some .null_deref := by
  decide

/-! ## C3: acknowledgements of result messages of an earlier export -/

/-- C3, as the claim states it, fails for an empty store when a result message
of an earlier export is still unacknowledged.  The list of the store of
records A and B is requested (the result message of record A is sent), the
store is cleared and the list requested again: the cursor is back at 0, the
store is empty and the request has sent the message carrying only the
finished marker.  The acknowledgement of the result message of record A then
calls `token_list_retrieve_iter` once more and a second message carrying only
the finished marker is sent.  Likewise at the level of the block, from the
state with the empty store, the cursor at 1 and that result message sent. -/
theorem C3_stale_acknowledgement_repeats_finished_marker :
    sent_of (run_inputs Env.zero (inputs_stale_acknowledgement.take 1) state_AB)
      = some [sent_record_A] ∧
    cursor_and_length (run_inputs Env.zero (inputs_stale_acknowledgement.take 3) state_AB)
      = some (0, 0) ∧
    sent_of (run_inputs Env.zero (inputs_stale_acknowledgement.take 3) state_AB)
      = some [sent_record_A, finished_only] ∧
    sent_of (run_inputs Env.zero inputs_stale_acknowledgement state_AB)
      = some [sent_record_A, finished_only, finished_only] ∧
    records state_cleared_during_export = .ok [] ∧
    sent_of (export_run message_read [sent_record_A] state_cleared_during_export)
      = some [sent_record_A, finished_only, finished_only] := by
  decide

theorem results_acknowledged_cons_some (a : OutMessage) (acks : List OutMessage)
    (h : a.result.isSome = true) :
    results_acknowledged (a :: acks) = results_acknowledged acks + 1 := by
  simp [results_acknowledged, h]

theorem results_acknowledged_cons_none (a : OutMessage) (acks : List OutMessage)
    (h : a.result.isSome = false) :
    results_acknowledged (a :: acks) = results_acknowledged acks := by
  simp [results_acknowledged, h]

theorem sent_messages_append_sends (st : State) (l : List OutMessage) (i : Int) :
    sent_messages { st with trace := st.trace ++ l.map Event.app_message_outbox_send,
                            token_list_retrieve_index := i }
      = sent_messages st ++ l := by
  simp only [sent_messages, List.filterMap_append, List.filterMap_map]
  congr 1
  induction l with
  | nil => rfl
  | cons a l ih => simp [List.filterMap_cons, ih]

/-- With an empty store and the cursor at 0 every acknowledgement of a result
message sends the message carrying only the finished marker. -/
theorem acknowledge_empty_store :
    ∀ (acks : List OutMessage) (st : State), st.token_list = [] →
      st.token_list_retrieve_index = 0 →
      acknowledge acks st = .ok { st with
        trace := st.trace ++ (List.replicate (results_acknowledged acks) finished_only).map
          Event.app_message_outbox_send,
        token_list_retrieve_index := 0 }
  | [], st, _, hc => by
    cases st
    simp only at hc
    simp [acknowledge, results_acknowledged, hc]
  | a :: acks, st, hl, hc => by
    cases ha : a.result.isSome with
    | false =>
      rw [results_acknowledged_cons_none a acks ha]
      simp only [acknowledge, out_sent_handler, ha, Bool.false_eq_true, if_false]
      exact acknowledge_empty_store acks st hl hc
    | true =>
      rw [results_acknowledged_cons_some a acks ha]
      have hiter : token_list_retrieve_iter st =
          .ok (emit (.app_message_outbox_send finished_only) st) := by
        simp [token_list_retrieve_iter, token_list_length, hl, hc, toShort, finished_only]
      simp only [acknowledge, out_sent_handler, ha, if_true, hiter]
      rw [acknowledge_empty_store acks (emit (.app_message_outbox_send finished_only) st) hl hc]
      simp [emit, List.replicate_succ]

/-- With a non-empty store and the cursor after the records `pre`, every
acknowledgement of a result message sends the next of the remaining records
`rest`, until none is left; the acknowledgements after that send nothing. -/
theorem acknowledge_export {ts : List TokenInfo} (hlen : ts.length ≤ 32767) (hne : ts ≠ []) :
    ∀ (acks : List OutMessage) (rest pre : List TokenInfo) (st : State),
      ts = pre ++ rest → records st = .ok ts →
      st.token_list_retrieve_index = pre.length →
      acknowledge acks st = .ok { st with
        trace := st.trace ++
          ((export_results ts.length pre.length rest).take (results_acknowledged acks)).map
            Event.app_message_outbox_send,
        token_list_retrieve_index :=
          (pre.length + min (results_acknowledged acks) rest.length : Nat) } := by
  intro acks
  induction acks with
  | nil =>
    intro rest pre st _ _ hcur
    cases st
    simp only at hcur
    simp [acknowledge, results_acknowledged, hcur]
  | cons a acks ih =>
    intro rest pre st hts hrec hcur
    cases ha : a.result.isSome with
    | false =>
      rw [results_acknowledged_cons_none a acks ha]
      simp only [acknowledge, out_sent_handler, ha, Bool.false_eq_true, if_false]
      exact ih rest pre st hts hrec hcur
    | true =>
      rw [results_acknowledged_cons_some a acks ha]
      cases rest with
      | nil =>
        have hts1 : ts = pre := by simpa using hts
        have hcur1 : st.token_list_retrieve_index = ts.length := by rw [hcur, hts1]
        have hdone := token_list_retrieve_iter_done hrec hlen hne hcur1
        simp only [acknowledge, out_sent_handler, ha, if_true, hdone]
        rw [ih [] pre st hts hrec hcur]
        simp [export_results]
      | cons t rest1 =>
        have hrec1 : records st = .ok (pre ++ t :: rest1) := by rw [hrec, hts]
        have hlen1 : (pre ++ t :: rest1).length ≤ 32767 := by rw [← hts]; exact hlen
        have hstep := token_list_retrieve_iter_step hrec1 hlen1 hcur
        simp only [acknowledge, out_sent_handler, ha, if_true, hstep]
        rw [ih rest1 (pre ++ [t])
          { emit (.app_message_outbox_send
              { result := some { id := t.id, name := strncpy_name t.name },
                finished := decide (pre.length + 1 = (pre ++ t :: rest1).length) }) st with
            token_list_retrieve_index := (pre.length + 1 : Nat) }
          (by rw [hts]; simp)
          (by rw [← hrec]; exact records_congr rfl rfl)
          (by simp)]
        have hn : (pre ++ t :: rest1).length = ts.length := by rw [hts]
        have hmin : (pre ++ [t]).length + min (results_acknowledged acks) rest1.length =
            pre.length + min (results_acknowledged acks + 1) (t :: rest1).length := by
          simp only [List.length_append, List.length_cons, List.length_nil]
          omega
        rw [hmin, hn]
        simp only [emit, export_results, List.take_succ_cons, List.map_cons,
          List.length_append, List.length_cons, List.length_nil, List.append_assoc,
          List.singleton_append, Nat.zero_add]

/-- C3, amended.  For every state whose token list holds the records `ts` (at
most 32767, the range of the `short` length) and whatever the cursor was, the
Read-token-list request restarts the cursor (after the request it stands at
0 for an empty list and at 1, behind the first record, otherwise).  When the
acknowledgements are those of the messages the export itself sends
(`export_handshake`), the run completes with every sent message
acknowledged, the cursor at the end of the list, nothing else changed, and
exactly the messages `export_messages ts` sent: for a non-empty list one
result message per record, the `k`-th carrying the id and name of the record
at position `k` and the finished marker exactly when `k` is the last
position; for an empty list the lone finished marker.  When any
acknowledgements follow the request (`export_run`), among them `j` of result
messages, whether sent by this export or by an earlier one: for a non-empty
list the run has sent the first `j + 1` of the messages `export_messages ts`
(all of them once `j + 1` reaches the number of records, and nothing after
them); for an empty list it has sent the message carrying only the finished
marker `j + 1` times, once on the request and once more on every
acknowledgement of a result message. -/
theorem C3_export_handshake (m : Message) (st : State) (ts : List TokenInfo) (fuel : Nat)
    (hm : m.AMReadTokenList = true) (hrec : records st = .ok ts)
    (hlen : ts.length ≤ 32767) (hfuel : ts.length + 1 ≤ fuel) :
    ((∃ st0, am_read_token_list m st = .ok st0 ∧
      st0.token_list_retrieve_index = if ts = [] then 0 else 1) ∧
    ∃ st1, export_handshake fuel m st = .ok (st1, (sent_messages st1).length) ∧
      st1 = { st with
        trace := st.trace ++ (export_messages ts).map Event.app_message_outbox_send,
        token_list_retrieve_index := (ts.length : Nat) } ∧
      sent_messages st1 = sent_messages st ++ export_messages ts ∧
      (ts = [] → export_messages ts = [{ result := none, finished := true }]) ∧
      (ts ≠ [] → (export_messages ts).length = ts.length ∧
        ∀ (k : Nat) (t : TokenInfo), ts.get? k = some t →
          (export_messages ts).get? k =
            some { result := some { id := t.id, name := strncpy_name t.name },
                   finished := decide (k + 1 = ts.length) })) ∧
    (∀ acks : List OutMessage, ∃ st2, export_run m acks st = .ok st2 ∧
      st2 = { st with
        trace := st.trace ++
          (if ts = [] then List.replicate (results_acknowledged acks + 1) finished_only
            else (export_messages ts).take (results_acknowledged acks + 1)).map
            Event.app_message_outbox_send,
        token_list_retrieve_index := (min (results_acknowledged acks + 1) ts.length : Nat) } ∧
      sent_messages st2 = sent_messages st ++
        (if ts = [] then List.replicate (results_acknowledged acks + 1) finished_only
          else (export_messages ts).take (results_acknowledged acks + 1))) := by
  refine ⟨export_handshake_complete m st ts fuel hm hrec hlen hfuel, ?_⟩
  intro acks
  refine ⟨_, ?_, rfl, sent_messages_append_sends _ _ _⟩
  cases ts with
  | nil =>
    have hl := deref_all_length hrec
    simp only [List.length_nil, List.length_eq_zero] at hl
    have hiter : token_list_retrieve_iter { st with token_list_retrieve_index := 0 } =
        .ok (emit (.app_message_outbox_send finished_only)
          { st with token_list_retrieve_index := 0 }) := by
      simp [token_list_retrieve_iter, token_list_length, hl, toShort, finished_only]
    simp only [export_run, am_read_token_list, hm, if_true, hiter]
    refine (acknowledge_empty_store acks
      (emit (.app_message_outbox_send finished_only) { st with token_list_retrieve_index := 0 })
      hl rfl).trans ?_
    simp [emit, List.replicate_succ]
  | cons t rest =>
    have hrec0 : records { st with token_list_retrieve_index := 0 } = .ok ([] ++ t :: rest) := by
      rw [List.nil_append, ← hrec]; exact records_congr rfl rfl
    have hstep := token_list_retrieve_iter_step hrec0 hlen rfl
    simp only [export_run, am_read_token_list, hm, if_true, hstep]
    refine (acknowledge_export hlen (List.cons_ne_nil t rest) acks rest [t]
      { emit (.app_message_outbox_send
          { result := some { id := t.id, name := strncpy_name t.name },
            finished := decide (([] : List TokenInfo).length + 1 = ([] ++ t :: rest).length) })
          { st with token_list_retrieve_index := 0 } with
        token_list_retrieve_index := (([] : List TokenInfo).length + 1 : Nat) }
      rfl (by rw [← hrec]; exact records_congr rfl rfl) (by simp)).trans ?_
    have hmin : ([t] : List TokenInfo).length + min (results_acknowledged acks) rest.length =
        min (results_acknowledged acks + 1) (t :: rest).length := by
      simp only [List.length_cons, List.length_nil]
      omega
    rw [hmin]
    simp [emit, export_messages, export_results, List.take_succ_cons]

theorem C3_export_handshake_witness :
    records state_AB_cursor_7 = .ok [token_A, token_B] ∧
    ((∃ st0, am_read_token_list message_read state_AB_cursor_7 = .ok st0 ∧
      st0.token_list_retrieve_index = if ([token_A, token_B] : List TokenInfo) = [] then 0 else 1) ∧
    ∃ st1, export_handshake 3 message_read state_AB_cursor_7
        = .ok (st1, (sent_messages st1).length) ∧
      st1 = { state_AB_cursor_7 with
        trace := state_AB_cursor_7.trace ++
          (export_messages [token_A, token_B]).map Event.app_message_outbox_send,
        token_list_retrieve_index := (([token_A, token_B] : List TokenInfo).length : Nat) } ∧
      sent_messages st1 = sent_messages state_AB_cursor_7 ++ export_messages [token_A, token_B] ∧
      (([token_A, token_B] : List TokenInfo) = [] →
        export_messages [token_A, token_B] = [{ result := none, finished := true }]) ∧
      (([token_A, token_B] : List TokenInfo) ≠ [] →
        (export_messages [token_A, token_B]).length = ([token_A, token_B] : List TokenInfo).length ∧
        ∀ (k : Nat) (t : TokenInfo), ([token_A, token_B] : List TokenInfo).get? k = some t →
          (export_messages [token_A, token_B]).get? k =
            some { result := some { id := t.id, name := strncpy_name t.name },
                   finished := decide (k + 1 = ([token_A, token_B] : List TokenInfo).length) })) ∧
    (∀ acks : List OutMessage, ∃ st2, export_run message_read acks state_AB_cursor_7 = .ok st2 ∧
      st2 = { state_AB_cursor_7 with
        trace := state_AB_cursor_7.trace ++
          (if ([token_A, token_B] : List TokenInfo) = []
            then List.replicate (results_acknowledged acks + 1) finished_only
            else (export_messages [token_A, token_B]).take (results_acknowledged acks + 1)).map
            Event.app_message_outbox_send,
        token_list_retrieve_index :=
          (min (results_acknowledged acks + 1) ([token_A, token_B] : List TokenInfo).length : Nat) } ∧
      sent_messages st2 = sent_messages state_AB_cursor_7 ++
        (if ([token_A, token_B] : List TokenInfo) = []
          then List.replicate (results_acknowledged acks + 1) finished_only
          else (export_messages [token_A, token_B]).take (results_acknowledged acks + 1))) :=
  ⟨by decide,
    C3_export_handshake message_read state_AB_cursor_7 [token_A, token_B] 3 rfl
      (by decide) (by decide) (by decide)⟩

end PTOTP
